import Mathlib

/-!
# JitRt argument specialization

A shallow embedding of `backends/jitrt/lib/specialization.cc` and of the
argument descriptor of `backends/jitrt/include/tfrt/jitrt/types.h`.

* host (MLIR) types are the inductive `MType`;
* `llvm::Error` is `Option Error` (`none` is `Error::success()`), and
  `llvm::Expected<T>` is `Except Error T`;
* the function being specialized is a `FuncOp` record that is passed through
  the steps of `SpecializeFunction` explicitly, together with the log of the
  notifications sent to the listener;
* functions that the sources call but do not define (element type conversion,
  the value specialization predicate) are the fields of a `Host` record.
-/

namespace JitRt

/-! ## Data model -/

/-- Element data types of `tfrt/dtype/dtype.h`. The sources name `I32` and `I64`;
`F32` is kept apart for the examples and every other kind is `other code`. -/
inductive DType where
  | I32
  | I64
  | F32
  | other (code : Nat)
  deriving DecidableEq, Repr

/-- Host compiler types (`mlir::Type`), as far as the specialization code tells
them apart: the four shaped classes it casts to, integer types (used for the
elements of attributes), and every other type (`other code`: floats, index,
async tokens, ...). A shape is the list of its `int64_t` dimensions. -/
inductive MType where
  | integer (width : Nat)
  | other (code : Nat)
  | memref (shape : List Int) (elementType : MType)
  | unrankedMemref (elementType : MType)
  | rankedTensor (shape : List Int) (elementType : MType)
  | unrankedTensor (elementType : MType)
  deriving DecidableEq, Repr

/-- The view of a shaped type that `VerifyMemrefOperand` reads through
`mlir::ShapedType`: `hasRank()`/`getShape()` (here `shape`, `none` when the type
has no rank) and `getElementType()`. -/
structure ShapedType where
  shape : Option (List Int)
  elementType : MType
  deriving DecidableEq, Repr

/-- The class `MemrefDesc` of `types.h`, with its five data members. The data
pointer is an address; what it points to is read through a `Memory`. -/
structure MemrefDesc where
  rank_ : Nat
  dtype_ : DType
  data_ : Nat
  offset_ : Int
  sizes_and_strides_ : List Int
  deriving DecidableEq, Repr

namespace MemrefDesc

/-- The accessor `rank()`. -/
def rank (d : MemrefDesc) : Nat := d.rank_

/-- The accessor `dtype()`. -/
def dtype (d : MemrefDesc) : DType := d.dtype_

/-- The accessor `data()`. -/
def data (d : MemrefDesc) : Nat := d.data_

/-- The accessor `offset()`. -/
def offset (d : MemrefDesc) : Int := d.offset_

/-- The accessor `size(index)`, that is `sizes_and_strides_[index]`. The index is
in range on every descriptor built by a constructor when `index < rank()`;
outside the vector the source reads out of bounds, the embedding reads 0. -/
def size (d : MemrefDesc) (index : Nat) : Int := d.sizes_and_strides_.getD index 0

/-- The accessor `stride(index)`, that is `sizes_and_strides_[rank_ + index]`. -/
def stride (d : MemrefDesc) (index : Nat) : Int :=
  d.sizes_and_strides_.getD (d.rank_ + index) 0

/-- The accessor `sizes()`: the `rank_` elements starting at the front. -/
def sizes (d : MemrefDesc) : List Int := d.sizes_and_strides_.take d.rank_

/-- The accessor `strides()`: the `rank_` elements starting at position `rank_`. -/
def strides (d : MemrefDesc) : List Int := (d.sizes_and_strides_.drop d.rank_).take d.rank_

end MemrefDesc

/-- A call argument (`Argument` of the runtime): either a `MemrefDesc` or an
argument of any other class, for which `dyn_cast<MemrefDesc>` is null. -/
inductive Argument where
  | memref (desc : MemrefDesc)
  | other (id : Nat)
  deriving DecidableEq, Repr

/-- A symbolic shape (`SymbolicShapesResolver::SymbolicShape`): per dimension a
non-negative size or a negative symbolic id. -/
abbrev SymbolicShape := List Int

/-- The errors of the specialization code, one constructor per message, with the
values the message prints. `conversion` wraps the error of the host element type
conversion; `dtypeMismatch`, `rankMismatch` and `dimMismatch` are the three
verification errors; `indexOutOfRange` stands for the assertion of an
`ArrayRef`/`SmallVector` subscript outside the sequence. -/
inductive Error where
  | conversion (message : String)
  | dtypeMismatch (index : Nat) (expected actual : DType)
  | rankMismatch (index : Nat) (expected actual : Nat)
  | dimMismatch (index dim : Nat) (expected actual : Int)
  | unexpectedSymbolicShape (argument : Argument)
  | unsupportedInputType (type : MType)
  | nonSinkableOperand (input : MType)
  | nonSinkableArgument (argument : Argument)
  | cannotGetValue (input : MType)
  | indexOutOfRange
  deriving DecidableEq, Repr

/-- The functions of the host compiler that the specialization code calls and the
sources do not define: `TypeConverter::ConvertElementType` and
`SupportsValueSpecialization`. -/
structure Host where
  ConvertElementType : MType → Except String DType
  SupportsValueSpecialization : MType → Bool

/-- Modelled from the spec: the constant `mlir::ShapedType::kDynamicSize`, the
sentinel of a dimension of unknown extent, declared outside the sources. It is
not a non-negative size; MLIR defined it as -1 when the file was written. -/
def kDynamicSize : Int := -1

/-- Modelled from the spec: `SymbolicShapesResolver::Normalize`, defined outside
the sources. It replaces every symbolic id (negative entry) by the dynamic
dimension sentinel and keeps every concrete size. -/
def Normalize (shape : SymbolicShape) : List Int :=
  shape.map (fun dim => if dim < 0 then kDynamicSize else dim)

/-! ## Operand verification -/

/-- Modelled from the spec: the loop of entry point (1) of the operand verifier
over the dimensions: each expected concrete size must equal the size of the
descriptor at that position, positions expected dynamic are unconstrained. `dim`
is the position of the heads of the two lists. -/
def verifyDims (index : Nat) : Nat → List Int → List Int → Option Error
  | _, [], _ => none
  | _, _ :: _, [] => none
  | dim, operand_dim :: ops, expected_dim :: exps =>
    if operand_dim ≠ expected_dim ∧ expected_dim ≠ kDynamicSize then
      some (Error.dimMismatch index dim expected_dim operand_dim)
    else verifyDims index (dim + 1) ops exps

/-- Modelled from the spec: `VerifyMemrefArgument`, entry point (1) of the operand
verifier, defined outside the sources. The dtype must match exactly; when the
expected sizes are present the rank must match and then the sizes are compared.
With no expected sizes (an unranked type) only the dtype is checked. -/
def VerifyMemrefArgument (index : Nat) (element_type : DType) (sizes : Option (List Int))
    (memref : MemrefDesc) : Option Error :=
  if memref.dtype ≠ element_type then
    some (Error.dtypeMismatch index element_type memref.dtype)
  else
    match sizes with
    | none => none
    | some expected =>
      if memref.rank ≠ expected.length then
        some (Error.rankMismatch index expected.length memref.rank)
      else verifyDims index 0 memref.sizes expected

/-- The static function `VerifyMemrefOperand(index, shaped, memref)` of
`specialization.cc`: convert the element type, return the conversion error if
there is one, then verify against a ranked or an unranked type. -/
def VerifyMemrefOperand (H : Host) (index : Nat) (shaped : ShapedType)
    (memref : MemrefDesc) : Option Error :=
  match H.ConvertElementType shaped.elementType with
  | .error err => some (Error.conversion err)
  | .ok element_ty =>
    match shaped.shape with
    | some shape => VerifyMemrefArgument index element_ty (some shape) memref
    | none => VerifyMemrefArgument index element_ty none memref

/-! ## Specialization of one operand type -/

/-- The function `SpecializeOperandType` of `specialization.cc`: the input `type`
specialized to the argument and its symbolic shape. -/
def SpecializeOperandType (H : Host) (index : Nat) (type : MType) (argument : Argument)
    (symbolic_shape : SymbolicShape) : Except Error MType :=
  match argument with
  | .other _ =>
    if symbolic_shape ≠ [] then .error (Error.unexpectedSymbolicShape argument)
    else .ok type
  | .memref memref_arg =>
    let shape := Normalize symbolic_shape
    match type with
    | .memref declared elementType =>
      match VerifyMemrefOperand H index ⟨some declared, elementType⟩ memref_arg with
      | some err => .error err
      | none => .ok (.memref shape elementType)
    | .rankedTensor declared elementType =>
      match VerifyMemrefOperand H index ⟨some declared, elementType⟩ memref_arg with
      | some err => .error err
      | none => .ok (.rankedTensor shape elementType)
    | .unrankedTensor elementType =>
      match VerifyMemrefOperand H index ⟨none, elementType⟩ memref_arg with
      | some err => .error err
      | none => .ok (.rankedTensor shape elementType)
    | _ => .error (Error.unsupportedInputType type)

/-! ## The function being specialized -/

/-- An SSA value (`mlir::Value`): block arguments and operation results are told
apart by their number, which stands for the identity of the object. -/
abbrev Value := Nat

/-- An integer attribute (`mlir::IntegerAttr`): its integer type and its value. -/
structure IntegerAttr where
  type : MType
  value : Int
  deriving DecidableEq, Repr

/-- A dense elements attribute (`mlir::DenseElementsAttr`) built from integer
attributes: its shaped type and its elements in order. The null attribute of the
source is `none` of `Option DenseElementsAttr`. -/
structure DenseElementsAttr where
  type : MType
  values : List IntegerAttr
  deriving DecidableEq, Repr

/-- Attributes that can sit in an argument attribute dictionary: the dense
attributes the specialization attaches, and any other attribute. -/
inductive Attribute where
  | dense (value : DenseElementsAttr)
  | other (code : Nat)
  deriving DecidableEq, Repr

/-- The attribute dictionary of one argument (`mlir::DictionaryAttr`): named
attributes, at most one per name. -/
abbrev ArgDict := List (String × Attribute)

/-- Lookup of a name in an argument attribute dictionary. -/
def ArgDict.get (d : ArgDict) (name : String) : Option Attribute :=
  match d with
  | [] => none
  | (n, a) :: rest => if n = name then some a else ArgDict.get rest name

/-- Setting a name in an argument attribute dictionary: the entry of that name is
replaced, or the entry is added when the name is absent. -/
def ArgDict.set (d : ArgDict) (name : String) (value : Attribute) : ArgDict :=
  match d with
  | [] => [(name, value)]
  | (n, a) :: rest =>
    if n = name then (n, value) :: rest else (n, a) :: ArgDict.set rest name value

/-- A block argument (`mlir::BlockArgument`): the value and its type. -/
structure BlockArgument where
  value : Value
  type : MType
  deriving DecidableEq, Repr

/-- The operations the specialization creates, and every other operation. -/
inductive OpKind where
  | cast
  | constant (value : DenseElementsAttr)
  | other (code : Nat)
  deriving DecidableEq, Repr

/-- An operation of the function body: its kind, the values it uses (its operands
and the uses inside its regions), and its results with their types. -/
structure Operation where
  kind : OpKind
  operands : List Value
  results : List BlockArgument
  deriving DecidableEq, Repr

/-- The function (`mlir::func::FuncOp`), as far as `SpecializeFunction` reads and
writes it: the inputs and results of its function type, the arguments of its
entry block, the attribute dictionaries of its arguments (an argument past the
end of the list has the empty dictionary), the operations of its body with the
entry block in front, and the number of values created so far, from which the
identity of a new value is taken. -/
structure FuncOp where
  inputs : List MType
  results : List MType
  arguments : List BlockArgument
  argAttrs : List ArgDict
  body : List Operation
  nextValue : Nat
  deriving DecidableEq, Repr

namespace FuncOp

/-- The method `getNumArguments()`: the number of inputs of the function type. -/
def getNumArguments (func : FuncOp) : Nat := func.inputs.length

/-- The attribute dictionary of argument `i`. -/
def getArgAttrDict (func : FuncOp) (i : Nat) : ArgDict := func.argAttrs.getD i []

/-- The method `getArgAttr(i, name)`. -/
def getArgAttr (func : FuncOp) (i : Nat) (name : String) : Option Attribute :=
  (func.getArgAttrDict i).get name

/-- The method `getAllArgAttrs`: one dictionary per argument, in index order. -/
def getAllArgAttrs (func : FuncOp) : List ArgDict :=
  (List.range func.getNumArguments).map func.getArgAttrDict

end FuncOp

/-- Writing the dictionary of argument `i` in the list of dictionaries; the list
is extended with empty dictionaries when it is too short. -/
def setArgDict : List ArgDict → Nat → ArgDict → List ArgDict
  | [], 0, d => [d]
  | [], i + 1, d => [] :: setArgDict [] i d
  | _ :: rest, 0, d => d :: rest
  | x :: rest, i + 1, d => x :: setArgDict rest i d

/-- The method `setArgAttr(i, name, value)`. -/
def FuncOp.setArgAttr (func : FuncOp) (i : Nat) (name : String) (value : Attribute) : FuncOp :=
  { func with argAttrs := setArgDict func.argAttrs i ((func.getArgAttrDict i).set name value) }

/-- The method `Value::replaceAllUsesWith` on the body: every use of `old` becomes
a use of `new`. -/
def replaceAllUsesWith (old new : Value) (body : List Operation) : List Operation :=
  body.map (fun op => { op with operands := op.operands.map (fun v => if v = old then new else v) })

/-- Insertion of an operation at position `ip` of the body (`OpBuilder::create` at
the insertion point). -/
def insertOp (body : List Operation) (ip : Nat) (op : Operation) : List Operation :=
  body.take ip ++ op :: body.drop ip

/-- Modelled from the spec: the enumeration `ArgumentConstraint`, declared outside
the sources; the source names `kValue` only. -/
inductive ArgumentConstraint where
  | kNone
  | kRank
  | kShape
  | kValue
  deriving DecidableEq, Repr

/-- What the data pointer of a descriptor points to: `mem dtype p i` is the
element `static_cast<T*>(p)[i]`, for `T` the C++ type of `dtype`. -/
abbrev Memory := DType → Nat → Nat → Int

/-- A call of a method of the `SpecializationListener`. -/
inductive Notification where
  | valueSpecialized (index : Nat) (type : MType) (value : DenseElementsAttr)
  | moduleSpecialized (inputs : List MType) (attrs : List ArgDict)
  deriving DecidableEq, Repr

/-- What a call of `SpecializeFunction` leaves behind: the error it returns
(`none` is success), the function as mutated by the call, and the notifications
the listener received, in order. -/
structure Outcome where
  error : Option Error
  func : FuncOp
  notifications : List Notification
  deriving DecidableEq, Repr

/-- The cast `dyn_cast<mlir::TensorType>`: ranked and unranked tensors. -/
def dynCastTensor : MType → Option ShapedType
  | .rankedTensor shape elementType => some ⟨some shape, elementType⟩
  | .unrankedTensor elementType => some ⟨none, elementType⟩
  | _ => none

/-- The key of the symbolic shape argument attribute. -/
def kSymbolicShapeAttr : String := "jitrt.symbolic_shape"

/-! ## Extraction of the values of a descriptor -/

/-- The function `GetMemrefValues` of `specialization.cc`: the values of `desc`
in a dense attribute, `none` if it cannot extract them. `num_values` is a
`size_t`: the size of dimension 0 is reduced modulo `2^64`. -/
def GetMemrefValues (mem : Memory) (operand_type : ShapedType) (desc : MemrefDesc) :
    Option DenseElementsAttr :=
  let rank := desc.rank
  if rank ≠ 0 ∧ rank ≠ 1 then none
  else
    let num_values : Nat := if rank = 0 then 1 else (desc.size 0 % 2 ^ 64).toNat
    let element_type := operand_type.elementType
    let ranked_tensor := MType.rankedTensor desc.sizes element_type
    match desc.dtype with
    | .I32 =>
      some ⟨ranked_tensor,
        (List.range num_values).map (fun i => ⟨.integer 32, mem .I32 desc.data i⟩)⟩
    | .I64 =>
      some ⟨ranked_tensor,
        (List.range num_values).map (fun i => ⟨.integer 64, mem .I64 desc.data i⟩)⟩
    | _ => none

/-! ## Specialization of the function -/

/-- Step 1 of `SpecializeFunction`, the loop `for (i = 0; i < num_inputs; ++i)`
that specializes the inputs, from index `i` on: `inputs` are the inputs of the
function type from position `i`. The first error is returned at once. -/
def specializeInputs (H : Host) (arguments : List Argument)
    (symbolic_shapes : List SymbolicShape) : Nat → List MType → Except Error (List MType)
  | _, [] => .ok []
  | i, type :: inputs =>
    match arguments[i]?, symbolic_shapes[i]? with
    | some argument, some symbolic_shape =>
      match SpecializeOperandType H i type argument symbolic_shape with
      | .error err => .error err
      | .ok specialized =>
        match specializeInputs H arguments symbolic_shapes (i + 1) inputs with
        | .error err => .error err
        | .ok rest => .ok (specialized :: rest)
    | _, _ => .error Error.indexOutOfRange

/-- One iteration of the loop that forwards the original block arguments: a new
argument of the specialized type is added at the end of the entry block, a cast
to the type of the old argument `i` is created at the insertion point `ip` when
the two types differ, and the uses of the old argument are replaced. Returns
the function and the insertion point after the iteration. -/
def forwardArgument (func : FuncOp) (ip : Nat) (i : Nat) (specialized : MType) :
    Except Error (FuncOp × Nat) :=
  let new_arg : BlockArgument := ⟨func.nextValue, specialized⟩
  let arguments := func.arguments ++ [new_arg]
  match arguments[i]? with
  | none => .error Error.indexOutOfRange
  | some old_arg =>
    if new_arg.type ≠ old_arg.type then
      let result : Value := func.nextValue + 1
      let cast : Operation := ⟨.cast, [new_arg.value], [⟨result, old_arg.type⟩]⟩
      .ok ({ func with arguments := arguments,
                       body := replaceAllUsesWith old_arg.value result
                                 (insertOp func.body ip cast),
                       nextValue := func.nextValue + 2 }, ip + 1)
    else
      .ok ({ func with arguments := arguments,
                       body := replaceAllUsesWith old_arg.value new_arg.value func.body,
                       nextValue := func.nextValue + 1 }, ip)

/-- The loop `for (i = 0; i < num_inputs; ++i)` over `forwardArgument`, from index
`i` on: `specialized_inputs` are the specialized inputs from position `i`. -/
def forwardArguments : FuncOp → Nat → Nat → List MType → Except Error (FuncOp × Nat)
  | func, ip, _, [] => .ok (func, ip)
  | func, ip, i, specialized :: rest =>
    match forwardArgument func ip i specialized with
    | .error err => .error err
    | .ok (func, ip) => forwardArguments func ip (i + 1) rest

/-- The call `entry_block.eraseArguments` with the indices `0 .. num_inputs - 1`. -/
def eraseArguments (func : FuncOp) (num_inputs : Nat) : FuncOp :=
  { func with arguments := func.arguments.drop num_inputs }

/-- The symbolic shape attribute: a dense attribute of type `tensor<rank x i64>`
with one `i64` integer attribute per entry of the symbolic shape. -/
def symbolicShapeAttr (shape : SymbolicShape) : Attribute :=
  .dense ⟨.rankedTensor [(shape.length : Int)] (.integer 64),
          shape.map (fun dim => ⟨.integer 64, dim⟩)⟩

/-- The loop that adds the symbolic shapes as argument attributes, from index `i`
on, with `n` iterations left. Statically known shapes are skipped. -/
def addSymbolicShapes (symbolic_shapes : List SymbolicShape) :
    Nat → Nat → FuncOp → Except Error FuncOp
  | _, 0, func => .ok func
  | i, n + 1, func =>
    match symbolic_shapes[i]? with
    | none => .error Error.indexOutOfRange
    | some shape =>
      if shape.all (fun dim => decide (dim ≥ 0)) then
        addSymbolicShapes symbolic_shapes (i + 1) n func
      else
        addSymbolicShapes symbolic_shapes (i + 1) n
          (func.setArgAttr i kSymbolicShapeAttr (symbolicShapeAttr shape))

/-- The body of the loop that sinks small constants into the function body, for
an argument `i` whose constraint is `kValue`: `ip` is the insertion point of the
builder and `log` the notifications sent so far. An error ends the call. -/
def sinkArgument (H : Host) (mem : Memory) (arguments : List Argument) (listener : Bool)
    (i : Nat) (func : FuncOp) (ip : Nat) (log : List Notification) : Outcome :=
  match func.inputs[i]? with
  | none => ⟨some Error.indexOutOfRange, func, log⟩
  | some input =>
    match dynCastTensor input with
    | none => ⟨some (Error.nonSinkableOperand input), func, log⟩
    | some tensor =>
      if ¬ H.SupportsValueSpecialization input then
        ⟨some (Error.nonSinkableOperand input), func, log⟩
      else
        match arguments[i]? with
        | none => ⟨some Error.indexOutOfRange, func, log⟩
        | some (.other id) => ⟨some (Error.nonSinkableArgument (.other id)), func, log⟩
        | some (.memref memref) =>
          match GetMemrefValues mem tensor memref with
          | none => ⟨some (Error.cannotGetValue input), func, log⟩
          | some value =>
            let result : Value := func.nextValue
            let cst : Operation := ⟨.constant value, [], [⟨result, value.type⟩]⟩
            let body := insertOp func.body ip cst
            match func.arguments[i]? with
            | none =>
              ⟨some Error.indexOutOfRange,
               { func with body := body, nextValue := func.nextValue + 1 }, log⟩
            | some argument =>
              ⟨none,
               { func with body := replaceAllUsesWith argument.value result body,
                           nextValue := func.nextValue + 1 },
               if listener then log ++ [Notification.valueSpecialized i value.type value]
               else log⟩

/-- The loop `for (i = 0; i < constraints.size(); ++i)` that sinks small constants
into the function body, from index `i` on: `constraints` are the constraints from
position `i`. Arguments whose constraint is not `kValue` are passed over; the
builder has moved by one position after each constant it created. -/
def sinkConstants (H : Host) (mem : Memory) (arguments : List Argument) (listener : Bool) :
    Nat → List ArgumentConstraint → FuncOp → Nat → List Notification → Outcome
  | _, [], func, _, log => ⟨none, func, log⟩
  | i, constraint :: constraints, func, ip, log =>
    if constraint ≠ ArgumentConstraint.kValue then
      sinkConstants H mem arguments listener (i + 1) constraints func ip log
    else
      let sunk := sinkArgument H mem arguments listener i func ip log
      match sunk.error with
      | some err => ⟨some err, sunk.func, sunk.notifications⟩
      | none =>
        sinkConstants H mem arguments listener (i + 1) constraints sunk.func (ip + 1)
          sunk.notifications

/-- The function `SpecializeFunction` of `specialization.cc`. `listener` tells
whether a listener is passed. -/
def SpecializeFunction (H : Host) (mem : Memory) (func : FuncOp) (arguments : List Argument)
    (symbolic_shapes : List SymbolicShape) (constraints : List ArgumentConstraint)
    (listener : Bool) : Outcome :=
  let num_inputs := func.getNumArguments
  match specializeInputs H arguments symbolic_shapes 0 func.inputs with
  | .error err => ⟨some err, func, []⟩
  | .ok specialized_inputs =>
    let func := { func with inputs := specialized_inputs }
    match forwardArguments func 0 0 specialized_inputs with
    | .error err => ⟨some err, func, []⟩
    | .ok (func, _) =>
      let func := eraseArguments func num_inputs
      match addSymbolicShapes symbolic_shapes 0 num_inputs func with
      | .error err => ⟨some err, func, []⟩
      | .ok func =>
        let sunk := sinkConstants H mem arguments listener 0 constraints func 0 []
        match sunk.error with
        | some err => ⟨some err, sunk.func, sunk.notifications⟩
        | none =>
          if listener then
            ⟨none, sunk.func, sunk.notifications ++
              [Notification.moduleSpecialized specialized_inputs sunk.func.getAllArgAttrs]⟩
          else ⟨none, sunk.func, sunk.notifications⟩

/-- The decision of the sinking pass for an argument marked `kValue`, written
after the specification: the input type must be a tensor type that supports value
specialization, else "non-sinkable operand"; the argument must be a descriptor,
else "non-sinkable argument"; the descriptor must have rank 0 or 1 and dtype `I32`
or `I64`, else "cannot get value"; `none` means that the argument is sunk. -/
def sinkDecision (H : Host) (input : MType) (argument : Argument) : Option Error :=
  if (dynCastTensor input).isNone ∨ H.SupportsValueSpecialization input = false then
    some (Error.nonSinkableOperand input)
  else
    match argument with
    | .other id => some (Error.nonSinkableArgument (.other id))
    | .memref desc =>
      if (desc.rank ≠ 0 ∧ desc.rank ≠ 1) ∨ (desc.dtype ≠ DType.I32 ∧ desc.dtype ≠ DType.I64) then
        some (Error.cannotGetValue input)
      else none

/-- A host used to evaluate the definitions on examples: `i32` and `i64` convert
to `I32` and `I64`, the type `other 0` (read as `f32`) to `F32`, nothing else
converts; value specialization is supported for tensors of rank 0 or 1 of `i32`
or `i64`. -/
def testHost : Host where
  ConvertElementType := fun t =>
    match t with
    | .integer 32 => .ok DType.I32
    | .integer 64 => .ok DType.I64
    | .other 0 => .ok DType.F32
    | _ => .error "unsupported element type"
  SupportsValueSpecialization := fun t =>
    match t with
    | .rankedTensor shape (.integer w) => decide (shape.length ≤ 1) && (w == 32 || w == 64)
    | _ => false

/-- A descriptor used in the examples: rank 1, four `I32` elements at address 200. -/
def exampleVector : MemrefDesc := ⟨1, .I32, 200, 0, [4, 1]⟩

/-- A descriptor used in the examples: rank 2, a 2x4 `I32` buffer at address 100. -/
def exampleMatrix : MemrefDesc := ⟨2, .I32, 100, 0, [2, 4, 4, 1]⟩

/-- A memory used in the examples: the elements at address 200 are 1, 2, 3, 4 and
every other element is 0. -/
def exampleMemory : Memory := fun _ p i => if p = 200 then [1, 2, 3, 4].getD i 0 else 0

/-- The conversion of a host type to `mlir::ShapedType`, as at the calls of
`VerifyMemrefOperand`: `none` for a type that is not a memref or a tensor. -/
def dynCastShaped : MType → Option ShapedType
  | .memref shape elementType => some ⟨some shape, elementType⟩
  | .unrankedMemref elementType => some ⟨none, elementType⟩
  | .rankedTensor shape elementType => some ⟨some shape, elementType⟩
  | .unrankedTensor elementType => some ⟨none, elementType⟩
  | _ => none

/-- Whether the descriptor passes operand verification against the host type
`type`: `VerifyMemrefOperand` on the shaped view of the type returns success. -/
def passesVerification (H : Host) (index : Nat) (type : MType) (memref : MemrefDesc) : Bool :=
  match dynCastShaped type with
  | some shaped => (VerifyMemrefOperand H index shaped memref).isNone
  | none => false

/-- A function used in the examples: one input `tensor<?xi32>`, used by one
operation of the body. -/
def exampleUnary : FuncOp :=
  ⟨[.rankedTensor [-1] (.integer 32)], [], [⟨0, .rankedTensor [-1] (.integer 32)⟩], [],
   [⟨.other 7, [0], [⟨1, .integer 32⟩]⟩], 2⟩

/-- A function used in the examples: the inputs `tensor<?x?xi32>` and
`tensor<4xi32>`, both used by one operation of the body. -/
def exampleBinary : FuncOp :=
  ⟨[.rankedTensor [-1, -1] (.integer 32), .rankedTensor [4] (.integer 32)], [],
   [⟨0, .rankedTensor [-1, -1] (.integer 32)⟩, ⟨1, .rankedTensor [4] (.integer 32)⟩], [],
   [⟨.other 7, [0, 1], [⟨2, .integer 32⟩]⟩], 3⟩

/-- A descriptor used in the examples: rank 1, four `F32` elements at address 300. -/
def exampleFloatVector : MemrefDesc := ⟨1, .F32, 300, 0, [4, 1]⟩

/-- A function used in the examples: three inputs `tensor<?xi32>`, all used by one
operation of the body. -/
def exampleTernary : FuncOp :=
  ⟨[.rankedTensor [-1] (.integer 32), .rankedTensor [-1] (.integer 32),
    .rankedTensor [-1] (.integer 32)], [.integer 32],
   [⟨0, .rankedTensor [-1] (.integer 32)⟩, ⟨1, .rankedTensor [-1] (.integer 32)⟩,
    ⟨2, .rankedTensor [-1] (.integer 32)⟩], [],
   [⟨.other 7, [0, 1, 2], [⟨3, .integer 32⟩]⟩], 4⟩

/-- A function used in the examples: the function left by a first call of
`SpecializeFunction` on `exampleUnary`, with the rank 1 descriptor and the
symbolic shape `[-2]`. -/
def exampleSpecializedOnce : FuncOp :=
  (SpecializeFunction testHost exampleMemory exampleUnary [.memref exampleVector] [[-2]]
    [.kNone] false).func

/-! ## The constructors of the argument descriptor -/

/-- A view of a vector (`llvm::MutableArrayRef<Index>`): the position of its first
element in the vector and its length. -/
structure MutableArrayRef where
  start : Nat
  length : Nat
  deriving DecidableEq, Repr

namespace MutableArrayRef

/-- The method `drop_back(n)`: the view without its last `n` elements. -/
def drop_back (ref : MutableArrayRef) (n : Nat) : MutableArrayRef :=
  ⟨ref.start, ref.length - n⟩

/-- The method `drop_front(n)`: the view without its first `n` elements. -/
def drop_front (ref : MutableArrayRef) (n : Nat) : MutableArrayRef :=
  ⟨ref.start + n, ref.length - n⟩

/-- The elements of the vector `buffer` seen through the view. -/
def read (ref : MutableArrayRef) (buffer : List Int) : List Int :=
  (buffer.drop ref.start).take ref.length

/-- The vector `buffer` after `values` were stored through the view, from its first
element on; nothing is stored past the end of the view. -/
def write (ref : MutableArrayRef) (buffer : List Int) (values : List Int) : List Int :=
  buffer.take ref.start ++ values.take ref.length ++ buffer.drop (ref.start + ref.length)

end MutableArrayRef

/-- A `Fill` callback `void fill(MutableArrayRef<Index> sizes, MutableArrayRef<Index>
strides)`: from the contents of the two slices as it finds them to the contents it
leaves in them. A slice keeps its length. -/
abbrev Fill :=
  { fill : List Int → List Int → List Int × List Int //
    ∀ sizes strides, (fill sizes strides).1.length = sizes.length ∧
      (fill sizes strides).2.length = strides.length }

/-- The constructor `MemrefDesc(dtype, data, offset, sizes, strides)`. It asserts
that `sizes` and `strides` have the same length. -/
def MemrefDesc.ofArrays (dtype : DType) (data : Nat) (offset : Int) (sizes strides : List Int) :
    MemrefDesc :=
  ⟨sizes.length, dtype, data, offset, sizes ++ strides⟩

/-- The constructor `MemrefDesc(rank, dtype, data, offset, fill)`: the vector is
resized to `2 * rank_` elements (zeros), and `fill` is called with the view of the
vector without its last `rank_` elements and the view without its first `rank_`
elements. -/
def MemrefDesc.ofFill (rank : Nat) (dtype : DType) (data : Nat) (offset : Int) (fill : Fill) :
    MemrefDesc :=
  let sizes_and_strides : List Int := List.replicate (2 * rank) 0
  let ref : MutableArrayRef := ⟨0, sizes_and_strides.length⟩
  let sizes := ref.drop_back rank
  let strides := ref.drop_front rank
  let written := fill.val (sizes.read sizes_and_strides) (strides.read sizes_and_strides)
  ⟨rank, dtype, data, offset,
   strides.write (sizes.write sizes_and_strides written.1) written.2⟩

/-- A callback used in the examples: it stores the sizes 2, 4 and the strides 4, 1
when the slices have two elements, and leaves the slices as they are otherwise. -/
def exampleFill : Fill :=
  ⟨fun sizes strides =>
    (if sizes.length = 2 then [2, 4] else sizes, if strides.length = 2 then [4, 1] else strides),
   by
    intro sizes strides
    constructor
    · simp only
      split <;> simp_all
    · simp only
      split <;> simp_all⟩

/-! ## The runtime types -/

/-- The enumeration `Type::TypeKind` of `types.h`. -/
inductive TypeKind where
  | kAsyncToken
  | kAsyncValue
  | kRankedTensor
  | kUnrankedTensor
  | kMemref
  | kUnrankedMemref
  | kKernelContext
  deriving DecidableEq, Repr

/-- The values of class `Type` of `types.h` (a reserved word here, hence the
name): the constructor of `Type` is protected, so every value is built by the
constructor of one of the seven classes deriving from it, with the data members
of that class. -/
inductive RuntimeType where
  | AsyncTokenType
  | AsyncValueType (value_type : RuntimeType)
  | RankedTensorType (sizes : List Int) (element_type : DType)
  | UnrankedTensorType (element_type : DType)
  | MemrefType (sizes : List Int) (element_type : DType)
  | UnrankedMemrefType (element_type : DType)
  | KernelContextOperandType
  deriving DecidableEq, Repr

/-- The accessor `kind()`: the member `kind_`, a `const` that each constructor
passes to the constructor of `Type`. -/
def RuntimeType.kind : RuntimeType → TypeKind
  | .AsyncTokenType => .kAsyncToken
  | .AsyncValueType _ => .kAsyncValue
  | .RankedTensorType _ _ => .kRankedTensor
  | .UnrankedTensorType _ => .kUnrankedTensor
  | .MemrefType _ _ => .kMemref
  | .UnrankedMemrefType _ => .kUnrankedMemref
  | .KernelContextOperandType => .kKernelContext

/-- The predicate `AsyncTokenType::classof`. -/
def AsyncTokenType.classof (type : RuntimeType) : Bool := type.kind == TypeKind.kAsyncToken

/-- The predicate `AsyncValueType::classof`. -/
def AsyncValueType.classof (type : RuntimeType) : Bool := type.kind == TypeKind.kAsyncValue

/-- The predicate `RankedTensorType::classof`. -/
def RankedTensorType.classof (type : RuntimeType) : Bool := type.kind == TypeKind.kRankedTensor

/-- The predicate `UnrankedTensorType::classof`. -/
def UnrankedTensorType.classof (type : RuntimeType) : Bool :=
  type.kind == TypeKind.kUnrankedTensor

/-- The predicate `MemrefType::classof`. -/
def MemrefType.classof (type : RuntimeType) : Bool := type.kind == TypeKind.kMemref

/-- The predicate `UnrankedMemrefType::classof`. -/
def UnrankedMemrefType.classof (type : RuntimeType) : Bool :=
  type.kind == TypeKind.kUnrankedMemref

/-- The predicate `KernelContextOperandType::classof`. -/
def KernelContextOperandType.classof (type : RuntimeType) : Bool :=
  type.kind == TypeKind.kKernelContext

/-- The seven `classof` predicates, in the order of the declarations of the
classes in `types.h`. -/
def classofPredicates : List (RuntimeType → Bool) :=
  [AsyncTokenType.classof, AsyncValueType.classof, RankedTensorType.classof,
   UnrankedTensorType.classof, MemrefType.classof, UnrankedMemrefType.classof,
   KernelContextOperandType.classof]

/-! ## The rewriting of the function body, as specified -/

/-- The operation `op` with every value it uses sent through `σ`. -/
def renameOperands (σ : Value → Value) (op : Operation) : Operation :=
  { op with operands := op.operands.map σ }

/-- The replacement of values by a list of pairs (replaced value, replacing
value): a value is sent to the replacing value of the first pair that replaces
it, and to itself when no pair replaces it. -/
def substitute : List (Value × Value) → Value → Value
  | [], v => v
  | (old, new) :: rest, v => if v = old then new else substitute rest v

/-- What step 3 of the specification does for one input: the original block
argument, the new block argument of the specialized type, the cast inserted when
the two types differ, and the value that the uses of the original argument are
redirected to (the new argument, or the result of the cast). -/
structure ForwardedArgument where
  old_arg : BlockArgument
  new_arg : BlockArgument
  cast : Option Operation
  replacement : Value
  deriving DecidableEq, Repr

/-- Step 3 of the specification, for the original block arguments and the
specialized input types in index order; `nextValue` is the identity of the next
value to be created. -/
def forwardedArguments : Nat → List BlockArgument → List MType → List ForwardedArgument
  | _, [], _ => []
  | _, _ :: _, [] => []
  | nextValue, old_arg :: olds, specialized :: rest =>
    if specialized ≠ old_arg.type then
      ⟨old_arg, ⟨nextValue, specialized⟩,
        some ⟨.cast, [nextValue], [⟨nextValue + 1, old_arg.type⟩]⟩, nextValue + 1⟩
        :: forwardedArguments (nextValue + 2) olds rest
    else
      ⟨old_arg, ⟨nextValue, specialized⟩, none, nextValue⟩
        :: forwardedArguments (nextValue + 1) olds rest

/-- The casts of step 3, in index order. -/
def forwardedCasts (plan : List ForwardedArgument) : List Operation :=
  plan.filterMap (fun e => e.cast)

/-- The redirection of the uses of step 3: original argument to replacing value. -/
def forwardedUses (plan : List ForwardedArgument) : List (Value × Value) :=
  plan.map (fun e => (e.old_arg.value, e.replacement))

/-- What step 5 of the specification does for one argument that is sunk: its
index, the entry block argument whose uses are replaced, the value extracted
from the descriptor, and the identity of the result of the constant. -/
structure SunkArgument where
  index : Nat
  argument : BlockArgument
  value : DenseElementsAttr
  result : Value
  deriving DecidableEq, Repr

/-- The constant materialized for a sunk argument. -/
def SunkArgument.constant (s : SunkArgument) : Operation :=
  ⟨.constant s.value, [], [⟨s.result, s.value.type⟩]⟩

/-- The notification sent for a sunk argument. -/
def SunkArgument.notification (s : SunkArgument) : Notification :=
  .valueSpecialized s.index s.value.type s.value

/-- Step 5 of the specification, for the constraints from index `i` on: one entry
per argument marked `kValue`, with the value extracted from its descriptor for
its input type; `nextValue` is the identity of the next value to be created. The
list ends at an argument whose value cannot be extracted. -/
def sunkArguments (mem : Memory) (inputs : List MType) (arguments : List Argument)
    (blockArgs : List BlockArgument) : Nat → Nat → List ArgumentConstraint → List SunkArgument
  | _, _, [] => []
  | nextValue, i, c :: cs =>
    if c ≠ ArgumentConstraint.kValue then
      sunkArguments mem inputs arguments blockArgs nextValue (i + 1) cs
    else
      match inputs[i]?, arguments[i]?, blockArgs[i]? with
      | some input, some (.memref desc), some blockArg =>
        match (dynCastTensor input).bind (fun tensor => GetMemrefValues mem tensor desc) with
        | some value =>
          ⟨i, blockArg, value, nextValue⟩
            :: sunkArguments mem inputs arguments blockArgs (nextValue + 1) (i + 1) cs
        | none => []
      | _, _, _ => []

/-- The replacement of the uses of step 5: entry block argument to constant. -/
def sunkUses (plan : List SunkArgument) : List (Value × Value) :=
  plan.map (fun s => (s.argument.value, s.result))

/-- The indices of the constraints `kValue`, in increasing order, for the
constraints from index `i` on. -/
def kValueIndices : Nat → List ArgumentConstraint → List Nat
  | _, [] => []
  | i, c :: cs =>
    if c = ArgumentConstraint.kValue then i :: kValueIndices (i + 1) cs
    else kValueIndices (i + 1) cs

/-- The function is well formed, as the verifier of the host compiler and the SSA
form guarantee it: the entry block has one argument per input of the function
type, of the type of that input; the entry block arguments are distinct values;
and they were created before the next value to be created. -/
def FuncOp.WellFormed (func : FuncOp) : Prop :=
  func.arguments.map (fun a => a.type) = func.inputs
  ∧ (∀ a ∈ func.arguments, a.value < func.nextValue)
  ∧ (func.arguments.map (fun a => a.value)).Nodup

instance FuncOp.decidableWellFormed (func : FuncOp) : Decidable func.WellFormed := by
  unfold FuncOp.WellFormed
  infer_instance

/-- A function used in the examples: one input `tensor<?xi32>`, whose block
argument is used twice by one operation of the body. -/
def exampleSunk : FuncOp :=
  ⟨[.rankedTensor [-1] (.integer 32)], [.integer 32],
   [⟨0, .rankedTensor [-1] (.integer 32)⟩], [],
   [⟨.other 7, [0, 0], [⟨1, .integer 32⟩]⟩], 2⟩

/-- A descriptor used in the examples: rank 2, a 2x4 `F32` buffer at address 400. -/
def exampleFloatMatrix : MemrefDesc := ⟨2, .F32, 400, 0, [2, 4, 4, 1]⟩

/-- A function used in the examples: one input `tensor<?x?xf32>`, used by one
operation of the body. -/
def exampleFloatUnary : FuncOp :=
  ⟨[.rankedTensor [-1, -1] (.other 0)], [], [⟨0, .rankedTensor [-1, -1] (.other 0)⟩], [],
   [⟨.other 7, [0], [⟨1, .other 0⟩]⟩], 2⟩

/-- A descriptor used in the examples: as `exampleVector`, rank 1 with four `I32`
elements at address 200, but with the offset 8 and the stride 2. -/
def exampleStridedVector : MemrefDesc := ⟨1, .I32, 200, 8, [4, 2]⟩

/-! ## The loops of `GetMemrefValues` -/

/-- The largest value of the type `int` (32 bits), the type of the counter `i` of
the loops of `GetMemrefValues`. -/
def INT_MAX : Nat := 2147483647

/-- The bound `num_values` of the loops of `GetMemrefValues`, a `size_t`: 1 for
rank 0, otherwise `desc.size(0)` converted to `size_t`, that is reduced modulo
`2^64`. -/
def GetMemrefValues.num_values (desc : MemrefDesc) : Nat :=
  if desc.rank = 0 then 1 else (desc.size 0 % 2 ^ 64).toNat

/-- The loop `for (int i = 0; i < num_values; ++i) attributes.push_back(...)` of
`GetMemrefValues` with its `int` counter, from the counter value `i` on:
`attributes` is the vector so far and `element i` is the attribute built from
`data[i]`. The comparison is made in `size_t`. At `i = INT_MAX` the increment
`++i` overflows the counter and the call has no defined result: that is `none`.
`GetMemrefValues` above gives the values of the loop that reaches its bound. -/
def GetMemrefValues.loop (element : Nat → IntegerAttr) (num_values : Nat) (i : Nat)
    (attributes : List IntegerAttr) : Option (List IntegerAttr) :=
  if i < num_values then
    if i = INT_MAX then none
    else GetMemrefValues.loop element num_values (i + 1) (attributes ++ [element i])
  else some attributes
termination_by num_values - i

/-- A memory used in the examples: as `exampleMemory` on the four elements at
address 200, and different from it everywhere else. -/
def exampleOtherMemory : Memory := fun _ p i => if p = 200 then [1, 2, 3, 4].getD i 9 else 5

/-! ## Theorems -/

/-! ### Normalization -/

theorem Normalize_length (shape : SymbolicShape) : (Normalize shape).length = shape.length := by
  simp [Normalize]

theorem Normalize_getElem? (shape : SymbolicShape) (i : Nat) :
    (Normalize shape)[i]? = (shape[i]?).map (fun dim => if dim < 0 then kDynamicSize else dim) := by
  simp [Normalize]

/-! ### The loops of `SpecializeFunction` -/

theorem specializeInputs_ok (H : Host) (arguments : List Argument)
    (symbolic_shapes : List SymbolicShape) (inputs : List MType) :
    ∀ (k : Nat) (res : List MType),
      specializeInputs H arguments symbolic_shapes k inputs = .ok res →
      res.length = inputs.length ∧
      ∀ (j : Nat) (type : MType), inputs[j]? = some type →
        ∃ argument symbolic_shape specialized,
          arguments[k + j]? = some argument ∧ symbolic_shapes[k + j]? = some symbolic_shape ∧
          res[j]? = some specialized ∧
          SpecializeOperandType H (k + j) type argument symbolic_shape = .ok specialized := by
  induction inputs with
  | nil =>
    intro k res h
    simp [specializeInputs] at h
    subst h
    simp
  | cons type inputs ih =>
    intro k res h
    rw [specializeInputs] at h
    split at h
    · rename_i argument symbolic_shape harg hshape
      split at h
      · simp at h
      · rename_i specialized hspec
        split at h
        · simp at h
        · rename_i rest hrest
          simp only [Except.ok.injEq] at h
          subst h
          obtain ⟨hlen, hall⟩ := ih (k + 1) rest hrest
          refine ⟨by simp [hlen], ?_⟩
          intro j ty hj
          cases j with
          | zero =>
            simp only [List.getElem?_cons_zero, Option.some.injEq] at hj
            subst hj
            exact ⟨argument, symbolic_shape, specialized, by simpa using harg,
              by simpa using hshape, by simp, by simpa using hspec⟩
          | succ j =>
            simp only [List.getElem?_cons_succ] at hj
            obtain ⟨a, s, r, ha, hs, hr, hsot⟩ := hall j ty hj
            have e : k + 1 + j = k + (j + 1) := by omega
            rw [e] at ha hs hsot
            exact ⟨a, s, r, ha, hs, by simpa using hr, hsot⟩
    · simp at h

theorem specializeInputs_first_error (H : Host) (arguments : List Argument)
    (symbolic_shapes : List SymbolicShape) (inputs : List MType) :
    ∀ (k i : Nat) (type : MType) (argument : Argument) (symbolic_shape : SymbolicShape)
      (err : Error),
      inputs[i]? = some type → arguments[k + i]? = some argument →
      symbolic_shapes[k + i]? = some symbolic_shape →
      SpecializeOperandType H (k + i) type argument symbolic_shape = .error err →
      (∀ (j : Nat) (tj : MType), j < i → inputs[j]? = some tj →
        ∃ aj sj r, arguments[k + j]? = some aj ∧ symbolic_shapes[k + j]? = some sj ∧
          SpecializeOperandType H (k + j) tj aj sj = .ok r) →
      specializeInputs H arguments symbolic_shapes k inputs = .error err := by
  induction inputs with
  | nil => intro k i type argument symbolic_shape err hi; simp at hi
  | cons head inputs ih =>
    intro k i type argument symbolic_shape err hi harg hshape hfail hprev
    cases i with
    | zero =>
      simp only [List.getElem?_cons_zero, Option.some.injEq] at hi
      subst hi
      simp only [Nat.add_zero] at harg hshape hfail
      simp [specializeInputs, harg, hshape, hfail]
    | succ i =>
      simp only [List.getElem?_cons_succ] at hi
      obtain ⟨a0, s0, r0, ha0, hs0, hr0⟩ := hprev 0 head (by omega) (by simp)
      simp only [Nat.add_zero] at ha0 hs0 hr0
      have e : k + (i + 1) = k + 1 + i := by omega
      rw [e] at harg hshape hfail
      have hrec := ih (k + 1) i type argument symbolic_shape err hi harg hshape hfail
        (by
          intro j tj hj htj
          obtain ⟨aj, sj, r, h1, h2, h3⟩ := hprev (j + 1) tj (by omega) (by simpa using htj)
          have e2 : k + (j + 1) = k + 1 + j := by omega
          rw [e2] at h1 h2 h3
          exact ⟨aj, sj, r, h1, h2, h3⟩)
      simp [specializeInputs, ha0, hs0, hr0, hrec]

theorem specializeInputs_congr (H : Host) (arguments arguments2 : List Argument)
    (symbolic_shapes symbolic_shapes2 : List SymbolicShape) (inputs : List MType) :
    ∀ (k : Nat),
      (∀ j, j < inputs.length → arguments2[k + j]? = arguments[k + j]?) →
      (∀ j, j < inputs.length → symbolic_shapes2[k + j]? = symbolic_shapes[k + j]?) →
      specializeInputs H arguments2 symbolic_shapes2 k inputs
        = specializeInputs H arguments symbolic_shapes k inputs := by
  induction inputs with
  | nil => intro k _ _; simp [specializeInputs]
  | cons head inputs ih =>
    intro k ha hs
    have h0 := ha 0 (by simp)
    have h1 := hs 0 (by simp)
    simp only [Nat.add_zero] at h0 h1
    have hrec := ih (k + 1)
      (by intro j hj; have := ha (j + 1) (by simpa using hj); rwa [show k + (j + 1) = k + 1 + j by omega] at this)
      (by intro j hj; have := hs (j + 1) (by simpa using hj); rwa [show k + (j + 1) = k + 1 + j by omega] at this)
    rw [specializeInputs, specializeInputs, h0, h1, hrec]

theorem forwardArgument_frame (func : FuncOp) (ip i : Nat) (specialized : MType)
    (func2 : FuncOp) (ip2 : Nat) (h : forwardArgument func ip i specialized = .ok (func2, ip2)) :
    func2.inputs = func.inputs ∧ func2.results = func.results ∧
      func2.argAttrs = func.argAttrs := by
  unfold forwardArgument at h
  simp only at h
  split at h
  · simp at h
  · split at h <;>
    · simp only [Except.ok.injEq, Prod.mk.injEq] at h
      obtain ⟨h1, _⟩ := h
      subst h1
      simp

theorem forwardArguments_frame (specialized_inputs : List MType) :
    ∀ (func : FuncOp) (ip i : Nat) (func2 : FuncOp) (ip2 : Nat),
      forwardArguments func ip i specialized_inputs = .ok (func2, ip2) →
      func2.inputs = func.inputs ∧ func2.results = func.results ∧
        func2.argAttrs = func.argAttrs := by
  induction specialized_inputs with
  | nil =>
    intro func ip i func2 ip2 h
    simp only [forwardArguments, Except.ok.injEq, Prod.mk.injEq] at h
    obtain ⟨h1, _⟩ := h
    subst h1
    simp
  | cons head rest ih =>
    intro func ip i func2 ip2 h
    rw [forwardArguments] at h
    split at h
    · simp at h
    · rename_i f1 ip1 hstep
      obtain ⟨a, b, c⟩ := forwardArgument_frame func ip i head f1 ip1 hstep
      obtain ⟨a2, b2, c2⟩ := ih f1 ip1 (i + 1) func2 ip2 h
      exact ⟨a2.trans a, b2.trans b, c2.trans c⟩

theorem sinkArgument_frame (H : Host) (mem : Memory) (arguments : List Argument)
    (listener : Bool) (i : Nat) (func : FuncOp) (ip : Nat) (log : List Notification) :
    (sinkArgument H mem arguments listener i func ip log).func.inputs = func.inputs ∧
    (sinkArgument H mem arguments listener i func ip log).func.results = func.results ∧
    (sinkArgument H mem arguments listener i func ip log).func.arguments = func.arguments ∧
    (sinkArgument H mem arguments listener i func ip log).func.argAttrs = func.argAttrs := by
  unfold sinkArgument
  repeat' split
  all_goals simp

theorem sinkConstants_frame (H : Host) (mem : Memory) (arguments : List Argument)
    (listener : Bool) (constraints : List ArgumentConstraint) :
    ∀ (i : Nat) (func : FuncOp) (ip : Nat) (log : List Notification),
      (sinkConstants H mem arguments listener i constraints func ip log).func.inputs = func.inputs ∧
      (sinkConstants H mem arguments listener i constraints func ip log).func.results
        = func.results ∧
      (sinkConstants H mem arguments listener i constraints func ip log).func.arguments
        = func.arguments ∧
      (sinkConstants H mem arguments listener i constraints func ip log).func.argAttrs
        = func.argAttrs := by
  induction constraints with
  | nil => intro i func ip log; simp [sinkConstants]
  | cons c cs ih =>
    intro i func ip log
    have hstep := sinkArgument_frame H mem arguments listener i func ip log
    rw [sinkConstants]
    split
    · exact ih _ _ _ _
    · simp only
      split
      · exact hstep
      · obtain ⟨a, b, c2, d⟩ := ih (i + 1) (sinkArgument H mem arguments listener i func ip log).func
          (ip + 1) (sinkArgument H mem arguments listener i func ip log).notifications
        exact ⟨a.trans hstep.1, b.trans hstep.2.1, c2.trans hstep.2.2.1, d.trans hstep.2.2.2⟩

theorem ArgDict.get_set_self (d : ArgDict) (name : String) (value : Attribute) :
    (d.set name value).get name = some value := by
  induction d with
  | nil => simp [ArgDict.set, ArgDict.get]
  | cons head rest ih =>
    obtain ⟨n, a⟩ := head
    by_cases h : n = name
    · simp [ArgDict.set, ArgDict.get, h]
    · simp [ArgDict.set, ArgDict.get, h, ih]

theorem ArgDict.get_set_other (d : ArgDict) (name other : String) (value : Attribute)
    (hne : other ≠ name) : (d.set name value).get other = d.get other := by
  induction d with
  | nil => simp [ArgDict.set, ArgDict.get, Ne.symm hne]
  | cons head rest ih =>
    obtain ⟨n, a⟩ := head
    by_cases h : n = name
    · subst h
      simp [ArgDict.set, ArgDict.get, Ne.symm hne]
    · by_cases h2 : n = other
      · subst h2
        simp [ArgDict.set, ArgDict.get, h]
      · simp [ArgDict.set, ArgDict.get, h, h2, ih]

theorem setArgDict_getD (d : ArgDict) :
    ∀ (xs : List ArgDict) (i j : Nat),
      (setArgDict xs i d).getD j [] = if j = i then d else xs.getD j [] := by
  intro xs
  induction xs with
  | nil =>
    intro i
    induction i with
    | zero => intro j; cases j <;> simp [setArgDict]
    | succ i ih =>
      intro j
      cases j with
      | zero => simp [setArgDict]
      | succ j => simpa [setArgDict] using ih j
  | cons x rest ih =>
    intro i j
    cases i with
    | zero => cases j <;> simp [setArgDict]
    | succ i =>
      cases j with
      | zero => simp [setArgDict]
      | succ j => simpa [setArgDict] using ih i j

theorem FuncOp.getArgAttrDict_setArgAttr (func : FuncOp) (i j : Nat) (name : String)
    (value : Attribute) :
    (func.setArgAttr i name value).getArgAttrDict j
      = if j = i then (func.getArgAttrDict i).set name value else func.getArgAttrDict j := by
  show (setArgDict func.argAttrs i ((func.getArgAttrDict i).set name value)).getD j [] = _
  rw [setArgDict_getD]
  rfl

theorem addSymbolicShapes_ok (symbolic_shapes : List SymbolicShape) :
    ∀ (n i : Nat) (func func2 : FuncOp),
      addSymbolicShapes symbolic_shapes i n func = .ok func2 →
      func2.inputs = func.inputs ∧ func2.results = func.results ∧
      func2.arguments = func.arguments ∧ func2.body = func.body ∧
      func2.nextValue = func.nextValue ∧
      (∀ j, (j < i ∨ i + n ≤ j) → func2.getArgAttrDict j = func.getArgAttrDict j) ∧
      (∀ j shape, i ≤ j → j < i + n → symbolic_shapes[j]? = some shape →
        func2.getArgAttrDict j =
          if shape.all (fun dim => decide (dim ≥ 0)) then func.getArgAttrDict j
          else (func.getArgAttrDict j).set kSymbolicShapeAttr (symbolicShapeAttr shape)) := by
  intro n
  induction n with
  | zero =>
    intro i func func2 h
    simp only [addSymbolicShapes, Except.ok.injEq] at h
    subst h
    refine ⟨rfl, rfl, rfl, rfl, rfl, fun _ _ => rfl, ?_⟩
    intro j shape h1 h2
    omega
  | succ n ih =>
    intro i func func2 h
    rw [addSymbolicShapes] at h
    split at h
    · simp at h
    · rename_i shape hshape
      split at h
      · rename_i hall
        obtain ⟨a, b, c, d, e, f, g⟩ := ih (i + 1) func func2 h
        refine ⟨a, b, c, d, e, ?_, ?_⟩
        · intro j hj
          exact f j (by omega)
        · intro j sh h1 h2 hsh
          by_cases hji : j = i
          · subst hji
            rw [hshape] at hsh
            simp only [Option.some.injEq] at hsh
            subst hsh
            rw [f j (by omega)]
            simp [hall]
          · exact g j sh (by omega) (by omega) hsh
      · rename_i hall
        obtain ⟨a, b, c, d, e, f, g⟩ := ih (i + 1) _ func2 h
        refine ⟨a, b, c, d, e, ?_, ?_⟩
        · intro j hj
          rw [f j (by omega), FuncOp.getArgAttrDict_setArgAttr]
          have : j ≠ i := by omega
          simp [this]
        · intro j sh h1 h2 hsh
          by_cases hji : j = i
          · subst hji
            rw [hshape] at hsh
            simp only [Option.some.injEq] at hsh
            subst hsh
            rw [f j (by omega), FuncOp.getArgAttrDict_setArgAttr]
            simp [hall]
          · rw [g j sh (by omega) (by omega) hsh, FuncOp.getArgAttrDict_setArgAttr]
            simp [hji]

theorem SpecializeFunction_ok (H : Host) (mem : Memory) (func : FuncOp)
    (arguments : List Argument) (symbolic_shapes : List SymbolicShape)
    (constraints : List ArgumentConstraint) (listener : Bool)
    (h : (SpecializeFunction H mem func arguments symbolic_shapes constraints listener).error
      = none) :
    ∃ specialized_inputs forwarded ip attributed,
      specializeInputs H arguments symbolic_shapes 0 func.inputs = .ok specialized_inputs ∧
      forwardArguments { func with inputs := specialized_inputs } 0 0 specialized_inputs
        = .ok (forwarded, ip) ∧
      addSymbolicShapes symbolic_shapes 0 func.getNumArguments
        (eraseArguments forwarded func.getNumArguments) = .ok attributed ∧
      (sinkConstants H mem arguments listener 0 constraints attributed 0 []).error = none ∧
      (SpecializeFunction H mem func arguments symbolic_shapes constraints listener).func
        = (sinkConstants H mem arguments listener 0 constraints attributed 0 []).func ∧
      (SpecializeFunction H mem func arguments symbolic_shapes constraints listener).notifications
        = (sinkConstants H mem arguments listener 0 constraints attributed 0 []).notifications
          ++ (if listener then
                [Notification.moduleSpecialized specialized_inputs
                  (sinkConstants H mem arguments listener 0 constraints attributed 0
                    []).func.getAllArgAttrs]
              else []) := by
  unfold SpecializeFunction at h ⊢
  simp only at h ⊢
  split at h
  · simp at h
  · rename_i specialized_inputs hspec
    split at h
    · simp at h
    · rename_i forwarded ip hfwd
      split at h
      · simp at h
      · rename_i attributed hattr
        split at h
        · simp at h
        · rename_i hsink
          refine ⟨specialized_inputs, forwarded, ip, attributed, ?_, ?_, ?_, ?_, ?_, ?_⟩
          · simp [hspec]
          · exact hfwd
          · exact hattr
          · exact hsink
          · cases listener <;> simp
          · cases listener <;> simp

/-! ### Specialization of one operand type -/

/-- C1: for a descriptor argument that passes verification against its declared
type (the shaped view `shaped` of a ranked memref, a ranked tensor or an unranked
tensor), `SpecializeOperandType` succeeds: a memref stays a memref, a ranked and
an unranked tensor become a ranked tensor, the shape is `Normalize symbolic_shape`
and the element type is the declared one. The normalized shape has the length of
the symbolic shape, its negative entries replaced by the dynamic sentinel and
the others kept. -/
theorem SpecializeOperandType_descriptor_ok (H : Host) (index : Nat) (memref_arg : MemrefDesc)
    (symbolic_shape : SymbolicShape) (shaped : ShapedType)
    (hverify : VerifyMemrefOperand H index shaped memref_arg = none) :
    (∀ declared, shaped.shape = some declared →
      SpecializeOperandType H index (.memref declared shaped.elementType)
          (.memref memref_arg) symbolic_shape
        = .ok (.memref (Normalize symbolic_shape) shaped.elementType)
      ∧ SpecializeOperandType H index (.rankedTensor declared shaped.elementType)
          (.memref memref_arg) symbolic_shape
        = .ok (.rankedTensor (Normalize symbolic_shape) shaped.elementType))
    ∧ (shaped.shape = none →
      SpecializeOperandType H index (.unrankedTensor shaped.elementType)
          (.memref memref_arg) symbolic_shape
        = .ok (.rankedTensor (Normalize symbolic_shape) shaped.elementType))
    ∧ (Normalize symbolic_shape).length = symbolic_shape.length
    ∧ ∀ (d : Nat) (dim : Int), symbolic_shape[d]? = some dim →
        (Normalize symbolic_shape)[d]? = some (if dim < 0 then kDynamicSize else dim) := by
  obtain ⟨shape, elementType⟩ := shaped
  refine ⟨?_, ?_, Normalize_length _, ?_⟩
  · intro declared hshape
    simp only at hshape
    subst hshape
    simp [SpecializeOperandType, hverify]
  · intro hshape
    simp only at hshape
    subst hshape
    simp [SpecializeOperandType, hverify]
  · intro d dim hd
    simp [Normalize_getElem?, hd]

/-- A concrete instance: the rank 1 descriptor of four `I32` elements passes verification
against `tensor<?xi32>`, and with the symbolic shape `[-2]` the specialized types of
`memref<?xi32>` and `tensor<?xi32>` have the shape `[kDynamicSize]`. -/
theorem SpecializeOperandType_descriptor_ok_witness :
    VerifyMemrefOperand testHost 0 ⟨some [-1], .integer 32⟩ exampleVector = none
    ∧ SpecializeOperandType testHost 0 (.memref [-1] (.integer 32)) (.memref exampleVector) [-2]
        = .ok (.memref [kDynamicSize] (.integer 32))
    ∧ SpecializeOperandType testHost 0 (.rankedTensor [-1] (.integer 32))
          (.memref exampleVector) [-2]
        = .ok (.rankedTensor [kDynamicSize] (.integer 32)) :=
  ⟨by decide,
   ((SpecializeOperandType_descriptor_ok testHost 0 exampleVector [-2]
      ⟨some [-1], .integer 32⟩ (by decide)).1 [-1] rfl).1,
   ((SpecializeOperandType_descriptor_ok testHost 0 exampleVector [-2]
      ⟨some [-1], .integer 32⟩ (by decide)).1 [-1] rfl).2⟩

/-- C2: for an argument that is not a descriptor, `SpecializeOperandType` fails
exactly when the symbolic shape is non-empty, and then with the error "unexpected
symbolic shape for argument"; with the empty symbolic shape it returns the
declared type unchanged, whatever the declared type. -/
theorem SpecializeOperandType_non_descriptor (H : Host) (index : Nat) (type : MType) (id : Nat)
    (symbolic_shape : SymbolicShape) :
    (SpecializeOperandType H index type (.other id) symbolic_shape
        = .error (Error.unexpectedSymbolicShape (.other id)) ↔ symbolic_shape ≠ [])
    ∧ ((∃ err, SpecializeOperandType H index type (.other id) symbolic_shape = .error err)
        ↔ symbolic_shape ≠ [])
    ∧ SpecializeOperandType H index type (.other id) [] = .ok type := by
  refine ⟨?_, ?_, ?_⟩
  · by_cases h : symbolic_shape = [] <;> simp [SpecializeOperandType, h]
  · by_cases h : symbolic_shape = [] <;> simp [SpecializeOperandType, h]
  · simp [SpecializeOperandType]

theorem SpecializeOperandType_descriptor_inv (H : Host) (index : Nat) (type : MType)
    (memref_arg : MemrefDesc) (symbolic_shape : SymbolicShape) (specialized : MType)
    (h : SpecializeOperandType H index type (.memref memref_arg) symbolic_shape = .ok specialized) :
    (∃ declared elementType, type = .memref declared elementType ∧
        VerifyMemrefOperand H index ⟨some declared, elementType⟩ memref_arg = none ∧
        specialized = .memref (Normalize symbolic_shape) elementType)
    ∨ (∃ declared elementType, type = .rankedTensor declared elementType ∧
        VerifyMemrefOperand H index ⟨some declared, elementType⟩ memref_arg = none ∧
        specialized = .rankedTensor (Normalize symbolic_shape) elementType)
    ∨ (∃ elementType, type = .unrankedTensor elementType ∧
        VerifyMemrefOperand H index ⟨none, elementType⟩ memref_arg = none ∧
        specialized = .rankedTensor (Normalize symbolic_shape) elementType) := by
  cases type with
  | integer w => simp [SpecializeOperandType] at h
  | other c => simp [SpecializeOperandType] at h
  | unrankedMemref el => simp [SpecializeOperandType] at h
  | memref declared el =>
    left
    cases hv : VerifyMemrefOperand H index ⟨some declared, el⟩ memref_arg with
    | some err => simp [SpecializeOperandType, hv] at h
    | none =>
      simp only [SpecializeOperandType, hv, Except.ok.injEq] at h
      exact ⟨declared, el, rfl, hv, h.symm⟩
  | rankedTensor declared el =>
    right; left
    cases hv : VerifyMemrefOperand H index ⟨some declared, el⟩ memref_arg with
    | some err => simp [SpecializeOperandType, hv] at h
    | none =>
      simp only [SpecializeOperandType, hv, Except.ok.injEq] at h
      exact ⟨declared, el, rfl, hv, h.symm⟩
  | unrankedTensor el =>
    right; right
    cases hv : VerifyMemrefOperand H index ⟨none, el⟩ memref_arg with
    | some err => simp [SpecializeOperandType, hv] at h
    | none =>
      simp only [SpecializeOperandType, hv, Except.ok.injEq] at h
      exact ⟨el, rfl, hv, h.symm⟩

theorem VerifyMemrefOperand_ok_inv (H : Host) (index : Nat) (shaped : ShapedType)
    (memref : MemrefDesc) (h : VerifyMemrefOperand H index shaped memref = none) :
    ∃ element_ty, H.ConvertElementType shaped.elementType = .ok element_ty ∧
      memref.dtype = element_ty := by
  unfold VerifyMemrefOperand at h
  split at h
  · simp at h
  · rename_i element_ty hconv
    refine ⟨element_ty, hconv, ?_⟩
    by_contra hne
    split at h <;> simp [VerifyMemrefArgument, hne] at h

theorem verifyDims_Normalize (index : Nat) (ops : List Int) :
    ∀ (dim : Nat) (symbolic_shape : SymbolicShape),
      (∀ (d : Nat) (size expected : Int), ops[d]? = some size →
        symbolic_shape[d]? = some expected → 0 ≤ expected → size = expected) →
      verifyDims index dim ops (Normalize symbolic_shape) = none := by
  induction ops with
  | nil => intro dim ss _; simp [verifyDims]
  | cons a ops ih =>
    intro dim ss h
    cases ss with
    | nil => simp [Normalize, verifyDims]
    | cons e ss =>
      have hrec := ih (dim + 1) ss (by
        intro d size expected h1 h2 h3
        exact h (d + 1) size expected (by simpa using h1) (by simpa using h2) h3)
      have h0 := h 0 a e (by simp) (by simp)
      simp only [Normalize, List.map_cons] at hrec ⊢
      by_cases hneg : e < 0
      · simp [verifyDims, hneg, hrec]
      · have : a = e := h0 (by omega)
        simp [verifyDims, hneg, hrec, this]

theorem VerifyMemrefOperand_Normalize (H : Host) (index : Nat) (elementType : MType)
    (memref : MemrefDesc) (symbolic_shape : SymbolicShape) (element_ty : DType)
    (hconv : H.ConvertElementType elementType = .ok element_ty)
    (hdtype : memref.dtype = element_ty)
    (hrank : symbolic_shape.length = memref.rank)
    (hsizes : ∀ (d : Nat) (size : Int), symbolic_shape[d]? = some size → 0 ≤ size →
      memref.sizes[d]? = some size) :
    VerifyMemrefOperand H index ⟨some (Normalize symbolic_shape), elementType⟩ memref = none := by
  have hdims := verifyDims_Normalize index memref.sizes 0 symbolic_shape (by
    intro d size expected h1 h2 h3
    have := hsizes d expected h2 h3
    rw [h1] at this
    simpa using this)
  simp [VerifyMemrefOperand, hconv, VerifyMemrefArgument, hdtype, Normalize_length, hrank, hdims]

theorem SpecializeFunction_ok_inputs (H : Host) (mem : Memory) (func : FuncOp)
    (arguments : List Argument) (symbolic_shapes : List SymbolicShape)
    (constraints : List ArgumentConstraint) (listener : Bool)
    (h : (SpecializeFunction H mem func arguments symbolic_shapes constraints listener).error
      = none) :
    specializeInputs H arguments symbolic_shapes 0 func.inputs
        = .ok (SpecializeFunction H mem func arguments symbolic_shapes constraints
            listener).func.inputs ∧
      (SpecializeFunction H mem func arguments symbolic_shapes constraints listener).func.results
        = func.results := by
  obtain ⟨si, forwarded, ip, attributed, hspec, hfwd, hattr, _, hfunc, _⟩ :=
    SpecializeFunction_ok H mem func arguments symbolic_shapes constraints listener h
  obtain ⟨s1, s2, _, _⟩ := sinkConstants_frame H mem arguments listener constraints 0 attributed 0 []
  obtain ⟨a1, a2, _⟩ := addSymbolicShapes_ok symbolic_shapes _ _ _ _ hattr
  obtain ⟨f1, f2, _⟩ := forwardArguments_frame si _ _ _ _ _ hfwd
  rw [hfunc, s1, s2, a1, a2]
  simp only [eraseArguments, f1, f2]
  exact ⟨hspec, trivial⟩

/-- C3 (counterexample): with the declared type `tensor<?xi32>`, the rank 1
descriptor of size 4 and the symbolic shape `[5]`, `SpecializeFunction` succeeds
and the specialized input is `tensor<5xi32>`, against which the descriptor fails
verification at dimension 0 (expected 5, actual 4). -/
theorem SpecializeFunction_specialized_type_unverified :
    (SpecializeFunction testHost exampleMemory exampleUnary [.memref exampleVector] [[5]]
        [.kNone] false).error = none
    ∧ (SpecializeFunction testHost exampleMemory exampleUnary [.memref exampleVector] [[5]]
        [.kNone] false).func.inputs = [.rankedTensor [5] (.integer 32)]
    ∧ VerifyMemrefOperand testHost 0 ⟨some [5], .integer 32⟩ exampleVector
        = some (Error.dimMismatch 0 0 5 4)
    ∧ passesVerification testHost 0 (.rankedTensor [5] (.integer 32)) exampleVector = false := by
  decide

/-- C3 (amended): whenever `SpecializeFunction` succeeds, every descriptor
argument passes operand verification against its original declared input type;
it passes verification against its specialized input type when the symbolic shape
supplied for it has the rank of the descriptor and each of its non-negative
entries equals the size of the descriptor at that position. -/
theorem SpecializeFunction_arguments_verified (H : Host) (mem : Memory) (func : FuncOp)
    (arguments : List Argument) (symbolic_shapes : List SymbolicShape)
    (constraints : List ArgumentConstraint) (listener : Bool)
    (hok : (SpecializeFunction H mem func arguments symbolic_shapes constraints listener).error
      = none)
    (i : Nat) (desc : MemrefDesc) (hi : i < func.inputs.length)
    (harg : arguments[i]? = some (.memref desc)) :
    ∃ declared symbolic_shape specialized,
      func.inputs[i]? = some declared ∧ symbolic_shapes[i]? = some symbolic_shape ∧
      (SpecializeFunction H mem func arguments symbolic_shapes constraints
        listener).func.inputs[i]? = some specialized ∧
      passesVerification H i declared desc = true ∧
      (symbolic_shape.length = desc.rank →
        (∀ (d : Nat) (size : Int), symbolic_shape[d]? = some size → 0 ≤ size →
          desc.sizes[d]? = some size) →
        passesVerification H i specialized desc = true) := by
  obtain ⟨hspec, _⟩ :=
    SpecializeFunction_ok_inputs H mem func arguments symbolic_shapes constraints listener hok
  obtain ⟨_, hall⟩ := specializeInputs_ok H arguments symbolic_shapes func.inputs 0 _ hspec
  obtain ⟨declared, hdecl⟩ : ∃ declared, func.inputs[i]? = some declared :=
    ⟨func.inputs[i], by simp [hi]⟩
  obtain ⟨argument, symbolic_shape, specialized, ha, hs, hr, hsot⟩ := hall i declared hdecl
  simp only [Nat.zero_add] at ha hs hsot
  rw [harg] at ha
  simp only [Option.some.injEq] at ha
  subst ha
  refine ⟨declared, symbolic_shape, specialized, hdecl, hs, hr, ?_, ?_⟩
  · rcases SpecializeOperandType_descriptor_inv H i declared desc symbolic_shape specialized hsot
      with ⟨sh, el, h1, h2, _⟩ | ⟨sh, el, h1, h2, _⟩ | ⟨el, h1, h2, _⟩ <;>
    · subst h1
      simp [passesVerification, dynCastShaped, h2]
  · intro hrank hsizes
    rcases SpecializeOperandType_descriptor_inv H i declared desc symbolic_shape specialized hsot
      with ⟨sh, el, h1, h2, h3⟩ | ⟨sh, el, h1, h2, h3⟩ | ⟨el, h1, h2, h3⟩ <;>
    · subst h3
      obtain ⟨element_ty, hconv, hdtype⟩ := VerifyMemrefOperand_ok_inv H i _ desc h2
      have := VerifyMemrefOperand_Normalize H i el desc symbolic_shape element_ty hconv hdtype
        hrank hsizes
      simp [passesVerification, dynCastShaped, this]

/-- A concrete instance: in the example with the inputs `tensor<?x?xi32>` and
`tensor<4xi32>`, the 2x4 descriptor passed for input 0 with the symbolic shape
`[-2, 4]` is verified against the declared and the specialized input type. -/
theorem SpecializeFunction_arguments_verified_witness :
    ∃ declared symbolic_shape specialized,
      exampleBinary.inputs[0]? = some declared ∧
      [[-2, 4], [4]][0]? = some symbolic_shape ∧
      (SpecializeFunction testHost exampleMemory exampleBinary
        [.memref exampleMatrix, .memref exampleVector] [[-2, 4], [4]] [.kShape, .kValue]
        true).func.inputs[0]? = some specialized ∧
      passesVerification testHost 0 declared exampleMatrix = true ∧
      (symbolic_shape.length = exampleMatrix.rank →
        (∀ (d : Nat) (size : Int), symbolic_shape[d]? = some size → 0 ≤ size →
          exampleMatrix.sizes[d]? = some size) →
        passesVerification testHost 0 specialized exampleMatrix = true) :=
  SpecializeFunction_arguments_verified testHost exampleMemory exampleBinary
    [.memref exampleMatrix, .memref exampleVector] [[-2, 4], [4]] [.kShape, .kValue] true
    (by decide) 0 exampleMatrix (by decide) (by decide)

theorem verifyDims_ne_unsupported (index : Nat) (type : MType) (ops : List Int) :
    ∀ (dim : Nat) (expected : List Int),
      verifyDims index dim ops expected ≠ some (Error.unsupportedInputType type) := by
  induction ops with
  | nil => intro dim expected; simp [verifyDims]
  | cons a ops ih =>
    intro dim expected
    cases expected with
    | nil => simp [verifyDims]
    | cons e expected =>
      rw [verifyDims]
      split
      · simp
      · exact ih _ _

theorem VerifyMemrefOperand_ne_unsupported (H : Host) (index : Nat) (shaped : ShapedType)
    (memref : MemrefDesc) (type : MType) :
    VerifyMemrefOperand H index shaped memref ≠ some (Error.unsupportedInputType type) := by
  unfold VerifyMemrefOperand
  split
  · simp
  · split
    · unfold VerifyMemrefArgument
      split
      · simp
      · simp only
        split
        · simp
        · exact verifyDims_ne_unsupported _ _ _ _ _
    · unfold VerifyMemrefArgument
      split <;> simp

/-- C4: `SpecializeOperandType` verifies the descriptor against the original
declared type: if the descriptor fails verification against the declared type
(its shaped view `shaped`) with the error `err`, then `SpecializeOperandType`
returns exactly `err`, for every symbolic shape. For a descriptor argument the
error returned does not depend on the symbolic shape at all. -/
theorem SpecializeOperandType_verification_error (H : Host) (index : Nat)
    (memref_arg : MemrefDesc) (shaped : ShapedType) (err : Error)
    (hfail : VerifyMemrefOperand H index shaped memref_arg = some err) :
    (∀ (symbolic_shape : SymbolicShape) (declared : List Int), shaped.shape = some declared →
      SpecializeOperandType H index (.memref declared shaped.elementType)
          (.memref memref_arg) symbolic_shape = .error err
      ∧ SpecializeOperandType H index (.rankedTensor declared shaped.elementType)
          (.memref memref_arg) symbolic_shape = .error err)
    ∧ (∀ (symbolic_shape : SymbolicShape), shaped.shape = none →
      SpecializeOperandType H index (.unrankedTensor shaped.elementType)
          (.memref memref_arg) symbolic_shape = .error err)
    ∧ (∀ (type : MType) (shape1 shape2 : SymbolicShape) (e : Error),
      SpecializeOperandType H index type (.memref memref_arg) shape1 = .error e ↔
      SpecializeOperandType H index type (.memref memref_arg) shape2 = .error e) := by
  obtain ⟨shape, elementType⟩ := shaped
  refine ⟨?_, ?_, ?_⟩
  · intro symbolic_shape declared hshape
    simp only at hshape
    subst hshape
    simp [SpecializeOperandType, hfail]
  · intro symbolic_shape hshape
    simp only at hshape
    subst hshape
    simp [SpecializeOperandType, hfail]
  · intro type shape1 shape2 e
    cases type with
    | integer w => simp [SpecializeOperandType]
    | other c => simp [SpecializeOperandType]
    | unrankedMemref el => simp [SpecializeOperandType]
    | memref declared el =>
      cases hv : VerifyMemrefOperand H index ⟨some declared, el⟩ memref_arg <;>
        simp [SpecializeOperandType, hv]
    | rankedTensor declared el =>
      cases hv : VerifyMemrefOperand H index ⟨some declared, el⟩ memref_arg <;>
        simp [SpecializeOperandType, hv]
    | unrankedTensor el =>
      cases hv : VerifyMemrefOperand H index ⟨none, el⟩ memref_arg <;>
        simp [SpecializeOperandType, hv]

/-- A concrete instance: the rank 1 descriptor of size 4 fails verification
against `tensor<5xi32>` at dimension 0, and that error is returned whatever the
symbolic shape, here `[4]`. -/
theorem SpecializeOperandType_verification_error_witness :
    VerifyMemrefOperand testHost 0 ⟨some [5], .integer 32⟩ exampleVector
        = some (Error.dimMismatch 0 0 5 4)
    ∧ SpecializeOperandType testHost 0 (.rankedTensor [5] (.integer 32))
        (.memref exampleVector) [4] = .error (Error.dimMismatch 0 0 5 4) :=
  ⟨by decide,
   ((SpecializeOperandType_verification_error testHost 0 exampleVector
      ⟨some [5], .integer 32⟩ (Error.dimMismatch 0 0 5 4) (by decide)).1 [4] [5] rfl).2⟩

/-- C5 (counterexample): the declared type `memref<*xi32>`, an unranked memref, is
array-like, and for a descriptor argument `SpecializeOperandType` fails on it with
the error "Unsupported input type". -/
theorem SpecializeOperandType_unranked_memref_unsupported :
    SpecializeOperandType testHost 0 (.unrankedMemref (.integer 32)) (.memref exampleVector) [4]
      = .error (Error.unsupportedInputType (.unrankedMemref (.integer 32))) := by
  rfl

/-- C5 (amended): for a descriptor argument, `SpecializeOperandType` fails with
the error "Unsupported input type" if and only if the declared type is not a
ranked memref, a ranked tensor or an unranked tensor, and the error then names
the declared type; ranked memrefs and ranked and unranked tensors are the
supported declared types, an unranked memref is not supported. -/
theorem SpecializeOperandType_unsupported_iff (H : Host) (index : Nat) (type : MType)
    (memref_arg : MemrefDesc) (symbolic_shape : SymbolicShape) :
    ((∃ t, SpecializeOperandType H index type (.memref memref_arg) symbolic_shape
          = .error (Error.unsupportedInputType t))
      ↔ ¬ ((∃ declared elementType, type = .memref declared elementType)
          ∨ (∃ declared elementType, type = .rankedTensor declared elementType)
          ∨ (∃ elementType, type = .unrankedTensor elementType)))
    ∧ (SpecializeOperandType H index type (.memref memref_arg) symbolic_shape
          = .error (Error.unsupportedInputType type)
      ↔ ¬ ((∃ declared elementType, type = .memref declared elementType)
          ∨ (∃ declared elementType, type = .rankedTensor declared elementType)
          ∨ (∃ elementType, type = .unrankedTensor elementType)))
    ∧ (∀ elementType, SpecializeOperandType H index (.unrankedMemref elementType)
          (.memref memref_arg) symbolic_shape
        = .error (Error.unsupportedInputType (.unrankedMemref elementType))) := by
  have key : ∀ (shaped : ShapedType) (result : MType) (t : MType),
      (match VerifyMemrefOperand H index shaped memref_arg with
        | some err => (Except.error err : Except Error MType)
        | none => .ok result) ≠ .error (Error.unsupportedInputType t) := by
    intro shaped result t
    cases hv : VerifyMemrefOperand H index shaped memref_arg with
    | none => simp
    | some err =>
      have := VerifyMemrefOperand_ne_unsupported H index shaped memref_arg t
      rw [hv] at this
      simpa using this
  cases type with
  | integer w => simp [SpecializeOperandType]
  | other c => simp [SpecializeOperandType]
  | unrankedMemref el => simp [SpecializeOperandType]
  | memref declared el =>
    simp only [SpecializeOperandType]
    refine ⟨?_, ?_, by simp⟩
    · simpa using fun t => key ⟨some declared, el⟩ _ t
    · simpa using key ⟨some declared, el⟩ _ _
  | rankedTensor declared el =>
    simp only [SpecializeOperandType]
    refine ⟨?_, ?_, by simp⟩
    · simpa using fun t => key ⟨some declared, el⟩ _ t
    · simpa using key ⟨some declared, el⟩ _ _
  | unrankedTensor el =>
    simp only [SpecializeOperandType]
    refine ⟨?_, ?_, by simp⟩
    · simpa using fun t => key ⟨none, el⟩ _ t
    · simpa using key ⟨none, el⟩ _ _

theorem SpecializeFunction_step1_error (H : Host) (mem : Memory) (func : FuncOp)
    (arguments : List Argument) (symbolic_shapes : List SymbolicShape)
    (constraints : List ArgumentConstraint) (listener : Bool) (err : Error)
    (h : specializeInputs H arguments symbolic_shapes 0 func.inputs = .error err) :
    SpecializeFunction H mem func arguments symbolic_shapes constraints listener
      = ⟨some err, func, []⟩ := by
  simp [SpecializeFunction, h]

/-- C6: `SpecializeFunction` is fail-fast in argument index order. If
`SpecializeOperandType` fails with `err` at index `i` and succeeds at every smaller
index, the call returns exactly `err` and leaves the function as it was. The
inputs after `i` are not looked at: with any other input types, arguments and
symbolic shapes after index `i` (and any constraints, listener and memory) the
call returns the same error. -/
theorem SpecializeFunction_fail_fast (H : Host) (mem : Memory) (func : FuncOp)
    (arguments : List Argument) (symbolic_shapes : List SymbolicShape)
    (constraints : List ArgumentConstraint) (listener : Bool)
    (i : Nat) (type : MType) (argument : Argument) (symbolic_shape : SymbolicShape) (err : Error)
    (htype : func.inputs[i]? = some type) (harg : arguments[i]? = some argument)
    (hshape : symbolic_shapes[i]? = some symbolic_shape)
    (hfail : SpecializeOperandType H i type argument symbolic_shape = .error err)
    (hprev : ∀ (j : Nat) (tj : MType), j < i → func.inputs[j]? = some tj →
      ∃ aj sj r, arguments[j]? = some aj ∧ symbolic_shapes[j]? = some sj ∧
        SpecializeOperandType H j tj aj sj = .ok r) :
    SpecializeFunction H mem func arguments symbolic_shapes constraints listener
        = ⟨some err, func, []⟩
    ∧ ∀ (mem2 : Memory) (func2 : FuncOp) (arguments2 : List Argument)
        (symbolic_shapes2 : List SymbolicShape) (constraints2 : List ArgumentConstraint)
        (listener2 : Bool),
        (∀ j, j ≤ i → func2.inputs[j]? = func.inputs[j]?) →
        (∀ j, j ≤ i → arguments2[j]? = arguments[j]?) →
        (∀ j, j ≤ i → symbolic_shapes2[j]? = symbolic_shapes[j]?) →
        SpecializeFunction H mem2 func2 arguments2 symbolic_shapes2 constraints2 listener2
          = ⟨some err, func2, []⟩ := by
  have main : ∀ (mem2 : Memory) (func2 : FuncOp) (arguments2 : List Argument)
      (symbolic_shapes2 : List SymbolicShape) (constraints2 : List ArgumentConstraint)
      (listener2 : Bool),
      (∀ j, j ≤ i → func2.inputs[j]? = func.inputs[j]?) →
      (∀ j, j ≤ i → arguments2[j]? = arguments[j]?) →
      (∀ j, j ≤ i → symbolic_shapes2[j]? = symbolic_shapes[j]?) →
      SpecializeFunction H mem2 func2 arguments2 symbolic_shapes2 constraints2 listener2
        = ⟨some err, func2, []⟩ := by
    intro mem2 func2 arguments2 symbolic_shapes2 constraints2 listener2 hf ha hs
    apply SpecializeFunction_step1_error
    apply specializeInputs_first_error H arguments2 symbolic_shapes2 func2.inputs 0 i type
      argument symbolic_shape err
    · rw [hf i (Nat.le_refl i)]; exact htype
    · rw [Nat.zero_add, ha i (Nat.le_refl i)]; exact harg
    · rw [Nat.zero_add, hs i (Nat.le_refl i)]; exact hshape
    · rw [Nat.zero_add]; exact hfail
    · intro j tj hj htj
      rw [hf j (Nat.le_of_lt hj)] at htj
      obtain ⟨aj, sj, r, h1, h2, h3⟩ := hprev j tj hj htj
      refine ⟨aj, sj, r, ?_, ?_, ?_⟩
      · rw [Nat.zero_add, ha j (Nat.le_of_lt hj)]; exact h1
      · rw [Nat.zero_add, hs j (Nat.le_of_lt hj)]; exact h2
      · rw [Nat.zero_add]; exact h3
  exact ⟨main mem func arguments symbolic_shapes constraints listener
    (fun _ _ => rfl) (fun _ _ => rfl) (fun _ _ => rfl), main⟩

/-- A concrete instance: with the arguments valid, invalid (an `F32` descriptor for
an `i32` input), valid, the call reports the dtype error of index 1 and leaves the
function as it was; it reports the same error when the argument at index 2 is
replaced by one that is invalid as well. -/
theorem SpecializeFunction_fail_fast_witness :
    SpecializeFunction testHost exampleMemory exampleTernary
        [.memref exampleVector, .memref exampleFloatVector, .memref exampleVector]
        [[4], [4], [4]] [.kNone, .kNone, .kNone] true
      = ⟨some (Error.dtypeMismatch 1 .I32 .F32), exampleTernary, []⟩
    ∧ SpecializeFunction testHost exampleMemory exampleTernary
        [.memref exampleVector, .memref exampleFloatVector, .other 5]
        [[4], [4], [7]] [.kNone, .kNone, .kNone] true
      = ⟨some (Error.dtypeMismatch 1 .I32 .F32), exampleTernary, []⟩ := by
  have h := SpecializeFunction_fail_fast testHost exampleMemory exampleTernary
    [.memref exampleVector, .memref exampleFloatVector, .memref exampleVector]
    [[4], [4], [4]] [.kNone, .kNone, .kNone] true 1 (.rankedTensor [-1] (.integer 32))
    (.memref exampleFloatVector) [4] (Error.dtypeMismatch 1 .I32 .F32) rfl rfl rfl rfl
    (by
      intro j tj hj htj
      obtain rfl : j = 0 := by omega
      exact ⟨.memref exampleVector, [4], .rankedTensor [4] (.integer 32), rfl, rfl, by
        simp only [exampleTernary, List.getElem?_cons_zero, Option.some.injEq] at htj
        subst htj
        rfl⟩)
  refine ⟨h.1, h.2 exampleMemory exampleTernary _ _ _ true (fun _ _ => rfl) ?_ ?_⟩
  · intro j hj
    have : j = 0 ∨ j = 1 := by omega
    rcases this with rfl | rfl <;> rfl
  · intro j hj
    have : j = 0 ∨ j = 1 := by omega
    rcases this with rfl | rfl <;> rfl

/-- C7: if the type specialization of some input fails (step 1), then
`SpecializeFunction` returns an error and the outcome holds the function exactly
as it was before the call (signature, entry block arguments, argument attributes,
body operations and their uses), and the listener has received no notification. -/
theorem SpecializeFunction_type_failure_no_mutation (H : Host) (mem : Memory) (func : FuncOp)
    (arguments : List Argument) (symbolic_shapes : List SymbolicShape)
    (constraints : List ArgumentConstraint) (listener : Bool)
    (i : Nat) (type : MType) (argument : Argument) (symbolic_shape : SymbolicShape) (err : Error)
    (htype : func.inputs[i]? = some type) (harg : arguments[i]? = some argument)
    (hshape : symbolic_shapes[i]? = some symbolic_shape)
    (hfail : SpecializeOperandType H i type argument symbolic_shape = .error err) :
    ∃ reported,
      SpecializeFunction H mem func arguments symbolic_shapes constraints listener
        = ⟨some reported, func, []⟩ := by
  cases hspec : specializeInputs H arguments symbolic_shapes 0 func.inputs with
  | error e =>
    exact ⟨e, SpecializeFunction_step1_error H mem func arguments symbolic_shapes constraints
      listener e hspec⟩
  | ok res =>
    obtain ⟨_, hall⟩ := specializeInputs_ok H arguments symbolic_shapes func.inputs 0 res hspec
    obtain ⟨a, s, r, ha, hs, _, hsot⟩ := hall i type htype
    simp only [Nat.zero_add] at ha hs hsot
    rw [harg] at ha
    rw [hshape] at hs
    simp only [Option.some.injEq] at ha hs
    subst ha hs
    rw [hfail] at hsot
    simp at hsot

/-- A concrete instance: the `F32` descriptor at index 1 of the example with three
`i32` inputs makes the call fail with the function unchanged and no notification,
with a listener present. -/
theorem SpecializeFunction_type_failure_no_mutation_witness :
    ∃ reported,
      SpecializeFunction testHost exampleMemory exampleTernary
        [.memref exampleVector, .memref exampleFloatVector, .memref exampleVector]
        [[4], [4], [4]] [.kNone, .kNone, .kValue] true
        = ⟨some reported, exampleTernary, []⟩ :=
  SpecializeFunction_type_failure_no_mutation testHost exampleMemory exampleTernary
    [.memref exampleVector, .memref exampleFloatVector, .memref exampleVector]
    [[4], [4], [4]] [.kNone, .kNone, .kValue] true 1 (.rankedTensor [-1] (.integer 32))
    (.memref exampleFloatVector) [4] (Error.dtypeMismatch 1 .I32 .F32) rfl rfl rfl rfl

/-- C8: after a successful `SpecializeFunction`, the signature has as many inputs
as before, input `i` is the type `SpecializeOperandType` returns for index `i`, its
declared type, argument and symbolic shape, and the result types are the original
result types in the original order. -/
theorem SpecializeFunction_signature (H : Host) (mem : Memory) (func : FuncOp)
    (arguments : List Argument) (symbolic_shapes : List SymbolicShape)
    (constraints : List ArgumentConstraint) (listener : Bool)
    (hok : (SpecializeFunction H mem func arguments symbolic_shapes constraints listener).error
      = none) :
    (SpecializeFunction H mem func arguments symbolic_shapes constraints
        listener).func.inputs.length = func.inputs.length
    ∧ (∀ (i : Nat) (type : MType), func.inputs[i]? = some type →
        ∃ argument symbolic_shape specialized,
          arguments[i]? = some argument ∧ symbolic_shapes[i]? = some symbolic_shape ∧
          SpecializeOperandType H i type argument symbolic_shape = .ok specialized ∧
          (SpecializeFunction H mem func arguments symbolic_shapes constraints
            listener).func.inputs[i]? = some specialized)
    ∧ (SpecializeFunction H mem func arguments symbolic_shapes constraints
        listener).func.results = func.results := by
  obtain ⟨hspec, hres⟩ :=
    SpecializeFunction_ok_inputs H mem func arguments symbolic_shapes constraints listener hok
  obtain ⟨hlen, hall⟩ := specializeInputs_ok H arguments symbolic_shapes func.inputs 0 _ hspec
  refine ⟨hlen, ?_, hres⟩
  intro i type htype
  obtain ⟨a, s, r, ha, hs, hr, hsot⟩ := hall i type htype
  simp only [Nat.zero_add] at ha hs hsot
  exact ⟨a, s, r, ha, hs, hsot, hr⟩

/-- A concrete instance: in the example with the inputs `tensor<?x?xi32>` and
`tensor<4xi32>`, the symbolic shapes `[-2, 4]` and `[4]` and the second argument
sunk, the call succeeds and the conclusion holds of its outcome. -/
theorem SpecializeFunction_signature_witness :
    (SpecializeFunction testHost exampleMemory exampleBinary
        [.memref exampleMatrix, .memref exampleVector] [[-2, 4], [4]] [.kShape, .kValue]
        true).func.inputs.length = exampleBinary.inputs.length
    ∧ (∀ (i : Nat) (type : MType), exampleBinary.inputs[i]? = some type →
        ∃ argument symbolic_shape specialized,
          [Argument.memref exampleMatrix, .memref exampleVector][i]? = some argument ∧
          [[-2, 4], [4]][i]? = some symbolic_shape ∧
          SpecializeOperandType testHost i type argument symbolic_shape = .ok specialized ∧
          (SpecializeFunction testHost exampleMemory exampleBinary
            [.memref exampleMatrix, .memref exampleVector] [[-2, 4], [4]] [.kShape, .kValue]
            true).func.inputs[i]? = some specialized)
    ∧ (SpecializeFunction testHost exampleMemory exampleBinary
        [.memref exampleMatrix, .memref exampleVector] [[-2, 4], [4]] [.kShape, .kValue]
        true).func.results = exampleBinary.results :=
  SpecializeFunction_signature testHost exampleMemory exampleBinary
    [.memref exampleMatrix, .memref exampleVector] [[-2, 4], [4]] [.kShape, .kValue] true
    (by decide)

theorem Normalize_dynamic_iff (shape : SymbolicShape) :
    kDynamicSize ∈ Normalize shape ↔ ∃ dim ∈ shape, dim < 0 := by
  simp only [Normalize, kDynamicSize, List.mem_map]
  constructor
  · rintro ⟨a, ha, h⟩
    refine ⟨a, ha, ?_⟩
    by_contra hn
    rw [if_neg hn] at h
    omega
  · rintro ⟨a, ha, h⟩
    exact ⟨a, ha, by rw [if_pos h]⟩

theorem SpecializeFunction_ok_argAttrs (H : Host) (mem : Memory) (func : FuncOp)
    (arguments : List Argument) (symbolic_shapes : List SymbolicShape)
    (constraints : List ArgumentConstraint) (listener : Bool)
    (hok : (SpecializeFunction H mem func arguments symbolic_shapes constraints listener).error
      = none)
    (i : Nat) (shape : SymbolicShape) (hi : i < func.inputs.length)
    (hshape : symbolic_shapes[i]? = some shape) :
    (SpecializeFunction H mem func arguments symbolic_shapes constraints
        listener).func.getArgAttrDict i =
      if shape.all (fun dim => decide (dim ≥ 0)) then func.getArgAttrDict i
      else (func.getArgAttrDict i).set kSymbolicShapeAttr (symbolicShapeAttr shape) := by
  obtain ⟨si, forwarded, ip, attributed, hspec, hfwd, hattr, _, hfunc, _⟩ :=
    SpecializeFunction_ok H mem func arguments symbolic_shapes constraints listener hok
  obtain ⟨_, _, _, s4⟩ :=
    sinkConstants_frame H mem arguments listener constraints 0 attributed 0 []
  obtain ⟨_, _, _, _, _, _, a7⟩ := addSymbolicShapes_ok symbolic_shapes _ _ _ _ hattr
  obtain ⟨_, _, f3⟩ := forwardArguments_frame si _ _ _ _ _ hfwd
  have h1 := a7 i shape (Nat.zero_le i) (by simpa [FuncOp.getNumArguments] using hi) hshape
  have h2 : (SpecializeFunction H mem func arguments symbolic_shapes constraints
      listener).func.getArgAttrDict i = attributed.getArgAttrDict i := by
    simp only [FuncOp.getArgAttrDict, hfunc, s4]
  have h3 : (eraseArguments forwarded func.getNumArguments).getArgAttrDict i
      = func.getArgAttrDict i := by
    simp only [FuncOp.getArgAttrDict, eraseArguments, f3]
  rw [h2, h1, h3]

/-- C9 (counterexample): a function specialized once with the symbolic shape `[-2]`
carries the symbolic shape attribute on input 0. A second successful call with
the fully static symbolic shape `[4]` leaves that attribute in place: input 0 then
carries the attribute although its normalized shape `[4]` has no dynamic
dimension. -/
theorem SpecializeFunction_static_input_keeps_attr :
    (SpecializeFunction testHost exampleMemory exampleUnary [.memref exampleVector] [[-2]]
        [.kNone] false).error = none
    ∧ (SpecializeFunction testHost exampleMemory exampleSpecializedOnce
        [.memref exampleVector] [[4]] [.kNone] false).error = none
    ∧ (SpecializeFunction testHost exampleMemory exampleSpecializedOnce
        [.memref exampleVector] [[4]] [.kNone] false).func.getArgAttr 0 kSymbolicShapeAttr
        = some (symbolicShapeAttr [-2])
    ∧ kDynamicSize ∉ Normalize [4]
    ∧ ([4] : SymbolicShape).all (fun dim => decide (dim ≥ 0)) = true := by
  decide

/-- C9 (amended): after a successful `SpecializeFunction`, for every input `i`
with symbolic shape `shape`: the normalized shape has a dynamic dimension exactly
when `shape` has a negative entry; in that case input `i` carries the
"jitrt.symbolic_shape" attribute, a dense attribute of type `tensor<rank x i64>`
whose `i64` entries are the entries of `shape` in order; when `shape` is fully
static the attribute dictionary of input `i` is the one it had before the call,
so that an input that carried no such attribute before the call carries it
afterwards if and only if its shape has a negative entry. A non-descriptor
input has the empty shape and gets no attribute. -/
theorem SpecializeFunction_symbolic_shape_attr (H : Host) (mem : Memory) (func : FuncOp)
    (arguments : List Argument) (symbolic_shapes : List SymbolicShape)
    (constraints : List ArgumentConstraint) (listener : Bool)
    (hok : (SpecializeFunction H mem func arguments symbolic_shapes constraints listener).error
      = none)
    (i : Nat) (hi : i < func.inputs.length) :
    ∃ shape, symbolic_shapes[i]? = some shape
      ∧ (kDynamicSize ∈ Normalize shape ↔ ∃ dim ∈ shape, dim < 0)
      ∧ ((∃ dim ∈ shape, dim < 0) →
          (SpecializeFunction H mem func arguments symbolic_shapes constraints
            listener).func.getArgAttr i "jitrt.symbolic_shape"
            = some (.dense ⟨.rankedTensor [(shape.length : Int)] (.integer 64),
                shape.map (fun dim => ⟨.integer 64, dim⟩)⟩))
      ∧ ((∀ dim ∈ shape, 0 ≤ dim) →
          (SpecializeFunction H mem func arguments symbolic_shapes constraints
            listener).func.getArgAttrDict i = func.getArgAttrDict i)
      ∧ (func.getArgAttr i "jitrt.symbolic_shape" = none →
          ((SpecializeFunction H mem func arguments symbolic_shapes constraints
            listener).func.getArgAttr i "jitrt.symbolic_shape" ≠ none
            ↔ ∃ dim ∈ shape, dim < 0))
      ∧ (∀ id, arguments[i]? = some (.other id) → shape = []) := by
  obtain ⟨hspec, _⟩ :=
    SpecializeFunction_ok_inputs H mem func arguments symbolic_shapes constraints listener hok
  obtain ⟨_, hall⟩ := specializeInputs_ok H arguments symbolic_shapes func.inputs 0 _ hspec
  obtain ⟨argument, shape, specialized, ha, hs, _, hsot⟩ :=
    hall i func.inputs[i] (by simp [hi])
  simp only [Nat.zero_add] at ha hs hsot
  have hdict := SpecializeFunction_ok_argAttrs H mem func arguments symbolic_shapes constraints
    listener hok i shape hi hs
  have hall_iff : (shape.all (fun dim => decide (dim ≥ 0)) = true) ↔ ∀ dim ∈ shape, 0 ≤ dim := by
    simp [List.all_eq_true]
  have hneg_iff : (∃ dim ∈ shape, dim < 0) ↔ ¬ (∀ dim ∈ shape, 0 ≤ dim) := by
    simp
  refine ⟨shape, hs, Normalize_dynamic_iff shape, ?_, ?_, ?_, ?_⟩
  · intro hneg
    have hnot : ¬ (shape.all (fun dim => decide (dim ≥ 0)) = true) := by
      rw [hall_iff]; exact hneg_iff.mp hneg
    rw [FuncOp.getArgAttr, hdict, if_neg hnot]
    exact ArgDict.get_set_self _ _ _
  · intro hstatic
    rw [hdict, if_pos (hall_iff.mpr hstatic)]
  · intro hnone
    by_cases hstatic : ∀ dim ∈ shape, 0 ≤ dim
    · have : ¬ ∃ dim ∈ shape, dim < 0 := fun h => (hneg_iff.mp h) hstatic
      rw [FuncOp.getArgAttr, hdict, if_pos (hall_iff.mpr hstatic)]
      rw [FuncOp.getArgAttr] at hnone
      simp [hnone, this]
    · have hneg : ∃ dim ∈ shape, dim < 0 := hneg_iff.mpr hstatic
      have hnot : ¬ (shape.all (fun dim => decide (dim ≥ 0)) = true) := by
        rw [hall_iff]; exact hstatic
      rw [FuncOp.getArgAttr, hdict, if_neg hnot]
      have := ArgDict.get_set_self (func.getArgAttrDict i) kSymbolicShapeAttr
        (symbolicShapeAttr shape)
      simp only [kSymbolicShapeAttr] at this
      simp [kSymbolicShapeAttr, this, hneg]
  · intro id harg
    rw [harg] at ha
    simp only [Option.some.injEq] at ha
    subst ha
    by_contra hne
    simp [SpecializeOperandType, hne] at hsot

/-- A concrete instance: in the example with the symbolic shapes `[-2, 4]` and
`[4]`, the call succeeds and the conclusion holds for input 0. -/
theorem SpecializeFunction_symbolic_shape_attr_witness :
    ∃ shape, [[-2, 4], [4]][0]? = some shape
      ∧ (kDynamicSize ∈ Normalize shape ↔ ∃ dim ∈ shape, dim < 0)
      ∧ ((∃ dim ∈ shape, dim < 0) →
          (SpecializeFunction testHost exampleMemory exampleBinary
            [.memref exampleMatrix, .memref exampleVector] [[-2, 4], [4]] [.kShape, .kValue]
            true).func.getArgAttr 0 "jitrt.symbolic_shape"
            = some (.dense ⟨.rankedTensor [(shape.length : Int)] (.integer 64),
                shape.map (fun dim => ⟨.integer 64, dim⟩)⟩))
      ∧ ((∀ dim ∈ shape, 0 ≤ dim) →
          (SpecializeFunction testHost exampleMemory exampleBinary
            [.memref exampleMatrix, .memref exampleVector] [[-2, 4], [4]] [.kShape, .kValue]
            true).func.getArgAttrDict 0 = exampleBinary.getArgAttrDict 0)
      ∧ (exampleBinary.getArgAttr 0 "jitrt.symbolic_shape" = none →
          ((SpecializeFunction testHost exampleMemory exampleBinary
            [.memref exampleMatrix, .memref exampleVector] [[-2, 4], [4]] [.kShape, .kValue]
            true).func.getArgAttr 0 "jitrt.symbolic_shape" ≠ none
            ↔ ∃ dim ∈ shape, dim < 0))
      ∧ (∀ id, [Argument.memref exampleMatrix, .memref exampleVector][0]?
          = some (.other id) → shape = []) :=
  SpecializeFunction_symbolic_shape_attr testHost exampleMemory exampleBinary
    [.memref exampleMatrix, .memref exampleVector] [[-2, 4], [4]] [.kShape, .kValue] true
    (by decide) 0 (by decide)

theorem GetMemrefValues_eq_none_iff (mem : Memory) (operand_type : ShapedType)
    (desc : MemrefDesc) :
    GetMemrefValues mem operand_type desc = none ↔
      (desc.rank ≠ 0 ∧ desc.rank ≠ 1) ∨ (desc.dtype ≠ DType.I32 ∧ desc.dtype ≠ DType.I64) := by
  unfold GetMemrefValues
  simp only
  by_cases hr : desc.rank ≠ 0 ∧ desc.rank ≠ 1
  · simp [hr]
  · rw [if_neg hr]
    cases hd : desc.dtype <;> simp [hr]

theorem sinkArgument_fail (H : Host) (mem : Memory) (arguments : List Argument)
    (listener : Bool) (i : Nat) (func : FuncOp) (ip : Nat) (log : List Notification)
    (input : MType) (argument : Argument) (err : Error)
    (hinput : func.inputs[i]? = some input) (harg : arguments[i]? = some argument)
    (hdec : sinkDecision H input argument = some err) :
    sinkArgument H mem arguments listener i func ip log = ⟨some err, func, log⟩ := by
  unfold sinkDecision at hdec
  unfold sinkArgument
  rw [hinput]
  simp only
  cases ht : dynCastTensor input with
  | none =>
    simp [ht] at hdec
    simp [hdec]
  | some tensor =>
    simp only
    cases hs : H.SupportsValueSpecialization input with
    | false =>
      simp [ht, hs] at hdec
      simp [hdec]
    | true =>
      cases argument with
      | other id =>
        simp [ht, hs] at hdec
        simp [harg, hdec]
      | memref desc =>
        simp [ht, hs] at hdec
        obtain ⟨hbad, herr⟩ := hdec
        have hnone : GetMemrefValues mem tensor desc = none :=
          (GetMemrefValues_eq_none_iff mem tensor desc).mpr hbad
        simp [harg, hnone, herr]

theorem sinkArgument_sunk (H : Host) (mem : Memory) (arguments : List Argument)
    (listener : Bool) (i : Nat) (func : FuncOp) (ip : Nat) (log : List Notification)
    (input : MType) (argument : Argument) (blockArg : BlockArgument)
    (hinput : func.inputs[i]? = some input) (harg : arguments[i]? = some argument)
    (hblock : func.arguments[i]? = some blockArg)
    (hdec : sinkDecision H input argument = none) :
    ∃ desc tensor value, argument = .memref desc ∧ dynCastTensor input = some tensor ∧
      GetMemrefValues mem tensor desc = some value ∧
      sinkArgument H mem arguments listener i func ip log =
        ⟨none,
         { func with
           body := replaceAllUsesWith blockArg.value func.nextValue
             (insertOp func.body ip
               ⟨.constant value, [], [⟨func.nextValue, value.type⟩]⟩),
           nextValue := func.nextValue + 1 },
         if listener then log ++ [Notification.valueSpecialized i value.type value] else log⟩ := by
  unfold sinkDecision at hdec
  split at hdec
  · simp at hdec
  · rename_i hgood
    simp only [not_or] at hgood
    obtain ⟨htensor, hsupp⟩ := hgood
    cases ht : dynCastTensor input with
    | none => simp [ht] at htensor
    | some tensor =>
      cases argument with
      | other id => simp at hdec
      | memref desc =>
        simp only at hdec
        split at hdec
        · simp at hdec
        · rename_i hvalues
          cases hv : GetMemrefValues mem tensor desc with
          | none => exact absurd ((GetMemrefValues_eq_none_iff mem tensor desc).mp hv) hvalues
          | some value =>
            refine ⟨desc, tensor, value, rfl, rfl, hv, ?_⟩
            have hs : H.SupportsValueSpecialization input = true := by
              simpa using hsupp
            unfold sinkArgument
            simp [hinput, ht, hs, harg, hv, hblock]

theorem sinkConstants_error (H : Host) (mem : Memory) (arguments : List Argument)
    (listener : Bool) (inputs0 : List MType) (cs : List ArgumentConstraint) :
    ∀ (i : Nat) (func : FuncOp) (ip : Nat) (log : List Notification),
      func.inputs = inputs0 → i + cs.length ≤ inputs0.length →
      i + cs.length ≤ arguments.length → i + cs.length ≤ func.arguments.length →
      ((sinkConstants H mem arguments listener i cs func ip log).error = none ↔
        ∀ (j : Nat) (input : MType) (a : Argument), cs[j]? = some ArgumentConstraint.kValue →
          inputs0[i + j]? = some input → arguments[i + j]? = some a →
          sinkDecision H input a = none)
      ∧ (∀ (k : Nat) (input : MType) (a : Argument) (e : Error),
          cs[k]? = some ArgumentConstraint.kValue →
          inputs0[i + k]? = some input → arguments[i + k]? = some a →
          (∀ (j : Nat) (inputj : MType) (aj : Argument), j < k →
            cs[j]? = some ArgumentConstraint.kValue →
            inputs0[i + j]? = some inputj → arguments[i + j]? = some aj →
            sinkDecision H inputj aj = none) →
          sinkDecision H input a = some e →
          (sinkConstants H mem arguments listener i cs func ip log).error = some e) := by
  induction cs with
  | nil =>
    intro i func ip log _ _ _ _
    simp [sinkConstants]
  | cons c cs ih =>
    intro i func ip log hf h1 h2 h3
    simp only [List.length_cons] at h1 h2 h3
    have l1 : i < inputs0.length := by omega
    have l2 : i < arguments.length := by omega
    have l3 : i < func.arguments.length := by omega
    obtain ⟨input0, hin0⟩ : ∃ x, inputs0[i]? = some x := ⟨inputs0[i], by simp [l1]⟩
    obtain ⟨a0, ha0⟩ : ∃ x, arguments[i]? = some x := ⟨arguments[i], by simp [l2]⟩
    obtain ⟨b0, hb0⟩ : ∃ x, func.arguments[i]? = some x := ⟨func.arguments[i], by simp [l3]⟩
    have hfin0 : func.inputs[i]? = some input0 := by rw [hf]; exact hin0
    have shift : ∀ j, i + (j + 1) = i + 1 + j := by intro j; omega
    by_cases hc : c = ArgumentConstraint.kValue
    · subst hc
      cases hd : sinkDecision H input0 a0 with
      | some e0 =>
        have hfail := sinkArgument_fail H mem arguments listener i func ip log input0 a0 e0
          hfin0 ha0 hd
        have hres : (sinkConstants H mem arguments listener i (ArgumentConstraint.kValue :: cs)
            func ip log).error = some e0 := by
          rw [sinkConstants]
          simp [hfail]
        rw [hres]
        constructor
        · constructor
          · intro h
            simp at h
          · intro h
            have := h 0 input0 a0 (by simp) (by simpa using hin0) (by simpa using ha0)
            rw [hd] at this
            simp at this
        · intro k input a e hk hin ha hprev hdec
          cases k with
          | zero =>
            simp only [Nat.add_zero] at hin ha
            rw [hin0] at hin
            rw [ha0] at ha
            simp only [Option.some.injEq] at hin ha
            subst hin ha
            rw [hd] at hdec
            exact hdec
          | succ k =>
            have := hprev 0 input0 a0 (by omega) (by simp) (by simpa using hin0)
              (by simpa using ha0)
            rw [hd] at this
            simp at this
      | none =>
        obtain ⟨desc, tensor, value, _, _, _, hsunk⟩ :=
          sinkArgument_sunk H mem arguments listener i func ip log input0 a0 b0 hfin0 ha0 hb0 hd
        have hrec : sinkConstants H mem arguments listener i (ArgumentConstraint.kValue :: cs)
            func ip log
            = sinkConstants H mem arguments listener (i + 1) cs
                (sinkArgument H mem arguments listener i func ip log).func (ip + 1)
                (sinkArgument H mem arguments listener i func ip log).notifications := by
          rw [sinkConstants]
          simp [hsunk]
        obtain ⟨fr1, _, fr3, _⟩ := sinkArgument_frame H mem arguments listener i func ip log
        obtain ⟨ih1, ih2⟩ := ih (i + 1)
          (sinkArgument H mem arguments listener i func ip log).func (ip + 1)
          (sinkArgument H mem arguments listener i func ip log).notifications
          (by rw [fr1]; exact hf) (by omega) (by omega) (by rw [fr3]; omega)
        rw [hrec]
        constructor
        · rw [ih1]
          constructor
          · intro h j input a hj hin ha
            cases j with
            | zero =>
              simp only [Nat.add_zero] at hin ha
              rw [hin0] at hin
              rw [ha0] at ha
              simp only [Option.some.injEq] at hin ha
              subst hin ha
              exact hd
            | succ j =>
              rw [shift] at hin ha
              exact h j input a (by simpa using hj) hin ha
          · intro h j input a hj hin ha
            rw [← shift] at hin ha
            exact h (j + 1) input a (by simpa using hj) hin ha
        · intro k input a e hk hin ha hprev hdec
          cases k with
          | zero =>
            simp only [Nat.add_zero] at hin ha
            rw [hin0] at hin
            rw [ha0] at ha
            simp only [Option.some.injEq] at hin ha
            subst hin ha
            rw [hd] at hdec
            simp at hdec
          | succ k =>
            rw [shift] at hin ha
            refine ih2 k input a e (by simpa using hk) hin ha ?_ hdec
            intro j inputj aj hj hcj hinj haj
            rw [← shift] at hinj haj
            exact hprev (j + 1) inputj aj (by omega) (by simpa using hcj) hinj haj
    · have hrec : sinkConstants H mem arguments listener i (c :: cs) func ip log
          = sinkConstants H mem arguments listener (i + 1) cs func ip log := by
        rw [sinkConstants]
        simp [hc]
      obtain ⟨ih1, ih2⟩ := ih (i + 1) func ip log hf (by omega) (by omega) (by omega)
      rw [hrec]
      constructor
      · rw [ih1]
        constructor
        · intro h j input a hj hin ha
          cases j with
          | zero =>
            simp only [List.getElem?_cons_zero, Option.some.injEq] at hj
            exact absurd hj hc
          | succ j =>
            rw [shift] at hin ha
            exact h j input a (by simpa using hj) hin ha
        · intro h j input a hj hin ha
          rw [← shift] at hin ha
          exact h (j + 1) input a (by simpa using hj) hin ha
      · intro k input a e hk hin ha hprev hdec
        cases k with
        | zero =>
          simp only [List.getElem?_cons_zero, Option.some.injEq] at hk
          exact absurd hk hc
        | succ k =>
          rw [shift] at hin ha
          refine ih2 k input a e (by simpa using hk) hin ha ?_ hdec
          intro j inputj aj hj hcj hinj haj
          rw [← shift] at hinj haj
          exact hprev (j + 1) inputj aj (by omega) (by simpa using hcj) hinj haj

theorem forwardArgument_total (func : FuncOp) (ip i : Nat) (specialized : MType)
    (hi : i ≤ func.arguments.length) :
    ∃ func2 ip2, forwardArgument func ip i specialized = .ok (func2, ip2) ∧
      func2.arguments.length = func.arguments.length + 1 := by
  unfold forwardArgument
  simp only
  have hlt : i < (func.arguments ++ [(⟨func.nextValue, specialized⟩ : BlockArgument)]).length := by
    simp; omega
  cases hget : (func.arguments ++ [(⟨func.nextValue, specialized⟩ : BlockArgument)])[i]? with
  | none =>
    rw [List.getElem?_eq_none_iff] at hget
    omega
  | some old_arg =>
    simp only
    split
    · exact ⟨_, _, rfl, by simp⟩
    · exact ⟨_, _, rfl, by simp⟩

theorem forwardArguments_total (specialized_inputs : List MType) :
    ∀ (func : FuncOp) (ip i : Nat), i ≤ func.arguments.length →
      ∃ func2 ip2, forwardArguments func ip i specialized_inputs = .ok (func2, ip2) ∧
        func2.arguments.length = func.arguments.length + specialized_inputs.length := by
  induction specialized_inputs with
  | nil =>
    intro func ip i _
    exact ⟨func, ip, by simp [forwardArguments], by simp⟩
  | cons head rest ih =>
    intro func ip i hi
    obtain ⟨f1, ip1, hstep, hlen⟩ := forwardArgument_total func ip i head hi
    obtain ⟨f2, ip2, hrest, hlen2⟩ := ih f1 ip1 (i + 1) (by omega)
    refine ⟨f2, ip2, ?_, ?_⟩
    · rw [forwardArguments, hstep]
      exact hrest
    · rw [hlen2, hlen, List.length_cons]
      omega

theorem addSymbolicShapes_total (symbolic_shapes : List SymbolicShape) :
    ∀ (n i : Nat) (func : FuncOp), i + n ≤ symbolic_shapes.length →
      ∃ func2, addSymbolicShapes symbolic_shapes i n func = .ok func2 := by
  intro n
  induction n with
  | zero => intro i func _; exact ⟨func, by simp [addSymbolicShapes]⟩
  | succ n ih =>
    intro i func h
    have hlt : i < symbolic_shapes.length := by omega
    rw [addSymbolicShapes]
    simp only [List.getElem?_eq_getElem hlt]
    split
    · exact ih (i + 1) func (by omega)
    · exact ih (i + 1) _ (by omega)

theorem specializeInputs_ok_lengths (H : Host) (arguments : List Argument)
    (symbolic_shapes : List SymbolicShape) (inputs res : List MType)
    (h : specializeInputs H arguments symbolic_shapes 0 inputs = .ok res) :
    inputs.length ≤ arguments.length ∧ inputs.length ≤ symbolic_shapes.length := by
  obtain ⟨_, hall⟩ := specializeInputs_ok H arguments symbolic_shapes inputs 0 res h
  by_cases h0 : inputs.length = 0
  · omega
  · have hlt : inputs.length - 1 < inputs.length := by omega
    obtain ⟨a, s, r, ha, hs, _, _⟩ := hall (inputs.length - 1) inputs[inputs.length - 1]
      (by simp [hlt])
    simp only [Nat.zero_add] at ha hs
    have h1 : inputs.length - 1 < arguments.length := by
      by_contra hc
      rw [List.getElem?_eq_none_iff.mpr (by omega)] at ha
      simp at ha
    have h2 : inputs.length - 1 < symbolic_shapes.length := by
      by_contra hc
      rw [List.getElem?_eq_none_iff.mpr (by omega)] at hs
      simp at hs
    omega

theorem SpecializeFunction_step1_ok (H : Host) (mem : Memory) (func : FuncOp)
    (arguments : List Argument) (symbolic_shapes : List SymbolicShape)
    (constraints : List ArgumentConstraint) (listener : Bool) (specialized_inputs : List MType)
    (hspec : specializeInputs H arguments symbolic_shapes 0 func.inputs
      = .ok specialized_inputs) :
    ∃ forwarded ip attributed,
      forwardArguments { func with inputs := specialized_inputs } 0 0 specialized_inputs
        = .ok (forwarded, ip) ∧
      addSymbolicShapes symbolic_shapes 0 func.getNumArguments
        (eraseArguments forwarded func.getNumArguments) = .ok attributed ∧
      attributed.inputs = specialized_inputs ∧
      attributed.arguments.length = func.arguments.length ∧
      (SpecializeFunction H mem func arguments symbolic_shapes constraints listener).error
        = (sinkConstants H mem arguments listener 0 constraints attributed 0 []).error ∧
      (SpecializeFunction H mem func arguments symbolic_shapes constraints listener).func
        = (sinkConstants H mem arguments listener 0 constraints attributed 0 []).func := by
  obtain ⟨hlen, _⟩ := specializeInputs_ok H arguments symbolic_shapes func.inputs 0 _ hspec
  obtain ⟨_, hshapes⟩ := specializeInputs_ok_lengths H arguments symbolic_shapes _ _ hspec
  obtain ⟨forwarded, ip, hfwd, hflen⟩ := forwardArguments_total specialized_inputs
    { func with inputs := specialized_inputs } 0 0 (Nat.zero_le _)
  obtain ⟨attributed, hattr⟩ := addSymbolicShapes_total symbolic_shapes func.getNumArguments 0
    (eraseArguments forwarded func.getNumArguments)
    (by simpa [FuncOp.getNumArguments] using hshapes)
  obtain ⟨a1, _, a3, _⟩ := addSymbolicShapes_ok symbolic_shapes _ _ _ _ hattr
  obtain ⟨f1, _, _⟩ := forwardArguments_frame specialized_inputs _ _ _ _ _ hfwd
  refine ⟨forwarded, ip, attributed, hfwd, hattr, ?_, ?_, ?_, ?_⟩
  · rw [a1]
    simp only [eraseArguments, f1]
  · rw [a3]
    simp only [eraseArguments, List.length_drop, hflen, FuncOp.getNumArguments, hlen]
    omega
  · unfold SpecializeFunction
    simp only [hspec, hfwd, hattr]
    cases hs : (sinkConstants H mem arguments listener 0 constraints attributed 0 []).error with
    | none => cases listener <;> simp
    | some err => simp
  · unfold SpecializeFunction
    simp only [hspec, hfwd, hattr]
    cases hs : (sinkConstants H mem arguments listener 0 constraints attributed 0 []).error with
    | none => cases listener <;> simp
    | some err => simp

/-- C10: the decisions of the sinking pass. Let step 1 of `SpecializeFunction`
succeed with the specialized inputs `specialized_inputs`, and let there be no more
constraints than inputs and entry block arguments. For an argument `k` whose
constraint is `kValue`, `sinkDecision` is the decision in the order of the
specification (operand not a tensor supporting value specialization, argument not
a descriptor, descriptor not of rank 0 or 1 or not `I32`/`I64`, else sunk), taken
on input `k` of the specialized signature. The call returns the error of the
first argument marked `kValue` whose decision is an error, and it succeeds
exactly when every argument marked `kValue` is sunk. An iteration of the loop for
a constraint other than `kValue` changes nothing and raises no error; an
iteration for a sinkable argument creates the constant, replaces the uses of the
block argument and goes on. -/
theorem SpecializeFunction_sinking_decisions (H : Host) (mem : Memory) (func : FuncOp)
    (arguments : List Argument) (symbolic_shapes : List SymbolicShape)
    (constraints : List ArgumentConstraint) (listener : Bool) (specialized_inputs : List MType)
    (hspec : specializeInputs H arguments symbolic_shapes 0 func.inputs
      = .ok specialized_inputs)
    (hconstraints : constraints.length ≤ func.inputs.length)
    (hblock : constraints.length ≤ func.arguments.length) :
    (∀ (k : Nat) (input : MType) (argument : Argument) (err : Error),
        constraints[k]? = some ArgumentConstraint.kValue →
        specialized_inputs[k]? = some input → arguments[k]? = some argument →
        (∀ (j : Nat) (inputj : MType) (argj : Argument), j < k →
          constraints[j]? = some ArgumentConstraint.kValue →
          specialized_inputs[j]? = some inputj → arguments[j]? = some argj →
          sinkDecision H inputj argj = none) →
        sinkDecision H input argument = some err →
        (SpecializeFunction H mem func arguments symbolic_shapes constraints listener).error
          = some err)
    ∧ ((SpecializeFunction H mem func arguments symbolic_shapes constraints listener).error
          = none ↔
        ∀ (j : Nat) (input : MType) (argument : Argument),
          constraints[j]? = some ArgumentConstraint.kValue →
          specialized_inputs[j]? = some input → arguments[j]? = some argument →
          sinkDecision H input argument = none)
    ∧ (∀ (i : Nat) (c : ArgumentConstraint) (cs : List ArgumentConstraint) (f : FuncOp)
        (ip : Nat) (log : List Notification), c ≠ ArgumentConstraint.kValue →
        sinkConstants H mem arguments listener i (c :: cs) f ip log
          = sinkConstants H mem arguments listener (i + 1) cs f ip log)
    ∧ (∀ (i : Nat) (cs : List ArgumentConstraint) (f : FuncOp) (ip : Nat)
        (log : List Notification) (input : MType) (argument : Argument)
        (blockArg : BlockArgument),
        f.inputs[i]? = some input → arguments[i]? = some argument →
        f.arguments[i]? = some blockArg → sinkDecision H input argument = none →
        ∃ desc tensor value, argument = .memref desc ∧ dynCastTensor input = some tensor ∧
          GetMemrefValues mem tensor desc = some value ∧
          sinkConstants H mem arguments listener i (ArgumentConstraint.kValue :: cs) f ip log
            = sinkConstants H mem arguments listener (i + 1) cs
                { f with
                  body := replaceAllUsesWith blockArg.value f.nextValue
                    (insertOp f.body ip ⟨.constant value, [], [⟨f.nextValue, value.type⟩]⟩),
                  nextValue := f.nextValue + 1 }
                (ip + 1)
                (if listener then log ++ [Notification.valueSpecialized i value.type value]
                 else log)) := by
  obtain ⟨hlen, _⟩ := specializeInputs_ok H arguments symbolic_shapes func.inputs 0 _ hspec
  obtain ⟨hargs, _⟩ := specializeInputs_ok_lengths H arguments symbolic_shapes _ _ hspec
  obtain ⟨forwarded, ip0, attributed, _, _, hin, hblk, herr, _⟩ :=
    SpecializeFunction_step1_ok H mem func arguments symbolic_shapes constraints listener
      specialized_inputs hspec
  obtain ⟨hiff, hfirst⟩ := sinkConstants_error H mem arguments listener specialized_inputs
    constraints 0 attributed 0 [] hin (by omega) (by omega) (by omega)
  simp only [Nat.zero_add] at hiff hfirst
  refine ⟨?_, ?_, ?_, ?_⟩
  · intro k input argument err hk hi ha hprev hdec
    rw [herr]
    exact hfirst k input argument err hk hi ha hprev hdec
  · rw [herr]
    exact hiff
  · intro i c cs f ip log hc
    rw [sinkConstants]
    simp [hc]
  · intro i cs f ip log input argument blockArg hi ha hb hdec
    obtain ⟨desc, tensor, value, h1, h2, h3, hsunk⟩ :=
      sinkArgument_sunk H mem arguments listener i f ip log input argument blockArg hi ha hb hdec
    refine ⟨desc, tensor, value, h1, h2, h3, ?_⟩
    rw [sinkConstants]
    simp [hsunk]

/-- A concrete instance: in the example with the inputs `tensor<?x?xi32>` and
`tensor<4xi32>`, both marked `kValue`, step 1 succeeds and the call fails at
argument 0, whose specialized type `tensor<?x4xi32>` does not support value
specialization. -/
theorem SpecializeFunction_sinking_decisions_witness :
    specializeInputs testHost [.memref exampleMatrix, .memref exampleVector] [[-2, 4], [4]] 0
        exampleBinary.inputs
      = .ok [.rankedTensor [-1, 4] (.integer 32), .rankedTensor [4] (.integer 32)]
    ∧ (SpecializeFunction testHost exampleMemory exampleBinary
        [.memref exampleMatrix, .memref exampleVector] [[-2, 4], [4]] [.kValue, .kValue]
        true).error
      = some (Error.nonSinkableOperand (.rankedTensor [-1, 4] (.integer 32))) :=
  ⟨rfl,
   (SpecializeFunction_sinking_decisions testHost exampleMemory exampleBinary
      [.memref exampleMatrix, .memref exampleVector] [[-2, 4], [4]] [.kValue, .kValue] true
      [.rankedTensor [-1, 4] (.integer 32), .rankedTensor [4] (.integer 32)] rfl
      (by decide) (by decide)).1 0 (.rankedTensor [-1, 4] (.integer 32))
      (.memref exampleMatrix) (Error.nonSinkableOperand (.rankedTensor [-1, 4] (.integer 32)))
      rfl rfl rfl (fun j _ _ hj => absurd hj (Nat.not_lt_zero j)) rfl⟩

/-! ### The constructors of the argument descriptor -/

theorem MutableArrayRef.halves (rank : Nat) :
    (MutableArrayRef.mk 0 (List.replicate (2 * rank) (0 : Int)).length).drop_back rank = ⟨0, rank⟩
    ∧ (MutableArrayRef.mk 0 (List.replicate (2 * rank) (0 : Int)).length).drop_front rank
        = ⟨rank, rank⟩ := by
  simp only [MutableArrayRef.drop_back, MutableArrayRef.drop_front, List.length_replicate,
    MutableArrayRef.mk.injEq, Nat.zero_add, true_and]
  omega

theorem MutableArrayRef.write_halves (rank : Nat) (w1 w2 : List Int) (h1 : w1.length = rank)
    (h2 : w2.length = rank) :
    (MutableArrayRef.mk rank rank).write
      ((MutableArrayRef.mk 0 rank).write (List.replicate (2 * rank) 0) w1) w2 = w1 ++ w2 := by
  have e1 : w1.take rank = w1 := List.take_of_length_le (Nat.le_of_eq h1)
  have e2 : w2.take rank = w2 := List.take_of_length_le (Nat.le_of_eq h2)
  have e3 : (List.replicate (2 * rank) (0 : Int)).drop (0 + rank) = List.replicate rank 0 := by
    rw [List.drop_replicate]
    congr 1
    omega
  have first : (MutableArrayRef.mk 0 rank).write (List.replicate (2 * rank) 0) w1
      = w1 ++ List.replicate rank 0 := by
    simp only [MutableArrayRef.write, List.take_zero, List.nil_append, e1, e3]
  rw [first]
  simp only [MutableArrayRef.write, e2]
  have e4 : (w1 ++ List.replicate rank (0 : Int)).take rank = w1 := by
    rw [List.take_append_of_le_length (Nat.le_of_eq h1.symm), e1]
  have e5 : (w1 ++ List.replicate rank (0 : Int)).drop (rank + rank) = [] := by
    apply List.drop_eq_nil_of_le
    simp [h1]
  rw [e4, e5, List.append_nil]

theorem MemrefDesc.ofFill_sizes_and_strides (rank : Nat) (dtype : DType) (data : Nat)
    (offset : Int) (fill : Fill) :
    (MemrefDesc.ofFill rank dtype data offset fill).sizes_and_strides_
      = (fill.val (List.replicate rank 0) (List.replicate rank 0)).1
        ++ (fill.val (List.replicate rank 0) (List.replicate rank 0)).2 := by
  obtain ⟨h1, h2⟩ := fill.property (List.replicate rank 0) (List.replicate rank 0)
  simp only [List.length_replicate] at h1 h2
  have hread1 : (MutableArrayRef.mk 0 rank).read (List.replicate (2 * rank) (0 : Int))
      = List.replicate rank 0 := by
    simp only [MutableArrayRef.read, List.drop_zero, List.take_replicate]
    congr 1
    omega
  have hread2 : (MutableArrayRef.mk rank rank).read (List.replicate (2 * rank) (0 : Int))
      = List.replicate rank 0 := by
    simp only [MutableArrayRef.read, List.drop_replicate, List.take_replicate]
    congr 1
    omega
  unfold MemrefDesc.ofFill
  simp only [(MutableArrayRef.halves rank).1, (MutableArrayRef.halves rank).2, hread1, hread2]
  exact MutableArrayRef.write_halves rank _ _ h1 h2

/-- C16: the descriptors built by the two constructors have `rank()` sizes and
`rank()` strides. For the constructor from arrays called with `sizes` and
`strides` of the same length (its assertion), `rank()` is that length, `sizes()`
and `strides()` are the sequences given, and `dtype()`, `data()`, `offset()` are
the values given. For the constructor from a callback, called with `rank`: the
two slices passed to the callback are the first `rank` and the last `rank`
elements of one vector of `2 * rank` elements, each holds `rank` zeros, and
afterwards `sizes()` and `strides()` are what the callback left in the first and
in the second slice. In both cases `size(i)` is `sizes()[i]` and `stride(i)` is
`strides()[i]` for every `i < rank()`. -/
theorem MemrefDesc.constructors (dtype : DType) (data : Nat) (offset : Int)
    (sizes strides : List Int) (rank : Nat) (fill : Fill)
    (hassert : sizes.length = strides.length) :
    ((MemrefDesc.ofArrays dtype data offset sizes strides).rank = sizes.length
      ∧ (MemrefDesc.ofArrays dtype data offset sizes strides).sizes = sizes
      ∧ (MemrefDesc.ofArrays dtype data offset sizes strides).strides = strides
      ∧ (MemrefDesc.ofArrays dtype data offset sizes strides).dtype = dtype
      ∧ (MemrefDesc.ofArrays dtype data offset sizes strides).data = data
      ∧ (MemrefDesc.ofArrays dtype data offset sizes strides).offset = offset
      ∧ ∀ i, i < (MemrefDesc.ofArrays dtype data offset sizes strides).rank →
          sizes[i]? = some ((MemrefDesc.ofArrays dtype data offset sizes strides).size i)
          ∧ strides[i]? = some ((MemrefDesc.ofArrays dtype data offset sizes strides).stride i))
    ∧ ((MutableArrayRef.mk 0 (List.replicate (2 * rank) (0 : Int)).length).drop_back rank
          = ⟨0, rank⟩
      ∧ (MutableArrayRef.mk 0 (List.replicate (2 * rank) (0 : Int)).length).drop_front rank
          = ⟨rank, rank⟩
      ∧ (MutableArrayRef.mk 0 rank).read (List.replicate (2 * rank) 0) = List.replicate rank 0
      ∧ (MutableArrayRef.mk rank rank).read (List.replicate (2 * rank) 0) = List.replicate rank 0
      ∧ (MemrefDesc.ofFill rank dtype data offset fill).rank = rank
      ∧ (MemrefDesc.ofFill rank dtype data offset fill).sizes
          = (fill.val (List.replicate rank 0) (List.replicate rank 0)).1
      ∧ (MemrefDesc.ofFill rank dtype data offset fill).strides
          = (fill.val (List.replicate rank 0) (List.replicate rank 0)).2
      ∧ (MemrefDesc.ofFill rank dtype data offset fill).sizes.length = rank
      ∧ (MemrefDesc.ofFill rank dtype data offset fill).strides.length = rank
      ∧ (MemrefDesc.ofFill rank dtype data offset fill).dtype = dtype
      ∧ (MemrefDesc.ofFill rank dtype data offset fill).data = data
      ∧ (MemrefDesc.ofFill rank dtype data offset fill).offset = offset
      ∧ ∀ i, i < (MemrefDesc.ofFill rank dtype data offset fill).rank →
          (MemrefDesc.ofFill rank dtype data offset fill).sizes[i]?
            = some ((MemrefDesc.ofFill rank dtype data offset fill).size i)
          ∧ (MemrefDesc.ofFill rank dtype data offset fill).strides[i]?
            = some ((MemrefDesc.ofFill rank dtype data offset fill).stride i)) := by
  constructor
  · refine ⟨rfl, ?_, ?_, rfl, rfl, rfl, ?_⟩
    · simp [MemrefDesc.sizes, MemrefDesc.ofArrays]
    · simp [MemrefDesc.strides, MemrefDesc.ofArrays, hassert]
    · intro i hi
      have hi1 : i < sizes.length := hi
      have hi2 : i < strides.length := by omega
      constructor
      · simp [MemrefDesc.size, MemrefDesc.ofArrays, List.getElem?_append_left hi1, hi1]
      · simp only [MemrefDesc.stride, MemrefDesc.ofArrays, List.getD_eq_getElem?_getD]
        rw [List.getElem?_append_right (by omega)]
        simp [hi2]
  · obtain ⟨h1, h2⟩ := fill.property (List.replicate rank 0) (List.replicate rank 0)
    simp only [List.length_replicate] at h1 h2
    have hbuf := MemrefDesc.ofFill_sizes_and_strides rank dtype data offset fill
    have hrank : (MemrefDesc.ofFill rank dtype data offset fill).rank_ = rank := rfl
    have hsizes : (MemrefDesc.ofFill rank dtype data offset fill).sizes
        = (fill.val (List.replicate rank 0) (List.replicate rank 0)).1 := by
      simp [MemrefDesc.sizes, hbuf, hrank, h1]
    have hstrides : (MemrefDesc.ofFill rank dtype data offset fill).strides
        = (fill.val (List.replicate rank 0) (List.replicate rank 0)).2 := by
      simp [MemrefDesc.strides, hbuf, hrank, h1, h2]
    refine ⟨(MutableArrayRef.halves rank).1, (MutableArrayRef.halves rank).2, ?_, ?_, rfl,
      hsizes, hstrides, by rw [hsizes, h1], by rw [hstrides, h2], rfl, rfl, rfl, ?_⟩
    · simp only [MutableArrayRef.read, List.drop_zero, List.take_replicate]
      congr 1
      omega
    · simp only [MutableArrayRef.read, List.drop_replicate, List.take_replicate]
      congr 1
      omega
    · intro i hi
      have hi0 : i < rank := hi
      rw [hsizes, hstrides]
      constructor
      · simp only [MemrefDesc.size, hbuf, List.getD_eq_getElem?_getD]
        rw [List.getElem?_append_left (by omega)]
        simp [h1, hi0]
      · simp only [MemrefDesc.stride, hbuf, hrank, List.getD_eq_getElem?_getD]
        rw [List.getElem?_append_right (by omega)]
        simp [h1, h2, hi0]

/-- A concrete instance: the 2x4 descriptor built from the arrays `[2, 4]` and
`[4, 1]` and the one built with rank 2 from a callback that stores the same
values are the same descriptor, with the sizes `[2, 4]` and the strides `[4, 1]`. -/
theorem MemrefDesc.constructors_witness :
    MemrefDesc.ofArrays .I32 100 0 [2, 4] [4, 1] = exampleMatrix
    ∧ MemrefDesc.ofFill 2 .I32 100 0 exampleFill = exampleMatrix
    ∧ (MemrefDesc.ofFill 2 .I32 100 0 exampleFill).sizes = [2, 4]
    ∧ (MemrefDesc.ofFill 2 .I32 100 0 exampleFill).strides = [4, 1]
    ∧ (MemrefDesc.ofArrays .I32 100 0 [2, 4] [4, 1]).rank = [2, 4].length :=
  ⟨by decide, by decide, by decide, by decide,
   (MemrefDesc.constructors .I32 100 0 [2, 4] [4, 1] 2 exampleFill rfl).1.1⟩

/-! ### The runtime types -/

/-- C18: for every runtime type, the tag `kind()` is the one its constructor
fixes (it is a function of the value, there is no operation that changes it);
each `classof` predicate holds exactly when the tag is the tag of its class, that
is exactly for the values built by the constructor of its class; and exactly one
of the seven `classof` predicates is true. -/
theorem RuntimeType.classof_exactly_one (type : RuntimeType) :
    ((AsyncTokenType.classof type = true ↔ type.kind = TypeKind.kAsyncToken)
      ∧ (AsyncValueType.classof type = true ↔ type.kind = TypeKind.kAsyncValue)
      ∧ (RankedTensorType.classof type = true ↔ type.kind = TypeKind.kRankedTensor)
      ∧ (UnrankedTensorType.classof type = true ↔ type.kind = TypeKind.kUnrankedTensor)
      ∧ (MemrefType.classof type = true ↔ type.kind = TypeKind.kMemref)
      ∧ (UnrankedMemrefType.classof type = true ↔ type.kind = TypeKind.kUnrankedMemref)
      ∧ (KernelContextOperandType.classof type = true ↔ type.kind = TypeKind.kKernelContext))
    ∧ ((AsyncTokenType.classof type = true ↔ type = .AsyncTokenType)
      ∧ (AsyncValueType.classof type = true ↔ ∃ value_type, type = .AsyncValueType value_type)
      ∧ (RankedTensorType.classof type = true ↔
          ∃ sizes element_type, type = .RankedTensorType sizes element_type)
      ∧ (UnrankedTensorType.classof type = true ↔
          ∃ element_type, type = .UnrankedTensorType element_type)
      ∧ (MemrefType.classof type = true ↔
          ∃ sizes element_type, type = .MemrefType sizes element_type)
      ∧ (UnrankedMemrefType.classof type = true ↔
          ∃ element_type, type = .UnrankedMemrefType element_type)
      ∧ (KernelContextOperandType.classof type = true ↔ type = .KernelContextOperandType))
    ∧ (classofPredicates.filter (fun classof => classof type)).length = 1 := by
  refine ⟨?_, ?_, ?_⟩
  · simp [AsyncTokenType.classof, AsyncValueType.classof, RankedTensorType.classof,
      UnrankedTensorType.classof, MemrefType.classof, UnrankedMemrefType.classof,
      KernelContextOperandType.classof]
  · cases type <;>
      simp [AsyncTokenType.classof, AsyncValueType.classof, RankedTensorType.classof,
        UnrankedTensorType.classof, MemrefType.classof, UnrankedMemrefType.classof,
        KernelContextOperandType.classof, RuntimeType.kind]
  · cases type <;> rfl

/-! ### Verification against a host shaped type -/

/-- C20: `VerifyMemrefOperand` on a host shaped type converts the element type
first and, if the conversion fails, returns the conversion error whatever the
descriptor is; otherwise it is the verification of the descriptor against the
ranked type with the shape of the host type and the converted dtype when the
host type has a rank, and against the unranked type with the converted dtype when
it has none, which checks the dtype only. -/
theorem VerifyMemrefOperand_dispatch (H : Host) (index : Nat) (shaped : ShapedType)
    (memref : MemrefDesc) :
    (∀ message, H.ConvertElementType shaped.elementType = .error message →
      ∀ other : MemrefDesc,
        VerifyMemrefOperand H index shaped other = some (Error.conversion message))
    ∧ (∀ element_ty shape, H.ConvertElementType shaped.elementType = .ok element_ty →
        shaped.shape = some shape →
        VerifyMemrefOperand H index shaped memref
          = VerifyMemrefArgument index element_ty (some shape) memref)
    ∧ (∀ element_ty, H.ConvertElementType shaped.elementType = .ok element_ty →
        shaped.shape = none →
        VerifyMemrefOperand H index shaped memref
            = VerifyMemrefArgument index element_ty none memref
        ∧ VerifyMemrefOperand H index shaped memref
            = if memref.dtype ≠ element_ty then
                some (Error.dtypeMismatch index element_ty memref.dtype)
              else none) := by
  refine ⟨?_, ?_, ?_⟩
  · intro message hconv other
    simp [VerifyMemrefOperand, hconv]
  · intro element_ty shape hconv hshape
    simp [VerifyMemrefOperand, hconv, hshape]
  · intro element_ty hconv hshape
    simp [VerifyMemrefOperand, hconv, hshape, VerifyMemrefArgument]

/-- A concrete instance: the element type `other 9` does not convert, and the
conversion error is returned for the rank 1 descriptor; against `tensor<5xi32>`
the descriptor of size 4 is verified as against the ranked type `[5]` of `I32`. -/
theorem VerifyMemrefOperand_dispatch_witness :
    VerifyMemrefOperand testHost 0 ⟨some [5], .other 9⟩ exampleVector
        = some (Error.conversion "unsupported element type")
    ∧ VerifyMemrefOperand testHost 0 ⟨some [5], .integer 32⟩ exampleVector
        = VerifyMemrefArgument 0 DType.I32 (some [5]) exampleVector
    ∧ VerifyMemrefOperand testHost 0 ⟨none, .integer 32⟩ exampleFloatVector
        = some (Error.dtypeMismatch 0 DType.I32 DType.F32) :=
  ⟨(VerifyMemrefOperand_dispatch testHost 0 ⟨some [5], .other 9⟩ exampleVector).1
      "unsupported element type" rfl exampleVector,
   (VerifyMemrefOperand_dispatch testHost 0 ⟨some [5], .integer 32⟩ exampleVector).2.1
      DType.I32 [5] rfl rfl,
   ((VerifyMemrefOperand_dispatch testHost 0 ⟨none, .integer 32⟩ exampleFloatVector).2.2
      DType.I32 rfl rfl).2⟩

/-! ### The rewriting of the block arguments -/

theorem replaceAllUsesWith_eq_map (old new : Value) (body : List Operation) :
    replaceAllUsesWith old new body = body.map (renameOperands (substitute [(old, new)])) := by
  rfl

theorem substitute_of_not_key (pairs : List (Value × Value)) (v : Value)
    (h : ∀ p ∈ pairs, p.1 ≠ v) : substitute pairs v = v := by
  induction pairs with
  | nil => rfl
  | cons p rest ih =>
    obtain ⟨old, new⟩ := p
    have h1 : v ≠ old := fun e => h (old, new) (by simp) e.symm
    simp only [substitute, if_neg h1]
    exact ih (fun q hq => h q (by simp [hq]))

theorem renameOperands_id_of_not_used (σ : Value → Value) (op : Operation)
    (h : ∀ v ∈ op.operands, σ v = v) : renameOperands σ op = op := by
  unfold renameOperands
  have : op.operands.map σ = op.operands := by
    conv_rhs => rw [← List.map_id op.operands]
    exact List.map_congr_left (fun v hv => by simpa using h v hv)
  rw [this]

theorem renameOperands_comp (σ τ : Value → Value) (op : Operation) :
    renameOperands τ (renameOperands σ op) = renameOperands (fun v => τ (σ v)) op := by
  simp [renameOperands, Function.comp_def]

theorem insertOp_append (front rest : List Operation) (op : Operation) :
    insertOp (front ++ rest) front.length op = front ++ op :: rest := by
  simp [insertOp]

theorem forwardedArguments_old_mem (si : List MType) :
    ∀ (nv : Nat) (olds : List BlockArgument) (e : ForwardedArgument),
      e ∈ forwardedArguments nv olds si → e.old_arg ∈ olds := by
  induction si with
  | nil =>
    intro nv olds e he
    cases olds <;> simp [forwardedArguments] at he
  | cons s ss ih =>
    intro nv olds e he
    cases olds with
    | nil => simp [forwardedArguments] at he
    | cons o os =>
      rw [forwardedArguments] at he
      split at he
      · rcases List.mem_cons.mp he with h | h
        · subst h; simp
        · exact List.mem_cons_of_mem _ (ih _ _ _ h)
      · rcases List.mem_cons.mp he with h | h
        · subst h; simp
        · exact List.mem_cons_of_mem _ (ih _ _ _ h)

theorem substitute_cons_comp (old new : Value) (pairs : List (Value × Value))
    (h : ∀ p ∈ pairs, p.1 ≠ new) (op : Operation) :
    renameOperands (substitute pairs) (renameOperands (substitute [(old, new)]) op)
      = renameOperands (substitute ((old, new) :: pairs)) op := by
  rw [renameOperands_comp]
  congr 1
  funext v
  by_cases hv : v = old
  · simp only [substitute, hv, if_true]
    exact substitute_of_not_key pairs new h
  · simp [substitute, hv]

theorem forwardArguments_plan (si : List MType) :
    ∀ (olds done news : List BlockArgument) (front rest : List Operation) (func : FuncOp)
      (ip i : Nat),
      func.arguments = done ++ olds ++ news → done.length = i → olds.length = si.length →
      func.body = front ++ rest → ip = front.length →
      (∀ a ∈ olds, a.value < func.nextValue) →
      (∀ op ∈ front, ∀ v ∈ op.operands, ∀ a ∈ olds, v ≠ a.value) →
      ∃ forwarded,
        forwardArguments func ip i si = .ok
          (forwarded, ip + (forwardedCasts (forwardedArguments func.nextValue olds si)).length)
        ∧ forwarded.arguments = done ++ olds ++ news
            ++ (forwardedArguments func.nextValue olds si).map (fun e => e.new_arg)
        ∧ forwarded.body = front ++ forwardedCasts (forwardedArguments func.nextValue olds si)
            ++ rest.map (renameOperands
                (substitute (forwardedUses (forwardedArguments func.nextValue olds si))))
        ∧ forwarded.nextValue = func.nextValue
            + ((forwardedArguments func.nextValue olds si).length
              + (forwardedCasts (forwardedArguments func.nextValue olds si)).length) := by
  induction si with
  | nil =>
    intro olds done news front rest func ip i harg _ hlen hbody _ _ _
    have : olds = [] := List.length_eq_zero.mp (by simpa using hlen)
    subst this
    refine ⟨func, ?_, ?_, ?_, ?_⟩
    · simp [forwardArguments, forwardedArguments, forwardedCasts]
    · simp [forwardedArguments, harg]
    · have hid : rest.map (renameOperands (substitute [])) = rest := by
        conv_rhs => rw [← List.map_id rest]
        exact List.map_congr_left (fun op _ => by simp [renameOperands, substitute])
      simp [forwardedArguments, forwardedCasts, forwardedUses, hid, hbody]
    · simp [forwardedArguments, forwardedCasts]
  | cons s ss ih =>
    intro olds done news front rest func ip i harg hdone hlen hbody hip hfresh hfront
    cases olds with
    | nil => simp at hlen
    | cons o os =>
      simp only [List.length_cons, Nat.add_right_cancel_iff] at hlen
      have hget : (func.arguments ++ [(⟨func.nextValue, s⟩ : BlockArgument)])[i]? = some o := by
        rw [harg]
        have : done ++ o :: os ++ news ++ [(⟨func.nextValue, s⟩ : BlockArgument)]
            = done ++ (o :: (os ++ news ++ [(⟨func.nextValue, s⟩ : BlockArgument)])) := by
          simp
        rw [this, List.getElem?_append_right (Nat.le_of_eq hdone)]
        simp [hdone]
      have ho : o.value < func.nextValue := hfresh o (by simp)
      have hne : func.nextValue ≠ o.value := Nat.ne_of_gt ho
      have hfront_id : ∀ r, front.map (renameOperands (substitute [(o.value, r)])) = front := by
        intro r
        conv_rhs => rw [← List.map_id front]
        apply List.map_congr_left
        intro op hop
        apply renameOperands_id_of_not_used
        intro v hv
        have := hfront op hop v hv o (by simp)
        simp [substitute, this]
      have hkeys : ∀ (nv : Nat), ∀ p ∈ forwardedUses (forwardedArguments nv os ss),
          p.1 < func.nextValue := by
        intro nv p hp
        simp only [forwardedUses, List.mem_map] at hp
        obtain ⟨e, he, rfl⟩ := hp
        exact hfresh _ (List.mem_cons_of_mem _ (forwardedArguments_old_mem ss nv os e he))
      by_cases hty : s ≠ o.type
      · have hbody1 : replaceAllUsesWith o.value (func.nextValue + 1)
            (insertOp func.body ip ⟨.cast, [func.nextValue], [⟨func.nextValue + 1, o.type⟩]⟩)
            = (front ++ [⟨.cast, [func.nextValue], [⟨func.nextValue + 1, o.type⟩]⟩])
              ++ rest.map (renameOperands (substitute [(o.value, func.nextValue + 1)])) := by
          rw [hbody, hip, insertOp_append, replaceAllUsesWith_eq_map, List.map_append,
            List.map_cons, hfront_id]
          have : renameOperands (substitute [(o.value, func.nextValue + 1)])
              ⟨.cast, [func.nextValue], [⟨func.nextValue + 1, o.type⟩]⟩
              = ⟨.cast, [func.nextValue], [⟨func.nextValue + 1, o.type⟩]⟩ := by
            simp [renameOperands, substitute, hne]
          rw [this]
          simp
        obtain ⟨forwarded, hrun, hargs, hbd, hnv⟩ := ih os (done ++ [o])
          (news ++ [⟨func.nextValue, s⟩])
          (front ++ [⟨.cast, [func.nextValue], [⟨func.nextValue + 1, o.type⟩]⟩])
          (rest.map (renameOperands (substitute [(o.value, func.nextValue + 1)])))
          { func with
            arguments := func.arguments ++ [⟨func.nextValue, s⟩],
            body := replaceAllUsesWith o.value (func.nextValue + 1)
              (insertOp func.body ip ⟨.cast, [func.nextValue], [⟨func.nextValue + 1, o.type⟩]⟩),
            nextValue := func.nextValue + 2 }
          (ip + 1) (i + 1)
          (by simp [harg]) (by simp [hdone]) hlen hbody1 (by simp [hip])
          (by
            intro a ha
            exact Nat.lt_add_right 2 (hfresh a (List.mem_cons_of_mem _ ha)))
          (by
            intro op hop v hv a ha
            rcases List.mem_append.mp hop with h | h
            · exact hfront op h v hv a (List.mem_cons_of_mem _ ha)
            · simp only [List.mem_singleton] at h
              subst h
              simp only [List.mem_singleton] at hv
              subst hv
              exact Nat.ne_of_gt (hfresh a (List.mem_cons_of_mem _ ha)))
        simp only at hrun hargs hbd hnv
        have hplan : forwardedArguments func.nextValue (o :: os) (s :: ss)
            = ⟨o, ⟨func.nextValue, s⟩,
                some ⟨.cast, [func.nextValue], [⟨func.nextValue + 1, o.type⟩]⟩,
                func.nextValue + 1⟩ :: forwardedArguments (func.nextValue + 2) os ss := by
          rw [forwardedArguments, if_pos hty]
        refine ⟨forwarded, ?_, ?_, ?_, ?_⟩
        · rw [forwardArguments, forwardArgument]
          simp only [hget, hty, ne_eq, not_false_eq_true, if_true]
          rw [hrun, hplan]
          simp only [forwardedCasts, List.filterMap_cons, List.length_cons]
          congr 2
          omega
        · rw [hargs, hplan]
          simp
        · rw [hbd, hplan]
          simp only [forwardedCasts, forwardedUses, List.filterMap_cons, List.map_cons,
            List.map_map, List.append_assoc, List.singleton_append, List.cons_append,
            List.nil_append]
          congr 2
          congr 1
          apply List.map_congr_left
          intro op _
          simp only [Function.comp_apply]
          apply substitute_cons_comp
          intro p hp
          exact Nat.ne_of_lt (Nat.lt_add_right 1
            (hkeys (func.nextValue + 2) p (by simpa [forwardedUses] using hp)))
        · rw [hnv, hplan]
          simp only [forwardedCasts, List.filterMap_cons, List.length_cons]
          omega
      · have hs : s = o.type := by simpa using hty
        have hbody1 : replaceAllUsesWith o.value func.nextValue func.body
            = front ++ rest.map (renameOperands (substitute [(o.value, func.nextValue)])) := by
          rw [hbody, replaceAllUsesWith_eq_map, List.map_append, hfront_id]
        obtain ⟨forwarded, hrun, hargs, hbd, hnv⟩ := ih os (done ++ [o])
          (news ++ [⟨func.nextValue, s⟩]) front
          (rest.map (renameOperands (substitute [(o.value, func.nextValue)])))
          { func with
            arguments := func.arguments ++ [⟨func.nextValue, s⟩],
            body := replaceAllUsesWith o.value func.nextValue func.body,
            nextValue := func.nextValue + 1 }
          ip (i + 1)
          (by simp [harg]) (by simp [hdone]) hlen hbody1 hip
          (by
            intro a ha
            exact Nat.lt_add_right 1 (hfresh a (List.mem_cons_of_mem _ ha)))
          (by
            intro op hop v hv a ha
            exact hfront op hop v hv a (List.mem_cons_of_mem _ ha))
        simp only at hrun hargs hbd hnv
        have hplan : forwardedArguments func.nextValue (o :: os) (s :: ss)
            = ⟨o, ⟨func.nextValue, s⟩, none, func.nextValue⟩
                :: forwardedArguments (func.nextValue + 1) os ss := by
          rw [forwardedArguments, if_neg hty]
        refine ⟨forwarded, ?_, ?_, ?_, ?_⟩
        · rw [forwardArguments, forwardArgument]
          simp only [hget, hty, if_false]
          rw [hrun, hplan]
          simp only [forwardedCasts, List.filterMap_cons]
        · rw [hargs, hplan]
          simp
        · rw [hbd, hplan]
          simp only [forwardedCasts, forwardedUses, List.filterMap_cons, List.map_cons,
            List.map_map]
          congr 1
          apply List.map_congr_left
          intro op _
          simp only [Function.comp_apply]
          apply substitute_cons_comp
          intro p hp
          exact Nat.ne_of_lt (hkeys (func.nextValue + 1) p (by simpa [forwardedUses] using hp))
        · rw [hnv, hplan]
          simp only [forwardedCasts, List.filterMap_cons, List.length_cons]
          omega

/-! ### The sinking of the constants -/

theorem sinkArgument_ok_inv (H : Host) (mem : Memory) (arguments : List Argument)
    (listener : Bool) (i : Nat) (func : FuncOp) (ip : Nat) (log : List Notification)
    (h : (sinkArgument H mem arguments listener i func ip log).error = none) :
    ∃ input tensor desc value blockArg,
      func.inputs[i]? = some input ∧ dynCastTensor input = some tensor ∧
      H.SupportsValueSpecialization input = true ∧
      arguments[i]? = some (.memref desc) ∧ GetMemrefValues mem tensor desc = some value ∧
      func.arguments[i]? = some blockArg ∧
      sinkArgument H mem arguments listener i func ip log =
        ⟨none,
         { func with
           body := replaceAllUsesWith blockArg.value func.nextValue
             (insertOp func.body ip ⟨.constant value, [], [⟨func.nextValue, value.type⟩]⟩),
           nextValue := func.nextValue + 1 },
         if listener then log ++ [Notification.valueSpecialized i value.type value] else log⟩ := by
  unfold sinkArgument at h ⊢
  cases hin : func.inputs[i]? with
  | none => simp [hin] at h
  | some input =>
    simp only [hin] at h ⊢
    cases ht : dynCastTensor input with
    | none => simp [ht] at h
    | some tensor =>
      simp only [ht] at h ⊢
      cases hs : H.SupportsValueSpecialization input with
      | false => simp [hs] at h
      | true =>
        simp only [hs, not_true_eq_false, if_false] at h ⊢
        cases ha : arguments[i]? with
        | none => simp [ha] at h
        | some a =>
          cases a with
          | other id => simp [ha] at h
          | memref desc =>
            simp only [ha] at h ⊢
            cases hv : GetMemrefValues mem tensor desc with
            | none => simp [hv] at h
            | some value =>
              simp only [hv] at h ⊢
              cases hb : func.arguments[i]? with
              | none => simp [hb] at h
              | some blockArg =>
                simp only [hb] at h ⊢
                exact ⟨input, tensor, desc, value, blockArg, rfl, ht, hs, rfl, hv, rfl, rfl⟩

theorem sunkArguments_argument_mem (mem : Memory) (inputs : List MType)
    (arguments : List Argument) (blockArgs : List BlockArgument)
    (cs : List ArgumentConstraint) :
    ∀ (nv i : Nat) (s : SunkArgument),
      s ∈ sunkArguments mem inputs arguments blockArgs nv i cs → s.argument ∈ blockArgs := by
  induction cs with
  | nil => intro nv i s hs; simp [sunkArguments] at hs
  | cons c cs ih =>
    intro nv i s hs
    rw [sunkArguments] at hs
    split at hs
    · exact ih _ _ _ hs
    · split at hs
      · rename_i input desc blockArg _ _ hb
        split at hs
        · rcases List.mem_cons.mp hs with h | h
          · subst h
            exact List.getElem?_mem hb
          · exact ih _ _ _ h
        · simp at hs
      · simp at hs

theorem sinkConstants_plan (H : Host) (mem : Memory) (arguments : List Argument)
    (listener : Bool) (cs : List ArgumentConstraint) :
    ∀ (i : Nat) (func : FuncOp) (ip : Nat) (log : List Notification)
      (front rest : List Operation),
      (sinkConstants H mem arguments listener i cs func ip log).error = none →
      func.body = front ++ rest → ip = front.length →
      (∀ op ∈ front, op.operands = []) →
      (∀ a ∈ func.arguments, a.value < func.nextValue) →
      (sinkConstants H mem arguments listener i cs func ip log).func.body
          = front
            ++ (sunkArguments mem func.inputs arguments func.arguments func.nextValue i cs).map
                SunkArgument.constant
            ++ rest.map (renameOperands (substitute (sunkUses
                (sunkArguments mem func.inputs arguments func.arguments func.nextValue i cs))))
      ∧ (sinkConstants H mem arguments listener i cs func ip log).func.nextValue
          = func.nextValue
            + (sunkArguments mem func.inputs arguments func.arguments func.nextValue i cs).length
      ∧ (sinkConstants H mem arguments listener i cs func ip log).notifications
          = log ++ (if listener then
              (sunkArguments mem func.inputs arguments func.arguments func.nextValue i cs).map
                SunkArgument.notification
            else [])
      ∧ (sunkArguments mem func.inputs arguments func.arguments func.nextValue i cs).map
            (fun s => s.index) = kValueIndices i cs := by
  induction cs with
  | nil =>
    intro i func ip log front rest _ hbody _ _ _
    have hid : rest.map (renameOperands (substitute [])) = rest := by
      conv_rhs => rw [← List.map_id rest]
      exact List.map_congr_left (fun op _ => by simp [renameOperands, substitute])
    simp [sinkConstants, sunkArguments, sunkUses, kValueIndices, hid, hbody]
  | cons c cs ih =>
    intro i func ip log front rest hok hbody hip hfront hfresh
    by_cases hc : c = ArgumentConstraint.kValue
    · subst hc
      have hstep : (sinkArgument H mem arguments listener i func ip log).error = none := by
        rw [sinkConstants] at hok
        simp only [ne_eq, not_true_eq_false, if_false] at hok
        cases he : (sinkArgument H mem arguments listener i func ip log).error with
        | none => rfl
        | some err => simp [he] at hok
      obtain ⟨input, tensor, desc, value, blockArg, hin, ht, _, ha, hv, hb, hrun⟩ :=
        sinkArgument_ok_inv H mem arguments listener i func ip log hstep
      have hrec : sinkConstants H mem arguments listener i (ArgumentConstraint.kValue :: cs)
          func ip log
          = sinkConstants H mem arguments listener (i + 1) cs
              { func with
                body := replaceAllUsesWith blockArg.value func.nextValue
                  (insertOp func.body ip ⟨.constant value, [], [⟨func.nextValue, value.type⟩]⟩),
                nextValue := func.nextValue + 1 }
              (ip + 1)
              (if listener then log ++ [Notification.valueSpecialized i value.type value]
               else log) := by
        rw [sinkConstants]
        simp [hrun]
      have hfront_id : front.map (renameOperands (substitute [(blockArg.value, func.nextValue)]))
          = front := by
        conv_rhs => rw [← List.map_id front]
        apply List.map_congr_left
        intro op hop
        apply renameOperands_id_of_not_used
        intro v hv
        rw [hfront op hop] at hv
        simp at hv
      have hbody1 : replaceAllUsesWith blockArg.value func.nextValue
            (insertOp func.body ip ⟨.constant value, [], [⟨func.nextValue, value.type⟩]⟩)
          = (front ++ [⟨.constant value, [], [⟨func.nextValue, value.type⟩]⟩])
            ++ rest.map (renameOperands (substitute [(blockArg.value, func.nextValue)])) := by
        rw [hbody, hip, insertOp_append, replaceAllUsesWith_eq_map, List.map_append,
          List.map_cons, hfront_id]
        simp [renameOperands]
      rw [hrec] at hok ⊢
      obtain ⟨ih1, ih2, ih3, ih4⟩ := ih (i + 1) _ (ip + 1) _
        (front ++ [⟨.constant value, [], [⟨func.nextValue, value.type⟩]⟩])
        (rest.map (renameOperands (substitute [(blockArg.value, func.nextValue)])))
        hok hbody1 (by simp [hip])
        (by
          intro op hop
          rcases List.mem_append.mp hop with h | h
          · exact hfront op h
          · simp only [List.mem_singleton] at h
            subst h
            rfl)
        (by
          intro a ha
          exact Nat.lt_add_right 1 (hfresh a ha))
      simp only at ih1 ih2 ih3 ih4
      have hplan : sunkArguments mem func.inputs arguments func.arguments func.nextValue i
            (ArgumentConstraint.kValue :: cs)
          = ⟨i, blockArg, value, func.nextValue⟩
            :: sunkArguments mem func.inputs arguments func.arguments (func.nextValue + 1)
                (i + 1) cs := by
        rw [sunkArguments]
        simp [hin, ha, hb, ht, hv]
      rw [hplan]
      refine ⟨?_, ?_, ?_, ?_⟩
      · rw [ih1]
        simp only [List.map_cons, SunkArgument.constant, sunkUses, List.map_map,
          List.append_assoc, List.singleton_append, List.cons_append, List.nil_append]
        congr 2
        congr 1
        apply List.map_congr_left
        intro op _
        simp only [Function.comp_apply]
        apply substitute_cons_comp
        intro p hp
        have hp2 : p ∈ sunkUses (sunkArguments mem func.inputs arguments func.arguments
            (func.nextValue + 1) (i + 1) cs) := by
          simpa [sunkUses] using hp
        simp only [sunkUses, List.mem_map] at hp2
        obtain ⟨s, hs, rfl⟩ := hp2
        exact Nat.ne_of_lt (hfresh _ (sunkArguments_argument_mem mem _ _ _ cs _ _ s hs))
      · rw [ih2]
        simp only [List.length_cons]
        omega
      · rw [ih3]
        cases listener <;> simp [SunkArgument.notification]
      · rw [List.map_cons, ih4]
        simp [kValueIndices]
    · have hrec : sinkConstants H mem arguments listener i (c :: cs) func ip log
          = sinkConstants H mem arguments listener (i + 1) cs func ip log := by
        rw [sinkConstants]
        simp [hc]
      have hplan : sunkArguments mem func.inputs arguments func.arguments func.nextValue i
            (c :: cs)
          = sunkArguments mem func.inputs arguments func.arguments func.nextValue (i + 1) cs := by
        rw [sunkArguments]
        simp [hc]
      rw [hrec] at hok ⊢
      rw [hplan]
      obtain ⟨ih1, ih2, ih3, ih4⟩ := ih (i + 1) func ip log front rest hok hbody hip hfront hfresh
      refine ⟨ih1, ih2, ih3, ?_⟩
      rw [ih4]
      simp [kValueIndices, hc]

/-! ### The plan of the rewriting -/

theorem forwardedArguments_bounds (si : List MType) :
    ∀ (nv : Nat) (olds : List BlockArgument) (e : ForwardedArgument),
      e ∈ forwardedArguments nv olds si →
      nv ≤ e.new_arg.value ∧ e.new_arg.value ≤ e.replacement
        ∧ e.replacement < nv + ((forwardedArguments nv olds si).length
            + (forwardedCasts (forwardedArguments nv olds si)).length) := by
  induction si with
  | nil =>
    intro nv olds e he
    cases olds <;> simp [forwardedArguments] at he
  | cons s ss ih =>
    intro nv olds e he
    cases olds with
    | nil => simp [forwardedArguments] at he
    | cons o os =>
      rw [forwardedArguments] at he ⊢
      split at he
      · rename_i hty
        rw [if_pos hty]
        simp only [forwardedCasts, List.filterMap_cons, List.length_cons]
        rcases List.mem_cons.mp he with h | h
        · subst h
          simp only
          refine ⟨Nat.le_refl _, Nat.le_succ _, ?_⟩
          unfold Value at *
          omega
        · obtain ⟨h1, h2, h3⟩ := ih _ _ _ h
          simp only [forwardedCasts] at h3
          unfold Value at *
          refine ⟨by omega, h2, ?_⟩
          omega
      · rename_i hty
        rw [if_neg hty]
        simp only [forwardedCasts, List.filterMap_cons, List.length_cons]
        rcases List.mem_cons.mp he with h | h
        · subst h
          simp only
          refine ⟨Nat.le_refl _, Nat.le_refl _, ?_⟩
          unfold Value at *
          omega
        · obtain ⟨h1, h2, h3⟩ := ih _ _ _ h
          simp only [forwardedCasts] at h3
          unfold Value at *
          refine ⟨by omega, h2, ?_⟩
          omega

theorem forwardedArguments_pairwise (si : List MType) :
    ∀ (nv : Nat) (olds : List BlockArgument),
      (forwardedArguments nv olds si).Pairwise
        (fun e e2 => e.replacement < e2.new_arg.value) := by
  induction si with
  | nil =>
    intro nv olds
    cases olds <;> simp [forwardedArguments]
  | cons s ss ih =>
    intro nv olds
    cases olds with
    | nil => simp [forwardedArguments]
    | cons o os =>
      rw [forwardedArguments]
      split
      · refine List.Pairwise.cons ?_ (ih _ _)
        intro e2 he2
        have := (forwardedArguments_bounds ss _ _ e2 he2).1
        simp only
        unfold Value at *
        omega
      · refine List.Pairwise.cons ?_ (ih _ _)
        intro e2 he2
        have := (forwardedArguments_bounds ss _ _ e2 he2).1
        simp only
        unfold Value at *
        omega

theorem forwardedArguments_entry (si : List MType) :
    ∀ (nv : Nat) (olds : List BlockArgument) (i : Nat) (e : ForwardedArgument),
      (forwardedArguments nv olds si)[i]? = some e →
      ∃ o s, olds[i]? = some o ∧ si[i]? = some s ∧ e.old_arg = o ∧ e.new_arg.type = s
        ∧ (s = o.type → e.cast = none ∧ e.replacement = e.new_arg.value)
        ∧ (s ≠ o.type →
            e.cast = some ⟨.cast, [e.new_arg.value], [⟨e.replacement, o.type⟩]⟩
            ∧ e.replacement = e.new_arg.value + 1) := by
  induction si with
  | nil =>
    intro nv olds i e he
    cases olds <;> simp [forwardedArguments] at he
  | cons s ss ih =>
    intro nv olds i e he
    cases olds with
    | nil => simp [forwardedArguments] at he
    | cons o os =>
      rw [forwardedArguments] at he
      split at he
      · rename_i hty
        cases i with
        | zero =>
          simp only [List.getElem?_cons_zero, Option.some.injEq] at he
          subst he
          exact ⟨o, s, by simp, by simp, rfl, rfl, fun h => absurd h hty, fun _ => ⟨rfl, rfl⟩⟩
        | succ i =>
          simp only [List.getElem?_cons_succ] at he ⊢
          exact ih _ _ _ _ he
      · rename_i hty
        have hs : s = o.type := by simpa using hty
        cases i with
        | zero =>
          simp only [List.getElem?_cons_zero, Option.some.injEq] at he
          subst he
          exact ⟨o, s, by simp, by simp, rfl, rfl, fun _ => ⟨rfl, rfl⟩, fun h => absurd hs h⟩
        | succ i =>
          simp only [List.getElem?_cons_succ] at he ⊢
          exact ih _ _ _ _ he

theorem forwardedArguments_maps (si : List MType) :
    ∀ (nv : Nat) (olds : List BlockArgument), olds.length = si.length →
      (forwardedArguments nv olds si).length = si.length
      ∧ (forwardedArguments nv olds si).map (fun e => e.old_arg) = olds
      ∧ (forwardedArguments nv olds si).map (fun e => e.new_arg.type) = si := by
  induction si with
  | nil =>
    intro nv olds hlen
    have : olds = [] := List.length_eq_zero.mp (by simpa using hlen)
    subst this
    simp [forwardedArguments]
  | cons s ss ih =>
    intro nv olds hlen
    cases olds with
    | nil => simp at hlen
    | cons o os =>
      simp only [List.length_cons, Nat.add_right_cancel_iff] at hlen
      rw [forwardedArguments]
      split
      · obtain ⟨h1, h2, h3⟩ := ih (nv + 2) os hlen
        simp [h1, h2, h3]
      · obtain ⟨h1, h2, h3⟩ := ih (nv + 1) os hlen
        simp [h1, h2, h3]

theorem substitute_of_first_key (pairs : List (Value × Value)) :
    ∀ (i : Nat) (k r : Value), pairs[i]? = some (k, r) →
      (∀ j p, j < i → pairs[j]? = some p → p.1 ≠ k) → substitute pairs k = r := by
  induction pairs with
  | nil => intro i k r h; simp at h
  | cons p rest ih =>
    intro i k r h hfirst
    obtain ⟨old, new⟩ := p
    cases i with
    | zero =>
      simp only [List.getElem?_cons_zero, Option.some.injEq, Prod.mk.injEq] at h
      obtain ⟨h1, h2⟩ := h
      subst h1 h2
      simp [substitute]
    | succ i =>
      have hne : k ≠ old := fun e => hfirst 0 (old, new) (Nat.succ_pos i) (by simp) e.symm
      simp only [substitute, if_neg hne]
      simp only [List.getElem?_cons_succ] at h
      exact ih i k r h (fun j q hj hq => hfirst (j + 1) q (Nat.succ_lt_succ hj) (by simpa using hq))

theorem nodup_getElem?_ne {α : Type} (l : List α) (h : l.Nodup) (i j : Nat) (a b : α)
    (hi : l[i]? = some a) (hj : l[j]? = some b) (hij : i ≠ j) : a ≠ b := by
  intro hab
  subst hab
  have hi2 := List.getElem?_eq_some.mp hi
  have hj2 := List.getElem?_eq_some.mp hj
  obtain ⟨hi3, hi4⟩ := hi2
  obtain ⟨hj3, hj4⟩ := hj2
  have := (List.Nodup.getElem_inj_iff h).mp (hi4.trans hj4.symm)
  exact hij this

theorem sunkArguments_entry (mem : Memory) (inputs : List MType) (arguments : List Argument)
    (blockArgs : List BlockArgument) (cs : List ArgumentConstraint) :
    ∀ (nv i : Nat) (s : SunkArgument),
      s ∈ sunkArguments mem inputs arguments blockArgs nv i cs →
      i ≤ s.index ∧ nv ≤ s.result
      ∧ s.result < nv + (sunkArguments mem inputs arguments blockArgs nv i cs).length
      ∧ blockArgs[s.index]? = some s.argument
      ∧ ∃ input tensor desc, inputs[s.index]? = some input ∧ dynCastTensor input = some tensor
          ∧ arguments[s.index]? = some (.memref desc)
          ∧ GetMemrefValues mem tensor desc = some s.value := by
  induction cs with
  | nil => intro nv i s hs; simp [sunkArguments] at hs
  | cons c cs ih =>
    intro nv i s hs
    rw [sunkArguments] at hs ⊢
    split at hs
    · rename_i hc
      rw [if_pos hc]
      obtain ⟨h1, h2, h3, h4, h5⟩ := ih _ _ _ hs
      exact ⟨by omega, h2, h3, h4, h5⟩
    · rename_i hc
      rw [if_neg hc]
      split at hs
      · rename_i input desc blockArg hin ha hb
        split at hs
        · rename_i value hv
          simp only [List.length_cons]
          rcases List.mem_cons.mp hs with h | h
          · subst h
            simp only
            cases ht : dynCastTensor input with
            | none => simp [ht] at hv
            | some tensor =>
              simp only [ht, Option.bind_some] at hv
              refine ⟨Nat.le_refl _, Nat.le_refl _, ?_, hb, input, tensor, desc, hin, ht, ha, hv⟩
              unfold Value at *
              omega
          · obtain ⟨h1, h2, h3, h4, h5⟩ := ih _ _ _ h
            unfold Value at *
            exact ⟨by omega, by omega, by omega, h4, h5⟩
        · simp at hs
      · simp at hs

theorem sunkArguments_substitute (mem : Memory) (inputs : List MType)
    (arguments : List Argument) (blockArgs : List BlockArgument)
    (hnodup : (blockArgs.map (fun a => a.value)).Nodup) (cs : List ArgumentConstraint) :
    ∀ (nv i : Nat) (s : SunkArgument),
      s ∈ sunkArguments mem inputs arguments blockArgs nv i cs →
      substitute (sunkUses (sunkArguments mem inputs arguments blockArgs nv i cs))
        s.argument.value = s.result := by
  induction cs with
  | nil => intro nv i s hs; simp [sunkArguments] at hs
  | cons c cs ih =>
    intro nv i s hs
    rw [sunkArguments] at hs ⊢
    split at hs
    · rename_i hc
      rw [if_pos hc]
      exact ih _ _ _ hs
    · rename_i hc
      rw [if_neg hc]
      split at hs
      · rename_i input desc blockArg hin ha hb
        split at hs
        · rename_i value hv
          rcases List.mem_cons.mp hs with h | h
          · subst h
            simp [sunkUses, substitute]
          · obtain ⟨h1, _, _, h4, _⟩ := sunkArguments_entry mem inputs arguments blockArgs cs _ _ s h
            have hne : s.argument.value ≠ blockArg.value := by
              apply nodup_getElem?_ne _ hnodup s.index i
              · simp [h4]
              · simp [hb]
              · omega
            simp only [sunkUses, List.map_cons, substitute, if_neg hne]
            exact ih _ _ _ h
        · simp at hs
      · simp at hs

theorem kValueIndices_mem (cs : List ArgumentConstraint) :
    ∀ (i k : Nat), k ∈ kValueIndices i cs ↔
      ∃ j, k = i + j ∧ cs[j]? = some ArgumentConstraint.kValue := by
  induction cs with
  | nil => intro i k; simp [kValueIndices]
  | cons c cs ih =>
    intro i k
    rw [kValueIndices]
    constructor
    · intro h
      split at h
      · rename_i hc
        rcases List.mem_cons.mp h with h | h
        · exact ⟨0, by omega, by simp [hc]⟩
        · obtain ⟨j, hj, hcj⟩ := (ih _ _).mp h
          exact ⟨j + 1, by omega, by simpa using hcj⟩
      · obtain ⟨j, hj, hcj⟩ := (ih _ _).mp h
        exact ⟨j + 1, by omega, by simpa using hcj⟩
    · rintro ⟨j, hj, hcj⟩
      cases j with
      | zero =>
        simp only [List.getElem?_cons_zero, Option.some.injEq] at hcj
        rw [if_pos hcj]
        simp [hj]
      | succ j =>
        simp only [List.getElem?_cons_succ] at hcj
        have : k ∈ kValueIndices (i + 1) cs := (ih _ _).mpr ⟨j, by omega, hcj⟩
        split
        · exact List.mem_cons_of_mem _ this
        · exact this

/-! ### The function after a successful call -/

theorem SpecializeFunction_rewritten (H : Host) (mem : Memory) (func : FuncOp)
    (arguments : List Argument) (symbolic_shapes : List SymbolicShape)
    (constraints : List ArgumentConstraint) (listener : Bool)
    (hwf : func.WellFormed)
    (hok : (SpecializeFunction H mem func arguments symbolic_shapes constraints listener).error
      = none) :
    ∃ specialized_inputs plan sunk,
      specializeInputs H arguments symbolic_shapes 0 func.inputs = .ok specialized_inputs
      ∧ plan = forwardedArguments func.nextValue func.arguments specialized_inputs
      ∧ sunk = sunkArguments mem specialized_inputs arguments (plan.map (fun e => e.new_arg))
          (func.nextValue + (plan.length + (forwardedCasts plan).length)) 0 constraints
      ∧ (SpecializeFunction H mem func arguments symbolic_shapes constraints
          listener).func.inputs = specialized_inputs
      ∧ (SpecializeFunction H mem func arguments symbolic_shapes constraints
          listener).func.arguments = plan.map (fun e => e.new_arg)
      ∧ (SpecializeFunction H mem func arguments symbolic_shapes constraints
          listener).func.body
          = sunk.map SunkArgument.constant
            ++ (forwardedCasts plan
                ++ func.body.map (renameOperands (substitute (forwardedUses plan)))).map
              (renameOperands (substitute (sunkUses sunk)))
      ∧ (SpecializeFunction H mem func arguments symbolic_shapes constraints
          listener).func.nextValue
          = func.nextValue + (plan.length + (forwardedCasts plan).length) + sunk.length
      ∧ (SpecializeFunction H mem func arguments symbolic_shapes constraints
          listener).notifications
          = (if listener then
              sunk.map SunkArgument.notification
                ++ [Notification.moduleSpecialized specialized_inputs
                    (SpecializeFunction H mem func arguments symbolic_shapes constraints
                      listener).func.getAllArgAttrs]
            else [])
      ∧ sunk.map (fun s => s.index) = kValueIndices 0 constraints := by
  obtain ⟨si, forwarded, ip, attributed, hspec, hfwd, hattr, hsink, hfunc, hnotif⟩ :=
    SpecializeFunction_ok H mem func arguments symbolic_shapes constraints listener hok
  obtain ⟨hwf1, hwf2, hwf3⟩ := hwf
  obtain ⟨hlen, _⟩ := specializeInputs_ok H arguments symbolic_shapes func.inputs 0 si hspec
  have holds : func.arguments.length = si.length := by
    rw [hlen, ← hwf1, List.length_map]
  obtain ⟨forwarded2, hrun, hargs, hbody, hnv⟩ := forwardArguments_plan si func.arguments [] [] []
    func.body { func with inputs := si } 0 0 (by simp) rfl holds (by simp) rfl
    (fun a ha => hwf2 a ha) (by simp)
  rw [hfwd] at hrun
  simp only [Except.ok.injEq, Prod.mk.injEq] at hrun
  obtain ⟨hf, _⟩ := hrun
  subst hf
  simp only [List.nil_append, List.append_nil] at hargs hbody hnv
  obtain ⟨a1, _, a3, a4, a5, _, _⟩ := addSymbolicShapes_ok symbolic_shapes _ _ _ _ hattr
  obtain ⟨f1, _, _⟩ := forwardArguments_frame si _ _ _ _ _ hfwd
  obtain ⟨plen, _, _⟩ := forwardedArguments_maps si func.nextValue func.arguments holds
  have hN : func.arguments.length = func.getNumArguments := by
    rw [FuncOp.getNumArguments, ← hwf1, List.length_map]
  have hattr_args : attributed.arguments
      = (forwardedArguments func.nextValue func.arguments si).map (fun e => e.new_arg) := by
    rw [a3]
    simp only [eraseArguments, hargs]
    exact List.drop_left' hN
  have hattr_in : attributed.inputs = si := by
    rw [a1]
    simp only [eraseArguments, f1]
  have hattr_nv : attributed.nextValue = func.nextValue
      + ((forwardedArguments func.nextValue func.arguments si).length
        + (forwardedCasts (forwardedArguments func.nextValue func.arguments si)).length) := by
    rw [a5]
    simp only [eraseArguments, hnv]
  have hattr_body : attributed.body
      = forwardedCasts (forwardedArguments func.nextValue func.arguments si)
        ++ func.body.map (renameOperands (substitute (forwardedUses
            (forwardedArguments func.nextValue func.arguments si)))) := by
    rw [a4]
    simp only [eraseArguments, hbody]
  obtain ⟨s1, s2, s3, s4⟩ := sinkConstants_plan H mem arguments listener constraints 0
    attributed 0 [] [] attributed.body hsink (by simp) rfl (by simp)
    (by
      intro a ha
      rw [hattr_args, List.mem_map] at ha
      obtain ⟨e, he, rfl⟩ := ha
      obtain ⟨_, b2, b3⟩ := forwardedArguments_bounds si _ _ e he
      rw [hattr_nv]
      exact Nat.lt_of_le_of_lt b2 b3)
  simp only [hattr_in, hattr_args, hattr_nv, hattr_body, List.nil_append] at s1 s2 s3 s4
  obtain ⟨g1, _, g3, _⟩ := sinkConstants_frame H mem arguments listener constraints 0 attributed 0 []
  refine ⟨si, _, _, hspec, rfl, rfl, ?_, ?_, ?_, ?_, ?_, s4⟩
  · rw [hfunc, g1, hattr_in]
  · rw [hfunc, g3, hattr_args]
  · rw [hfunc, s1]
  · rw [hfunc, s2]
  · rw [hnotif, s3, hfunc]
    cases listener <;> simp

theorem forwardedArguments_new_lt (si : List MType) (nv : Nat) (olds : List BlockArgument)
    (i j : Nat) (e e2 : ForwardedArgument)
    (hi : (forwardedArguments nv olds si)[i]? = some e)
    (hj : (forwardedArguments nv olds si)[j]? = some e2) (hij : i < j) :
    e.replacement < e2.new_arg.value := by
  have hp := forwardedArguments_pairwise si nv olds
  rw [List.pairwise_iff_getElem] at hp
  obtain ⟨hi1, hi2⟩ := List.getElem?_eq_some.mp hi
  obtain ⟨hj1, hj2⟩ := List.getElem?_eq_some.mp hj
  have := hp i j hi1 hj1 hij
  rw [hi2, hj2] at this
  exact this

theorem forwardedArguments_new_nodup (si : List MType) (nv : Nat) (olds : List BlockArgument) :
    (((forwardedArguments nv olds si).map (fun e => e.new_arg)).map (fun a => a.value)).Nodup := by
  rw [List.map_map, List.Nodup, List.pairwise_map]
  refine List.Pairwise.imp_of_mem ?_ (forwardedArguments_pairwise si nv olds)
  intro e e2 he _ hlt
  have := (forwardedArguments_bounds si nv olds e he).2.1
  simp only [Function.comp_apply]
  unfold Value at *
  omega

theorem forwardedUses_substitute (si : List MType) (nv : Nat) (olds : List BlockArgument)
    (hnodup : (olds.map (fun a => a.value)).Nodup) (i : Nat) (e : ForwardedArgument)
    (hi : (forwardedArguments nv olds si)[i]? = some e) :
    substitute (forwardedUses (forwardedArguments nv olds si)) e.old_arg.value
      = e.replacement := by
  apply substitute_of_first_key _ i
  · simp [forwardedUses, hi]
  · intro j p hj hp
    simp only [forwardedUses, List.getElem?_map, Option.map_eq_some'] at hp
    obtain ⟨e2, he2, rfl⟩ := hp
    obtain ⟨o, _, ho, _, hoe, _⟩ := forwardedArguments_entry si nv olds i e hi
    obtain ⟨o2, _, ho2, _, hoe2, _⟩ := forwardedArguments_entry si nv olds j e2 he2
    simp only
    rw [hoe, hoe2]
    exact nodup_getElem?_ne _ hnodup j i o2.value o.value (by simp [ho2]) (by simp [ho])
      (Nat.ne_of_lt hj)

theorem forwardedCasts_mem (plan : List ForwardedArgument) (op : Operation) :
    op ∈ forwardedCasts plan ↔
      ∃ (i : Nat) (e : ForwardedArgument), plan[i]? = some e ∧ e.cast = some op := by
  simp only [forwardedCasts, List.mem_filterMap]
  constructor
  · rintro ⟨e, he, hc⟩
    obtain ⟨i, hi⟩ := List.mem_iff_getElem?.mp he
    exact ⟨i, e, hi, hc⟩
  · rintro ⟨i, e, hi, hc⟩
    exact ⟨e, List.getElem?_mem hi, hc⟩

/-! ### The rewriting of the entry block arguments -/

/-- C19: the state after the argument rewriting step (the loop over the inputs and
the erasure of the original block arguments) of a successful `SpecializeFunction`
on a well formed function with `N` inputs. The entry block has `N` arguments and
argument `i` has the specialized type of input `i`. The body is the casts
followed by the original operations with their uses redirected. For input `i`: if
the specialized type equals the declared type, no cast uses the new argument and
the uses of the original argument `i` refer to the new argument; if it differs, a
cast from the new argument to the declared type is in the body and the uses of
the original argument refer to its result. Every cast in the body is the cast of
an input whose specialized type differs from the declared one. Uses of other
values are unchanged, and none of the original block arguments remains. -/
theorem SpecializeFunction_argument_rewriting (H : Host) (mem : Memory) (func : FuncOp)
    (arguments : List Argument) (symbolic_shapes : List SymbolicShape)
    (constraints : List ArgumentConstraint) (listener : Bool)
    (hwf : func.WellFormed)
    (hok : (SpecializeFunction H mem func arguments symbolic_shapes constraints listener).error
      = none) :
    ∃ specialized_inputs forwarded ip casts uses,
      specializeInputs H arguments symbolic_shapes 0 func.inputs = .ok specialized_inputs
      ∧ forwardArguments { func with inputs := specialized_inputs } 0 0 specialized_inputs
          = .ok (forwarded, ip)
      ∧ (eraseArguments forwarded func.getNumArguments).arguments.length = func.inputs.length
      ∧ (eraseArguments forwarded func.getNumArguments).arguments.map (fun a => a.type)
          = specialized_inputs
      ∧ (eraseArguments forwarded func.getNumArguments).body
          = casts ++ func.body.map (renameOperands (substitute uses))
      ∧ (∀ (i : Nat) (declared : MType), func.inputs[i]? = some declared →
          ∃ old new specialized,
            func.arguments[i]? = some old ∧ old.type = declared
            ∧ (eraseArguments forwarded func.getNumArguments).arguments[i]? = some new
            ∧ specialized_inputs[i]? = some specialized ∧ new.type = specialized
            ∧ (specialized = declared →
                substitute uses old.value = new.value
                ∧ ∀ op ∈ casts, new.value ∉ op.operands)
            ∧ (specialized ≠ declared →
                ∃ result, (⟨.cast, [new.value], [⟨result, declared⟩]⟩ : Operation) ∈ casts
                  ∧ substitute uses old.value = result
                  ∧ ∀ b ∈ (eraseArguments forwarded func.getNumArguments).arguments,
                      b.value ≠ result))
      ∧ (∀ op ∈ casts, ∃ (i : Nat) (new : BlockArgument) (declared specialized : MType)
            (result : Value),
          (eraseArguments forwarded func.getNumArguments).arguments[i]? = some new
          ∧ func.inputs[i]? = some declared ∧ specialized_inputs[i]? = some specialized
          ∧ specialized ≠ declared
          ∧ op = ⟨.cast, [new.value], [⟨result, declared⟩]⟩)
      ∧ (∀ v, (∀ a ∈ func.arguments, a.value ≠ v) → substitute uses v = v)
      ∧ (∀ a ∈ func.arguments,
          ∀ b ∈ (eraseArguments forwarded func.getNumArguments).arguments,
            a.value ≠ b.value) := by
  obtain ⟨si, forwarded, ip, attributed, hspec, hfwd, _, _, _, _⟩ :=
    SpecializeFunction_ok H mem func arguments symbolic_shapes constraints listener hok
  obtain ⟨hwf1, hwf2, hwf3⟩ := hwf
  obtain ⟨hlen, _⟩ := specializeInputs_ok H arguments symbolic_shapes func.inputs 0 si hspec
  have holds : func.arguments.length = si.length := by
    rw [hlen, ← hwf1, List.length_map]
  obtain ⟨forwarded2, hrun, hargs, hbody, hnv⟩ := forwardArguments_plan si func.arguments [] [] []
    func.body { func with inputs := si } 0 0 (by simp) rfl holds (by simp) rfl
    (fun a ha => hwf2 a ha) (by simp)
  rw [hfwd] at hrun
  simp only [Except.ok.injEq, Prod.mk.injEq] at hrun
  obtain ⟨hf, _⟩ := hrun
  subst hf
  simp only [List.nil_append, List.append_nil] at hargs hbody hnv
  obtain ⟨plen, pold, ptype⟩ := forwardedArguments_maps si func.nextValue func.arguments holds
  have hN : func.arguments.length = func.getNumArguments := by
    rw [FuncOp.getNumArguments, ← hwf1, List.length_map]
  have hnew : (eraseArguments forwarded func.getNumArguments).arguments
      = (forwardedArguments func.nextValue func.arguments si).map (fun e => e.new_arg) := by
    simp only [eraseArguments, hargs]
    exact List.drop_left' hN
  have hentry : ∀ (i : Nat) (declared : MType), func.inputs[i]? = some declared →
      ∃ e, (forwardedArguments func.nextValue func.arguments si)[i]? = some e := by
    intro i declared hi
    have hlt : i < func.inputs.length := (List.getElem?_eq_some.mp hi).1
    have hlt2 : i < (forwardedArguments func.nextValue func.arguments si).length := by
      rw [plen, hlen]; exact hlt
    exact ⟨_, List.getElem?_eq_getElem hlt2⟩
  refine ⟨si, forwarded, ip, forwardedCasts (forwardedArguments func.nextValue func.arguments si),
    forwardedUses (forwardedArguments func.nextValue func.arguments si), hspec, hfwd, ?_, ?_,
    ?_, ?_, ?_, ?_, ?_⟩
  · rw [hnew, List.length_map, plen, hlen]
  · rw [hnew, List.map_map]
    exact ptype
  · simp only [eraseArguments, hbody]
  · intro i declared hi
    obtain ⟨e, he⟩ := hentry i declared hi
    obtain ⟨o, s, ho, hs, hoe, hty, heq, hne⟩ :=
      forwardedArguments_entry si func.nextValue func.arguments i e he
    have hdecl : o.type = declared := by
      have : (func.arguments.map (fun a => a.type))[i]? = some declared := by rw [hwf1]; exact hi
      simp only [List.getElem?_map, ho, Option.map_some', Option.some.injEq] at this
      exact this
    have hsub := forwardedUses_substitute si func.nextValue func.arguments hwf3 i e he
    rw [hoe] at hsub
    refine ⟨o, e.new_arg, s, ho, hdecl, ?_, hs, hty, ?_, ?_⟩
    · rw [hnew, List.getElem?_map, he]
      rfl
    · intro hsd
      obtain ⟨hc, hr⟩ := heq (hsd.trans hdecl.symm)
      refine ⟨by rw [hsub, hr], ?_⟩
      intro op hop hmem
      obtain ⟨j, e2, he2, hc2⟩ := (forwardedCasts_mem _ op).mp hop
      obtain ⟨o2, s2, _, _, _, _, heq2, hne2⟩ :=
        forwardedArguments_entry si func.nextValue func.arguments j e2 he2
      by_cases hs2 : s2 = o2.type
      · rw [(heq2 hs2).1] at hc2
        simp at hc2
      · obtain ⟨hcast, _⟩ := hne2 hs2
        rw [hcast] at hc2
        simp only [Option.some.injEq] at hc2
        subst hc2
        simp only [List.mem_singleton] at hmem
        have hb := (forwardedArguments_bounds si _ _ e (List.getElem?_mem he)).2.1
        have hb2 := (forwardedArguments_bounds si _ _ e2 (List.getElem?_mem he2)).2.1
        rcases Nat.lt_trichotomy i j with hlt | heq3 | hgt
        · have := forwardedArguments_new_lt si _ _ i j e e2 he he2 hlt
          unfold Value at *
          omega
        · subst heq3
          rw [he] at he2
          simp only [Option.some.injEq] at he2
          subst he2
          rw [hc] at hcast
          simp at hcast
        · have := forwardedArguments_new_lt si _ _ j i e2 e he2 he hgt
          unfold Value at *
          omega
    · intro hsd
      have hsd2 : s ≠ o.type := fun h => hsd (h.trans hdecl)
      obtain ⟨hc, hr⟩ := hne hsd2
      refine ⟨e.replacement, ?_, hsub, ?_⟩
      · rw [← hdecl]
        exact (forwardedCasts_mem _ _).mpr ⟨i, e, he, hc⟩
      · intro b hb
        rw [hnew, List.mem_map] at hb
        obtain ⟨e2, he2, rfl⟩ := hb
        obtain ⟨j, hj⟩ := List.mem_iff_getElem?.mp he2
        have hb2 := (forwardedArguments_bounds si _ _ e2 he2).2.1
        rcases Nat.lt_trichotomy i j with hlt | heq3 | hgt
        · have := forwardedArguments_new_lt si _ _ i j e e2 he hj hlt
          unfold Value at *
          omega
        · subst heq3
          rw [he] at hj
          simp only [Option.some.injEq] at hj
          subst hj
          unfold Value at *
          omega
        · have := forwardedArguments_new_lt si _ _ j i e2 e hj he hgt
          unfold Value at *
          omega
  · intro op hop
    obtain ⟨i, e, he, hc⟩ := (forwardedCasts_mem _ op).mp hop
    obtain ⟨o, s, ho, hs, hoe, hty, heq, hne⟩ :=
      forwardedArguments_entry si func.nextValue func.arguments i e he
    have hdecl : func.inputs[i]? = some o.type := by
      rw [← hwf1, List.getElem?_map, ho]
      rfl
    by_cases hs2 : s = o.type
    · rw [(heq hs2).1] at hc
      simp at hc
    · obtain ⟨hcast, _⟩ := hne hs2
      rw [hcast] at hc
      simp only [Option.some.injEq] at hc
      refine ⟨i, e.new_arg, o.type, s, e.replacement, ?_, hdecl, hs, hs2, hc.symm⟩
      rw [hnew, List.getElem?_map, he]
      rfl
  · intro v hv
    apply substitute_of_not_key
    intro p hp
    simp only [forwardedUses, List.mem_map] at hp
    obtain ⟨e, he, rfl⟩ := hp
    exact hv _ (forwardedArguments_old_mem si _ _ e he)
  · intro a ha b hb
    rw [hnew, List.mem_map] at hb
    obtain ⟨e, he, rfl⟩ := hb
    have h1 := hwf2 a ha
    have h2 := (forwardedArguments_bounds si _ _ e he).1
    unfold Value at *
    omega

/-! ### The uses of a sunk argument -/

theorem substitute_cases (pairs : List (Value × Value)) (w : Value) :
    (substitute pairs w = w ∧ ∀ p ∈ pairs, p.1 ≠ w) ∨ ∃ p ∈ pairs, substitute pairs w = p.2 := by
  induction pairs with
  | nil => left; simp [substitute]
  | cons p rest ih =>
    obtain ⟨old, new⟩ := p
    by_cases hw : w = old
    · right
      exact ⟨(old, new), by simp, by simp [substitute, hw]⟩
    · simp only [substitute, if_neg hw]
      rcases ih with ⟨h1, h2⟩ | ⟨p, hp, h⟩
      · left
        refine ⟨h1, ?_⟩
        intro q hq
        rcases List.mem_cons.mp hq with h | h
        · subst h
          exact fun e => hw e.symm
        · exact h2 q h
      · right
        exact ⟨p, List.mem_cons_of_mem _ hp, h⟩

/-- C12 (counterexample): the input `tensor<?xi32>` is specialized to
`tensor<4xi32>` by the symbolic shape `[4]` and sunk. After the successful call
the body is the constant (result 4), the cast of the constant to `tensor<?xi32>`
(result 3) and the original operation, whose two uses of the argument now
reference the result of the cast, not the constant. -/
theorem SpecializeFunction_sunk_use_through_cast :
    (SpecializeFunction testHost exampleMemory exampleSunk [.memref exampleVector] [[4]]
        [.kValue] false).error = none
    ∧ (SpecializeFunction testHost exampleMemory exampleSunk [.memref exampleVector] [[4]]
        [.kValue] false).func.body
      = [⟨.constant ⟨.rankedTensor [4] (.integer 32),
            [⟨.integer 32, 1⟩, ⟨.integer 32, 2⟩, ⟨.integer 32, 3⟩, ⟨.integer 32, 4⟩]⟩, [],
          [⟨4, .rankedTensor [4] (.integer 32)⟩]⟩,
         ⟨.cast, [4], [⟨3, .rankedTensor [-1] (.integer 32)⟩]⟩,
         ⟨.other 7, [3, 3], [⟨1, .integer 32⟩]⟩] := by
  decide

/-- C12 (amended): after a successful `SpecializeFunction` on a well formed
function, for every argument `i` marked `kValue`: the body is the constants,
then the casts, then the original operations with their uses redirected; the
constant of the value extracted from the descriptor of argument `i` is among the
constants; a use that referenced the original argument `i` now references that
constant when the specialized type of input `i` equals the declared type, and
otherwise references the result of the cast of input `i`, whose operand is the
constant; and the entry block argument `i` has no remaining uses. -/
theorem SpecializeFunction_sunk_uses (H : Host) (mem : Memory) (func : FuncOp)
    (arguments : List Argument) (symbolic_shapes : List SymbolicShape)
    (constraints : List ArgumentConstraint) (listener : Bool)
    (hwf : func.WellFormed)
    (hok : (SpecializeFunction H mem func arguments symbolic_shapes constraints listener).error
      = none)
    (i : Nat) (hi : constraints[i]? = some ArgumentConstraint.kValue) :
    ∃ (constants casts : List Operation) (σ : Value → Value) (old new : BlockArgument)
      (declared specialized : MType) (tensor : ShapedType) (desc : MemrefDesc)
      (value : DenseElementsAttr) (result : Value),
      (SpecializeFunction H mem func arguments symbolic_shapes constraints listener).func.body
        = constants ++ casts ++ func.body.map (renameOperands σ)
      ∧ (∀ op ∈ constants, ∃ v r, op = ⟨.constant v, [], [⟨r, v.type⟩]⟩)
      ∧ (∀ op ∈ casts, op.kind = OpKind.cast)
      ∧ func.arguments[i]? = some old ∧ func.inputs[i]? = some declared
      ∧ (SpecializeFunction H mem func arguments symbolic_shapes constraints
          listener).func.arguments[i]? = some new
      ∧ (SpecializeFunction H mem func arguments symbolic_shapes constraints
          listener).func.inputs[i]? = some specialized
      ∧ dynCastTensor specialized = some tensor ∧ arguments[i]? = some (.memref desc)
      ∧ GetMemrefValues mem tensor desc = some value
      ∧ (⟨.constant value, [], [⟨result, value.type⟩]⟩ : Operation) ∈ constants
      ∧ (specialized = declared → σ old.value = result)
      ∧ (specialized ≠ declared →
          ∃ r, r ≠ result ∧ σ old.value = r
            ∧ (⟨.cast, [result], [⟨r, declared⟩]⟩ : Operation) ∈ casts)
      ∧ ∀ op ∈ (SpecializeFunction H mem func arguments symbolic_shapes constraints
          listener).func.body, new.value ∉ op.operands := by
  obtain ⟨si, plan, sunk, hspec, hplan, hsunk, hin, hargs, hbody, hnv, _, hidx⟩ :=
    SpecializeFunction_rewritten H mem func arguments symbolic_shapes constraints listener hwf hok
  obtain ⟨hwf1, hwf2, hwf3⟩ := hwf
  obtain ⟨hlen, _⟩ := specializeInputs_ok H arguments symbolic_shapes func.inputs 0 si hspec
  have holds : func.arguments.length = si.length := by
    rw [hlen, ← hwf1, List.length_map]
  -- the entry of the sunk argument
  have hmem : i ∈ kValueIndices 0 constraints :=
    (kValueIndices_mem constraints 0 i).mpr ⟨i, by omega, hi⟩
  rw [← hidx, List.mem_map] at hmem
  obtain ⟨s, hs, hsi⟩ := hmem
  have hs0 := hs
  rw [hsunk] at hs
  obtain ⟨_, hres1, hres2, hsarg, input, tensor, desc, hsin, hst, hsa, hsv⟩ :=
    sunkArguments_entry mem si arguments _ constraints _ _ s hs
  rw [hsi] at hsarg hsin hsa
  -- the entry of the plan
  rw [List.getElem?_map] at hsarg
  cases he : plan[i]? with
  | none => rw [he] at hsarg; simp at hsarg
  | some e =>
    rw [he] at hsarg
    simp only [Option.map_some', Option.some.injEq] at hsarg
    have he' := he
    rw [hplan] at he'
    obtain ⟨o, sp, ho, hsp, hoe, hty, heq, hne⟩ :=
      forwardedArguments_entry si func.nextValue func.arguments i e he'
    have hsp2 : sp = input := by
      rw [hsp] at hsin
      simpa using hsin
    subst hsp2
    have hdecl : func.inputs[i]? = some o.type := by
      rw [← hwf1, List.getElem?_map, ho]
      rfl
    have hσ := forwardedUses_substitute si func.nextValue func.arguments hwf3 i e he'
    rw [hoe, ← hplan] at hσ
    have hnodup : ((plan.map (fun e => e.new_arg)).map (fun a => a.value)).Nodup := by
      rw [hplan]
      exact forwardedArguments_new_nodup si _ _
    have hτ : substitute (sunkUses sunk) s.argument.value = s.result := by
      rw [hsunk]
      exact sunkArguments_substitute mem si arguments _ hnodup constraints _ _ s hs
    rw [← hsarg] at hτ
    -- keys of the second replacement are new arguments, results are later values
    have hkeys : ∀ p ∈ sunkUses sunk, ∃ e2 ∈ plan, p.1 = e2.new_arg.value
        ∧ func.nextValue + (plan.length + (forwardedCasts plan).length) ≤ p.2 := by
      intro p hp
      simp only [sunkUses, List.mem_map] at hp
      obtain ⟨s2, hs2, rfl⟩ := hp
      rw [hsunk] at hs2
      obtain ⟨_, h2, _, h4, _⟩ := sunkArguments_entry mem si arguments _ constraints _ _ s2 hs2
      have := List.getElem?_mem h4
      rw [List.mem_map] at this
      obtain ⟨e2, he2, he2a⟩ := this
      exact ⟨e2, he2, by rw [← he2a], h2⟩
    have hbound : ∀ e2 ∈ plan, e2.new_arg.value ≤ e2.replacement ∧
        e2.replacement < func.nextValue + (plan.length + (forwardedCasts plan).length) := by
      intro e2 he2
      rw [hplan] at he2 ⊢
      exact (forwardedArguments_bounds si _ _ e2 he2).2
    have hnot_new : ∀ w, substitute (sunkUses sunk) w ≠ e.new_arg.value := by
      intro w
      rcases substitute_cases (sunkUses sunk) w with ⟨h1, h2⟩ | ⟨p, hp, h⟩
      · rw [h1]
        intro hw
        have hkey : (e.new_arg.value, s.result) ∈ sunkUses sunk := by
          simp only [sunkUses, List.mem_map]
          exact ⟨s, hs0, by rw [hsarg]⟩
        exact h2 _ hkey hw.symm
      · rw [h]
        obtain ⟨e2, he2, _, hge⟩ := hkeys p hp
        have := hbound e (List.getElem?_mem he)
        unfold Value at *
        omega
    refine ⟨sunk.map SunkArgument.constant,
      (forwardedCasts plan).map (renameOperands (substitute (sunkUses sunk))),
      fun v => substitute (sunkUses sunk) (substitute (forwardedUses plan) v),
      o, e.new_arg, o.type, sp, tensor, desc, s.value, s.result,
      ?_, ?_, ?_, ho, hdecl, ?_, ?_, hst, hsa, hsv, ?_, ?_, ?_, ?_⟩
    · rw [hbody, List.map_append, List.map_map, List.append_assoc]
      congr 2
      apply List.map_congr_left
      intro op _
      simp only [Function.comp_apply, renameOperands_comp]
    · intro op hop
      rw [List.mem_map] at hop
      obtain ⟨s2, _, rfl⟩ := hop
      exact ⟨s2.value, s2.result, rfl⟩
    · intro op hop
      rw [List.mem_map] at hop
      obtain ⟨c, hc, rfl⟩ := hop
      obtain ⟨j, e2, he2, hc2⟩ := (forwardedCasts_mem plan c).mp hc
      rw [hplan] at he2
      obtain ⟨o2, s2, _, _, _, _, heq2, hne2⟩ :=
        forwardedArguments_entry si func.nextValue func.arguments j e2 he2
      by_cases hs2 : s2 = o2.type
      · rw [(heq2 hs2).1] at hc2
        simp at hc2
      · rw [(hne2 hs2).1] at hc2
        simp only [Option.some.injEq] at hc2
        subst hc2
        rfl
    · rw [hargs, List.getElem?_map, he]
      rfl
    · rw [hin]
      exact hsp
    · rw [List.mem_map]
      exact ⟨s, hs0, rfl⟩
    · intro hsd
      simp only
      rw [hσ, (heq hsd).2]
      exact hτ
    · intro hsd
      obtain ⟨hcast, hrepl⟩ := hne hsd
      have hnotkey : ∀ p ∈ sunkUses sunk, p.1 ≠ e.replacement := by
        intro p hp
        obtain ⟨e2, he2, hp1, _⟩ := hkeys p hp
        rw [hp1]
        obtain ⟨j, hj⟩ := List.mem_iff_getElem?.mp he2
        rw [hplan] at hj
        have hb2 := (forwardedArguments_bounds si _ _ e2 (List.getElem?_mem hj)).2.1
        rcases Nat.lt_trichotomy i j with hlt | heq3 | hgt
        · have := forwardedArguments_new_lt si _ _ i j e e2 he' hj hlt
          unfold Value at *
          omega
        · subst heq3
          rw [he'] at hj
          simp only [Option.some.injEq] at hj
          subst hj
          unfold Value at *
          omega
        · have := forwardedArguments_new_lt si _ _ j i e2 e hj he' hgt
          unfold Value at *
          omega
      refine ⟨e.replacement, ?_, ?_, ?_⟩
      · have := hbound e (List.getElem?_mem he)
        unfold Value at *
        omega
      · simp only
        rw [hσ]
        exact substitute_of_not_key _ _ hnotkey
      · rw [List.mem_map]
        refine ⟨⟨.cast, [e.new_arg.value], [⟨e.replacement, o.type⟩]⟩, ?_, ?_⟩
        · exact (forwardedCasts_mem plan _).mpr ⟨i, e, he, hcast⟩
        · simp [renameOperands, hτ]
    · intro op hop hmem
      rw [hbody] at hop
      rcases List.mem_append.mp hop with h | h
      · rw [List.mem_map] at h
        obtain ⟨s2, _, rfl⟩ := h
        simp [SunkArgument.constant] at hmem
      · rw [List.mem_map] at h
        obtain ⟨op2, _, rfl⟩ := h
        simp only [renameOperands, List.mem_map] at hmem
        obtain ⟨w, _, hw⟩ := hmem
        exact hnot_new w hw

/-- A concrete instance: the example of the sunk input `tensor<?xi32>` is well
formed, the call succeeds, and the new entry block argument has no use left in
the body. -/
theorem SpecializeFunction_sunk_uses_witness :
    exampleSunk.WellFormed
    ∧ (SpecializeFunction testHost exampleMemory exampleSunk [.memref exampleVector] [[4]]
        [.kValue] false).error = none
    ∧ ∃ new, (SpecializeFunction testHost exampleMemory exampleSunk [.memref exampleVector]
          [[4]] [.kValue] false).func.arguments[0]? = some new
        ∧ ∀ op ∈ (SpecializeFunction testHost exampleMemory exampleSunk [.memref exampleVector]
            [[4]] [.kValue] false).func.body, new.value ∉ op.operands := by
  refine ⟨by decide, by decide, ?_⟩
  obtain ⟨_, _, _, _, new, _, _, _, _, _, _, _, _, _, _, _, hnew, _, _, _, _, _, _, _, huses⟩ :=
    SpecializeFunction_sunk_uses testHost exampleMemory exampleSunk [.memref exampleVector]
      [[4]] [.kValue] false (by decide) (by decide) 0 (by decide)
  exact ⟨new, hnew, huses⟩

/-- A concrete instance: the example with the inputs `tensor<?x?xi32>` and
`tensor<4xi32>` is well formed, the call succeeds, and after the argument
rewriting step the entry block has two arguments, of the specialized types. -/
theorem SpecializeFunction_argument_rewriting_witness :
    exampleBinary.WellFormed
    ∧ (SpecializeFunction testHost exampleMemory exampleBinary
        [.memref exampleMatrix, .memref exampleVector] [[-2, 4], [4]] [.kShape, .kValue]
        true).error = none
    ∧ ∃ specialized_inputs forwarded ip,
      specializeInputs testHost [.memref exampleMatrix, .memref exampleVector] [[-2, 4], [4]] 0
          exampleBinary.inputs = .ok specialized_inputs
      ∧ forwardArguments { exampleBinary with inputs := specialized_inputs } 0 0
          specialized_inputs = .ok (forwarded, ip)
      ∧ (eraseArguments forwarded exampleBinary.getNumArguments).arguments.length
          = exampleBinary.inputs.length
      ∧ (eraseArguments forwarded exampleBinary.getNumArguments).arguments.map
          (fun a => a.type) = specialized_inputs := by
  refine ⟨by decide, by decide, ?_⟩
  obtain ⟨si, forwarded, ip, _, _, h1, h2, h3, h4, _⟩ :=
    SpecializeFunction_argument_rewriting testHost exampleMemory exampleBinary
      [.memref exampleMatrix, .memref exampleVector] [[-2, 4], [4]] [.kShape, .kValue] true
      (by decide) (by decide)
  exact ⟨si, forwarded, ip, h1, h2, h3, h4⟩

/-! ### The notifications of the listener -/

theorem sinkArgument_log (H : Host) (mem : Memory) (arguments : List Argument)
    (listener : Bool) (i : Nat) (func : FuncOp) (ip : Nat) (log : List Notification) :
    ∀ n ∈ (sinkArgument H mem arguments listener i func ip log).notifications,
      n ∈ log ∨ ∃ index type value, n = Notification.valueSpecialized index type value := by
  intro n hn
  cases he : (sinkArgument H mem arguments listener i func ip log).error with
  | none =>
    obtain ⟨_, _, _, value, _, _, _, _, _, _, _, hrun⟩ :=
      sinkArgument_ok_inv H mem arguments listener i func ip log he
    rw [hrun] at hn
    simp only at hn
    cases listener with
    | false => left; simpa using hn
    | true =>
      simp only [if_true, List.mem_append, List.mem_singleton] at hn
      rcases hn with h | h
      · left; exact h
      · right; exact ⟨_, _, _, h⟩
  | some err =>
    left
    unfold sinkArgument at hn he
    revert hn he
    repeat' split
    all_goals simp_all

theorem sinkConstants_log (H : Host) (mem : Memory) (arguments : List Argument)
    (listener : Bool) (cs : List ArgumentConstraint) :
    ∀ (i : Nat) (func : FuncOp) (ip : Nat) (log : List Notification),
      ∀ n ∈ (sinkConstants H mem arguments listener i cs func ip log).notifications,
        n ∈ log ∨ ∃ index type value, n = Notification.valueSpecialized index type value := by
  induction cs with
  | nil =>
    intro i func ip log n hn
    left
    simpa [sinkConstants] using hn
  | cons c cs ih =>
    intro i func ip log n hn
    rw [sinkConstants] at hn
    split at hn
    · exact ih _ _ _ _ n hn
    · simp only at hn
      split at hn
      · exact sinkArgument_log H mem arguments listener i func ip log n hn
      · rcases ih _ _ _ _ n hn with h | h
        · exact sinkArgument_log H mem arguments listener i func ip log n h
        · right; exact h

theorem sinkConstants_notifications (H : Host) (mem : Memory) (arguments : List Argument)
    (listener : Bool) (cs : List ArgumentConstraint) :
    ∀ (i : Nat) (func : FuncOp) (ip : Nat) (log : List Notification),
      (sinkConstants H mem arguments listener i cs func ip log).error = none →
      (sinkConstants H mem arguments listener i cs func ip log).notifications
          = log ++ (if listener then
              (sunkArguments mem func.inputs arguments func.arguments func.nextValue i cs).map
                SunkArgument.notification
            else [])
      ∧ (sunkArguments mem func.inputs arguments func.arguments func.nextValue i cs).map
            (fun s => s.index) = kValueIndices i cs := by
  induction cs with
  | nil =>
    intro i func ip log _
    simp [sinkConstants, sunkArguments, kValueIndices]
  | cons c cs ih =>
    intro i func ip log hok
    by_cases hc : c = ArgumentConstraint.kValue
    · subst hc
      have hstep : (sinkArgument H mem arguments listener i func ip log).error = none := by
        rw [sinkConstants] at hok
        simp only [ne_eq, not_true_eq_false, if_false] at hok
        cases he : (sinkArgument H mem arguments listener i func ip log).error with
        | none => rfl
        | some err => simp [he] at hok
      obtain ⟨input, tensor, desc, value, blockArg, hin, ht, _, ha, hv, hb, hrun⟩ :=
        sinkArgument_ok_inv H mem arguments listener i func ip log hstep
      have hrec : sinkConstants H mem arguments listener i (ArgumentConstraint.kValue :: cs)
          func ip log
          = sinkConstants H mem arguments listener (i + 1) cs
              { func with
                body := replaceAllUsesWith blockArg.value func.nextValue
                  (insertOp func.body ip ⟨.constant value, [], [⟨func.nextValue, value.type⟩]⟩),
                nextValue := func.nextValue + 1 }
              (ip + 1)
              (if listener then log ++ [Notification.valueSpecialized i value.type value]
               else log) := by
        rw [sinkConstants]
        simp [hrun]
      rw [hrec] at hok ⊢
      obtain ⟨ih1, ih2⟩ := ih (i + 1) _ (ip + 1) _ hok
      simp only at ih1 ih2
      have hplan : sunkArguments mem func.inputs arguments func.arguments func.nextValue i
            (ArgumentConstraint.kValue :: cs)
          = ⟨i, blockArg, value, func.nextValue⟩
            :: sunkArguments mem func.inputs arguments func.arguments (func.nextValue + 1)
                (i + 1) cs := by
        rw [sunkArguments]
        simp [hin, ha, hb, ht, hv]
      rw [hplan]
      refine ⟨?_, ?_⟩
      · rw [ih1]
        cases listener <;> simp [SunkArgument.notification]
      · rw [List.map_cons, ih2]
        simp [kValueIndices]
    · have hrec : sinkConstants H mem arguments listener i (c :: cs) func ip log
          = sinkConstants H mem arguments listener (i + 1) cs func ip log := by
        rw [sinkConstants]
        simp [hc]
      have hplan : sunkArguments mem func.inputs arguments func.arguments func.nextValue i
            (c :: cs)
          = sunkArguments mem func.inputs arguments func.arguments func.nextValue (i + 1) cs := by
        rw [sunkArguments]
        simp [hc]
      rw [hrec] at hok ⊢
      rw [hplan]
      obtain ⟨ih1, ih2⟩ := ih (i + 1) func ip log hok
      refine ⟨ih1, ?_⟩
      rw [ih2]
      simp [kValueIndices, hc]

theorem kValueIndices_increasing (cs : List ArgumentConstraint) :
    ∀ (i : Nat), (kValueIndices i cs).Pairwise (fun a b => a < b) := by
  induction cs with
  | nil => intro i; simp [kValueIndices]
  | cons c cs ih =>
    intro i
    rw [kValueIndices]
    split
    · refine List.Pairwise.cons ?_ (ih _)
      intro b hb
      obtain ⟨j, hj, _⟩ := (kValueIndices_mem cs (i + 1) b).mp hb
      omega
    · exact ih _

/-- C17: with a listener, after a successful `SpecializeFunction` the notifications
are one `notifyValueSpecialized` per argument marked `kValue`, in increasing
index order, each with the index of the argument and the value extracted from its
descriptor for its specialized input type, followed by one
`notifyModuleSpecialized` with the specialized input types in index order and the
argument attributes of the function as the call leaves them. When the call
fails, no `notifyModuleSpecialized` is sent. -/
theorem SpecializeFunction_notifications (H : Host) (mem : Memory) (func : FuncOp)
    (arguments : List Argument) (symbolic_shapes : List SymbolicShape)
    (constraints : List ArgumentConstraint) :
    ((SpecializeFunction H mem func arguments symbolic_shapes constraints true).error = none →
      ∃ sunk : List SunkArgument,
        (SpecializeFunction H mem func arguments symbolic_shapes constraints true).notifications
          = sunk.map (fun s => Notification.valueSpecialized s.index s.value.type s.value)
            ++ [Notification.moduleSpecialized
                (SpecializeFunction H mem func arguments symbolic_shapes constraints
                  true).func.inputs
                (SpecializeFunction H mem func arguments symbolic_shapes constraints
                  true).func.getAllArgAttrs]
        ∧ sunk.map (fun s => s.index) = kValueIndices 0 constraints
        ∧ (kValueIndices 0 constraints).Pairwise (fun a b => a < b)
        ∧ (∀ k, k ∈ kValueIndices 0 constraints ↔
            constraints[k]? = some ArgumentConstraint.kValue)
        ∧ ∀ s ∈ sunk, ∃ input tensor desc,
            (SpecializeFunction H mem func arguments symbolic_shapes constraints
              true).func.inputs[s.index]? = some input
            ∧ dynCastTensor input = some tensor
            ∧ arguments[s.index]? = some (.memref desc)
            ∧ GetMemrefValues mem tensor desc = some s.value)
    ∧ (∀ listener,
        (SpecializeFunction H mem func arguments symbolic_shapes constraints listener).error
          ≠ none →
        ∀ n ∈ (SpecializeFunction H mem func arguments symbolic_shapes constraints
            listener).notifications,
          ∀ inputs attrs, n ≠ Notification.moduleSpecialized inputs attrs) := by
  constructor
  · intro hok
    obtain ⟨si, forwarded, ip, attributed, hspec, hfwd, hattr, hsink, hfunc, hnotif⟩ :=
      SpecializeFunction_ok H mem func arguments symbolic_shapes constraints true hok
    obtain ⟨h1, h2⟩ := sinkConstants_notifications H mem arguments true constraints 0
      attributed 0 [] hsink
    obtain ⟨g1, _, _, _⟩ := sinkConstants_frame H mem arguments true constraints 0 attributed 0 []
    obtain ⟨hin, _⟩ :=
      SpecializeFunction_ok_inputs H mem func arguments symbolic_shapes constraints true hok
    have hsi : (SpecializeFunction H mem func arguments symbolic_shapes constraints
        true).func.inputs = si := by
      rw [hspec] at hin
      simp only [Except.ok.injEq] at hin
      exact hin.symm
    have hai : attributed.inputs = si := by rw [← g1, ← hfunc, hsi]
    refine ⟨sunkArguments mem attributed.inputs arguments attributed.arguments
      attributed.nextValue 0 constraints, ?_, h2, kValueIndices_increasing constraints 0, ?_, ?_⟩
    · rw [hnotif, h1, hsi, hfunc]
      simp only [if_true, List.nil_append]
      rfl
    · intro k
      rw [kValueIndices_mem]
      constructor
      · rintro ⟨j, hj, hc⟩
        have : k = j := by omega
        subst this
        exact hc
      · intro hc
        exact ⟨k, by omega, hc⟩
    · intro s hs
      obtain ⟨_, _, _, _, input, tensor, desc, h5, h6, h7, h8⟩ :=
        sunkArguments_entry mem _ arguments _ constraints _ _ s hs
      rw [hai] at h5
      exact ⟨input, tensor, desc, by rw [hsi]; exact h5, h6, h7, h8⟩
  · intro listener herr n hn inputs attrs hmod
    subst hmod
    revert herr hn
    unfold SpecializeFunction
    simp only
    split
    · intro _ hn; simp at hn
    · split
      · intro _ hn; simp at hn
      · split
        · intro _ hn; simp at hn
        · rename_i attributed _
          split
          · intro _ hn
            simp only at hn
            rcases sinkConstants_log H mem arguments listener constraints 0 attributed 0 [] _ hn
              with h | ⟨_, _, _, h⟩
            · simp at h
            · simp at h
          · rename_i hnone
            intro herr
            exfalso
            apply herr
            cases listener <;> rfl

/-- A concrete instance: on the example with the inputs `tensor<?x?xi32>` and
`tensor<4xi32>`, the second one marked `kValue`, the call succeeds and the
listener receives the value of argument 1 and then the specialized module; with
two rank 1 descriptors the call fails and the listener receives no module
notification. -/
theorem SpecializeFunction_notifications_witness :
    ((SpecializeFunction testHost exampleMemory exampleBinary
        [.memref exampleMatrix, .memref exampleVector] [[-2, 4], [4]] [.kShape, .kValue]
        true).error = none
      ∧ ∃ sunk : List SunkArgument,
        (SpecializeFunction testHost exampleMemory exampleBinary
            [.memref exampleMatrix, .memref exampleVector] [[-2, 4], [4]] [.kShape, .kValue]
            true).notifications
          = sunk.map (fun s => Notification.valueSpecialized s.index s.value.type s.value)
            ++ [Notification.moduleSpecialized
                (SpecializeFunction testHost exampleMemory exampleBinary
                  [.memref exampleMatrix, .memref exampleVector] [[-2, 4], [4]]
                  [.kShape, .kValue] true).func.inputs
                (SpecializeFunction testHost exampleMemory exampleBinary
                  [.memref exampleMatrix, .memref exampleVector] [[-2, 4], [4]]
                  [.kShape, .kValue] true).func.getAllArgAttrs]
        ∧ sunk.map (fun s => s.index) = [1])
    ∧ ((SpecializeFunction testHost exampleMemory exampleBinary
        [.memref exampleVector, .memref exampleVector] [[-2, 4], [4]] [.kShape, .kValue]
        true).error ≠ none
      ∧ ∀ n ∈ (SpecializeFunction testHost exampleMemory exampleBinary
            [.memref exampleVector, .memref exampleVector] [[-2, 4], [4]] [.kShape, .kValue]
            true).notifications,
          ∀ inputs attrs, n ≠ Notification.moduleSpecialized inputs attrs) := by
  refine ⟨⟨by decide, ?_⟩, ⟨by decide, ?_⟩⟩
  · obtain ⟨sunk, h1, h2, _⟩ :=
      (SpecializeFunction_notifications testHost exampleMemory exampleBinary
        [.memref exampleMatrix, .memref exampleVector] [[-2, 4], [4]] [.kShape, .kValue]).1
        (by decide)
    exact ⟨sunk, h1, h2⟩
  · exact (SpecializeFunction_notifications testHost exampleMemory exampleBinary
      [.memref exampleVector, .memref exampleVector] [[-2, 4], [4]] [.kShape, .kValue]).2
      true (by decide)

/-! ### A failure of the sinking step -/

theorem sinkConstants_stop (H : Host) (mem : Memory) (arguments : List Argument)
    (listener : Bool) (inputs0 : List MType) (cs : List ArgumentConstraint) :
    ∀ (k i : Nat) (func : FuncOp) (ip : Nat) (log : List Notification) (input : MType)
      (a : Argument) (e : Error),
      func.inputs = inputs0 → i + k ≤ func.arguments.length →
      cs[k]? = some ArgumentConstraint.kValue →
      inputs0[i + k]? = some input → arguments[i + k]? = some a →
      (∀ (j : Nat) (inputj : MType) (aj : Argument), j < k →
        cs[j]? = some ArgumentConstraint.kValue →
        inputs0[i + j]? = some inputj → arguments[i + j]? = some aj →
        sinkDecision H inputj aj = none) →
      sinkDecision H input a = some e →
      sinkConstants H mem arguments listener i cs func ip log
          = ⟨some e, (sinkConstants H mem arguments listener i (cs.take k) func ip log).func,
              (sinkConstants H mem arguments listener i (cs.take k) func ip log).notifications⟩
      ∧ (sinkConstants H mem arguments listener i (cs.take k) func ip log).error = none := by
  induction cs with
  | nil =>
    intro k i func ip log input a e _ _ hk
    simp at hk
  | cons c cs ih =>
    intro k i func ip log input a e hf hlen hk hin ha hprev hdec
    have shift : ∀ j, i + (j + 1) = i + 1 + j := by intro j; omega
    cases k with
    | zero =>
      simp only [List.getElem?_cons_zero, Option.some.injEq] at hk
      subst hk
      simp only [Nat.add_zero] at hin ha
      have hfail := sinkArgument_fail H mem arguments listener i func ip log input a e
        (by rw [hf]; exact hin) ha hdec
      simp only [List.take_zero]
      refine ⟨?_, by simp [sinkConstants]⟩
      rw [sinkConstants]
      simp [hfail, sinkConstants]
    | succ k =>
      simp only [List.getElem?_cons_succ] at hk
      rw [shift] at hin ha
      have hprev2 : ∀ (j : Nat) (inputj : MType) (aj : Argument), j < k →
          cs[j]? = some ArgumentConstraint.kValue →
          inputs0[i + 1 + j]? = some inputj → arguments[i + 1 + j]? = some aj →
          sinkDecision H inputj aj = none := by
        intro j inputj aj hj hcj hij haj
        exact hprev (j + 1) inputj aj (by omega) (by simpa using hcj)
          (by rw [shift]; exact hij) (by rw [shift]; exact haj)
      simp only [List.take_succ_cons]
      by_cases hc : c = ArgumentConstraint.kValue
      · subst hc
        have l1 : i < inputs0.length := by
          have := (List.getElem?_eq_some_iff.mp hin).1
          omega
        have l2 : i < arguments.length := by
          have := (List.getElem?_eq_some_iff.mp ha).1
          omega
        have l3 : i < func.arguments.length := by omega
        obtain ⟨input0, hin0⟩ : ∃ x, inputs0[i]? = some x := ⟨inputs0[i], by simp [l1]⟩
        obtain ⟨a0, ha0⟩ : ∃ x, arguments[i]? = some x := ⟨arguments[i], by simp [l2]⟩
        obtain ⟨b0, hb0⟩ : ∃ x, func.arguments[i]? = some x :=
          ⟨func.arguments[i], by simp [l3]⟩
        have hd0 : sinkDecision H input0 a0 = none :=
          hprev 0 input0 a0 (by omega) (by simp) (by simpa using hin0) (by simpa using ha0)
        obtain ⟨desc, tensor, value, _, _, _, hsunk⟩ :=
          sinkArgument_sunk H mem arguments listener i func ip log input0 a0 b0
            (by rw [hf]; exact hin0) ha0 hb0 hd0
        have hstep : ∀ cs2 : List ArgumentConstraint,
            sinkConstants H mem arguments listener i (ArgumentConstraint.kValue :: cs2)
              func ip log
            = sinkConstants H mem arguments listener (i + 1) cs2
                { func with
                  body := replaceAllUsesWith b0.value func.nextValue
                    (insertOp func.body ip
                      ⟨.constant value, [], [⟨func.nextValue, value.type⟩]⟩),
                  nextValue := func.nextValue + 1 }
                (ip + 1)
                (if listener then log ++ [Notification.valueSpecialized i value.type value]
                 else log) := by
          intro cs2
          rw [sinkConstants]
          simp [hsunk]
        rw [hstep cs, hstep (cs.take k)]
        exact ih k (i + 1) _ (ip + 1) _ input a e hf (by simp only; omega) hk hin ha hprev2 hdec
      · have hstep : ∀ cs2 : List ArgumentConstraint,
            sinkConstants H mem arguments listener i (c :: cs2) func ip log
            = sinkConstants H mem arguments listener (i + 1) cs2 func ip log := by
          intro cs2
          rw [sinkConstants]
          simp [hc]
        rw [hstep cs, hstep (cs.take k)]
        exact ih k (i + 1) func ip log input a e hf (by omega) hk hin ha hprev2 hdec

/-- C13 (counterexample): the function has one input declared `tensor<?x?xf32>`,
used by one operation, the argument is a 2x4 `F32` descriptor with the symbolic
shape `[2, 4]` and the constraint `kValue`. The call fails with "non-sinkable
operand was marked for sinking", but the entry block argument, its type and the
use of it in the body are not those before the call: the argument is a new one
of the specialized type `tensor<2x4xf32>`, a cast to the declared type was
inserted, and the use refers to the result of the cast. -/
theorem SpecializeFunction_non_sinkable_mutates :
    (SpecializeFunction testHost exampleMemory exampleFloatUnary [.memref exampleFloatMatrix]
        [[2, 4]] [.kValue] false).error
      = some (Error.nonSinkableOperand (.rankedTensor [2, 4] (.other 0)))
    ∧ exampleFloatUnary.arguments = [⟨0, .rankedTensor [-1, -1] (.other 0)⟩]
    ∧ exampleFloatUnary.body = [⟨.other 7, [0], [⟨1, .other 0⟩]⟩]
    ∧ (SpecializeFunction testHost exampleMemory exampleFloatUnary [.memref exampleFloatMatrix]
        [[2, 4]] [.kValue] false).func.arguments = [⟨2, .rankedTensor [2, 4] (.other 0)⟩]
    ∧ (SpecializeFunction testHost exampleMemory exampleFloatUnary [.memref exampleFloatMatrix]
        [[2, 4]] [.kValue] false).func.body
      = [⟨.cast, [2], [⟨3, .rankedTensor [-1, -1] (.other 0)⟩]⟩,
         ⟨.other 7, [3], [⟨1, .other 0⟩]⟩] := by
  decide

/-- C13 (amended): let step 1 of `SpecializeFunction` succeed with the specialized
inputs `specialized_inputs`, let argument `k` be marked `kValue`, let its
specialized input type not support value specialization (as a rank 2 float
tensor), and let every argument marked `kValue` before `k` be sinkable. Then the
call fails with "non-sinkable operand was marked for sinking" for that type, and
the sinking step changes nothing for argument `k`: the function is left as the
call leaves it when the constraints stop before `k`, a call that succeeds. So
the entry block argument `k`, its type and its uses are those that the argument
rewriting step and the sinking of the arguments before `k` produce, not those
before the call. -/
theorem SpecializeFunction_non_sinkable (H : Host) (mem : Memory) (func : FuncOp)
    (arguments : List Argument) (symbolic_shapes : List SymbolicShape)
    (constraints : List ArgumentConstraint) (listener : Bool) (specialized_inputs : List MType)
    (k : Nat) (input : MType) (argument : Argument)
    (hspec : specializeInputs H arguments symbolic_shapes 0 func.inputs
      = .ok specialized_inputs)
    (hblock : k ≤ func.arguments.length)
    (hk : constraints[k]? = some ArgumentConstraint.kValue)
    (hinput : specialized_inputs[k]? = some input)
    (hargument : arguments[k]? = some argument)
    (hsupport : H.SupportsValueSpecialization input = false)
    (hprev : ∀ (j : Nat) (inputj : MType) (argj : Argument), j < k →
      constraints[j]? = some ArgumentConstraint.kValue →
      specialized_inputs[j]? = some inputj → arguments[j]? = some argj →
      sinkDecision H inputj argj = none) :
    (SpecializeFunction H mem func arguments symbolic_shapes constraints listener).error
      = some (Error.nonSinkableOperand input)
    ∧ (SpecializeFunction H mem func arguments symbolic_shapes constraints listener).func
      = (SpecializeFunction H mem func arguments symbolic_shapes (constraints.take k)
          listener).func
    ∧ (SpecializeFunction H mem func arguments symbolic_shapes (constraints.take k)
          listener).error = none := by
  have hdec : sinkDecision H input argument = some (Error.nonSinkableOperand input) := by
    unfold sinkDecision
    simp [hsupport]
  obtain ⟨forwarded, ip0, attributed, hfwd, hattr, hin, hblk, herr, hfunc⟩ :=
    SpecializeFunction_step1_ok H mem func arguments symbolic_shapes constraints listener
      specialized_inputs hspec
  obtain ⟨forwarded2, ip2, attributed2, hfwd2, hattr2, _, _, herr2, hfunc2⟩ :=
    SpecializeFunction_step1_ok H mem func arguments symbolic_shapes (constraints.take k)
      listener specialized_inputs hspec
  rw [hfwd] at hfwd2
  simp only [Except.ok.injEq, Prod.mk.injEq] at hfwd2
  obtain ⟨hf2, _⟩ := hfwd2
  subst hf2
  rw [hattr] at hattr2
  simp only [Except.ok.injEq] at hattr2
  subst hattr2
  obtain ⟨hrun, hnone⟩ := sinkConstants_stop H mem arguments listener specialized_inputs
    constraints k 0 attributed 0 [] input argument (Error.nonSinkableOperand input) hin
    (by omega) hk (by simpa using hinput) (by simpa using hargument)
    (by
      intro j inputj aj hj hcj hij haj
      exact hprev j inputj aj hj hcj (by simpa using hij) (by simpa using haj))
    hdec
  refine ⟨?_, ?_, ?_⟩
  · rw [herr, hrun]
  · rw [hfunc, hfunc2, hrun]
  · rw [herr2]
    exact hnone

/-- A concrete instance: on the example with one input `tensor<?x?xf32>` marked
`kValue` and a 2x4 `F32` descriptor, step 1 gives `tensor<2x4xf32>`, which does
not support value specialization, and the call fails for that type. -/
theorem SpecializeFunction_non_sinkable_witness :
    specializeInputs testHost [.memref exampleFloatMatrix] [[2, 4]] 0 exampleFloatUnary.inputs
      = .ok [.rankedTensor [2, 4] (.other 0)]
    ∧ testHost.SupportsValueSpecialization (.rankedTensor [2, 4] (.other 0)) = false
    ∧ (SpecializeFunction testHost exampleMemory exampleFloatUnary [.memref exampleFloatMatrix]
        [[2, 4]] [.kValue] true).error
      = some (Error.nonSinkableOperand (.rankedTensor [2, 4] (.other 0)))
    ∧ (SpecializeFunction testHost exampleMemory exampleFloatUnary [.memref exampleFloatMatrix]
        [[2, 4]] [.kValue] true).func
      = (SpecializeFunction testHost exampleMemory exampleFloatUnary
          [.memref exampleFloatMatrix] [[2, 4]] ([ArgumentConstraint.kValue].take 0) true).func :=
  have h := SpecializeFunction_non_sinkable testHost exampleMemory exampleFloatUnary
    [.memref exampleFloatMatrix] [[2, 4]] [.kValue] true [.rankedTensor [2, 4] (.other 0)] 0
    (.rankedTensor [2, 4] (.other 0)) (.memref exampleFloatMatrix) rfl (by decide) rfl rfl rfl rfl
    (fun j _ _ hj => absurd hj (Nat.not_lt_zero j))
  ⟨rfl, rfl, h.1, h.2.1⟩

/-! ### The scenario of the specification -/

theorem scenario_specializeInputs (sym0 : Int) (hsym : sym0 < 0) :
    specializeInputs testHost [.memref exampleMatrix, .memref exampleVector] [[sym0, 4], [4]] 0
        exampleBinary.inputs
      = .ok [.rankedTensor [-1, 4] (.integer 32), .rankedTensor [4] (.integer 32)] := by
  have h0 : SpecializeOperandType testHost 0 (.rankedTensor [-1, -1] (.integer 32))
      (.memref exampleMatrix) [sym0, 4] = .ok (.rankedTensor [-1, 4] (.integer 32)) := by
    have hv : VerifyMemrefOperand testHost 0 ⟨some [-1, -1], .integer 32⟩ exampleMatrix
        = none := by decide
    simp only [SpecializeOperandType, hv, Normalize, List.map_cons, List.map_nil, hsym,
      if_true, kDynamicSize]
    rfl
  have h1 : SpecializeOperandType testHost 1 (.rankedTensor [4] (.integer 32))
      (.memref exampleVector) [4] = .ok (.rankedTensor [4] (.integer 32)) := rfl
  simp only [exampleBinary, specializeInputs, List.getElem?_cons_zero, List.getElem?_cons_succ,
    h0, h1]

theorem scenario_addSymbolicShapes (sym0 : Int) (hsym : sym0 < 0) (func : FuncOp)
    (hattrs : func.argAttrs = []) :
    addSymbolicShapes [[sym0, 4], [4]] 0 2 func
      = .ok { func with argAttrs := [[(kSymbolicShapeAttr,
          .dense ⟨.rankedTensor [2] (.integer 64), [⟨.integer 64, sym0⟩, ⟨.integer 64, 4⟩]⟩)]] } := by
  have hneg : ¬ (0 ≤ sym0) := by omega
  simp [addSymbolicShapes, hneg, FuncOp.setArgAttr, FuncOp.getArgAttrDict, hattrs, setArgDict,
    ArgDict.set, symbolicShapeAttr]

/-- C15: the scenario. The function has the signature
`(tensor<?x?xi32>, tensor<4xi32>)` and one operation that uses both arguments;
the symbolic shapes are `[[sym0, 4], [4]]` with `sym0` negative, the constraints
`[kShape, kValue]`, argument 0 is a 2x4 `I32` descriptor and argument 1 a
descriptor of the four `I32` elements 1, 2, 3, 4. `SpecializeFunction` succeeds;
the signature is `(tensor<?x4xi32>, tensor<4xi32>)`; argument 0 carries the
symbolic shape attribute `[sym0, 4]` and argument 1 carries no attribute; the
body is the constant `[1, 2, 3, 4]` of type `tensor<4xi32>`, the cast of the new
argument 0 to `tensor<?x?xi32>`, and the operation, whose use of argument 1 is a
use of the constant; the listener receives the value of argument 1 and then
the specialized module, and nothing else. -/
theorem SpecializeFunction_scenario (sym0 : Int) (hsym : sym0 < 0) :
    (SpecializeFunction testHost exampleMemory exampleBinary
        [.memref exampleMatrix, .memref exampleVector] [[sym0, 4], [4]] [.kShape, .kValue]
        true).error = none
    ∧ (SpecializeFunction testHost exampleMemory exampleBinary
        [.memref exampleMatrix, .memref exampleVector] [[sym0, 4], [4]] [.kShape, .kValue]
        true).func.inputs
      = [.rankedTensor [-1, 4] (.integer 32), .rankedTensor [4] (.integer 32)]
    ∧ (SpecializeFunction testHost exampleMemory exampleBinary
        [.memref exampleMatrix, .memref exampleVector] [[sym0, 4], [4]] [.kShape, .kValue]
        true).func.arguments
      = [⟨3, .rankedTensor [-1, 4] (.integer 32)⟩, ⟨5, .rankedTensor [4] (.integer 32)⟩]
    ∧ (SpecializeFunction testHost exampleMemory exampleBinary
        [.memref exampleMatrix, .memref exampleVector] [[sym0, 4], [4]] [.kShape, .kValue]
        true).func.getAllArgAttrs
      = [[(kSymbolicShapeAttr,
            .dense ⟨.rankedTensor [2] (.integer 64), [⟨.integer 64, sym0⟩, ⟨.integer 64, 4⟩]⟩)],
         []]
    ∧ (SpecializeFunction testHost exampleMemory exampleBinary
        [.memref exampleMatrix, .memref exampleVector] [[sym0, 4], [4]] [.kShape, .kValue]
        true).func.body
      = [⟨.constant ⟨.rankedTensor [4] (.integer 32),
            [⟨.integer 32, 1⟩, ⟨.integer 32, 2⟩, ⟨.integer 32, 3⟩, ⟨.integer 32, 4⟩]⟩, [],
          [⟨6, .rankedTensor [4] (.integer 32)⟩]⟩,
         ⟨.cast, [3], [⟨4, .rankedTensor [-1, -1] (.integer 32)⟩]⟩,
         ⟨.other 7, [4, 6], [⟨2, .integer 32⟩]⟩]
    ∧ (SpecializeFunction testHost exampleMemory exampleBinary
        [.memref exampleMatrix, .memref exampleVector] [[sym0, 4], [4]] [.kShape, .kValue]
        true).notifications
      = [Notification.valueSpecialized 1 (.rankedTensor [4] (.integer 32))
           ⟨.rankedTensor [4] (.integer 32),
            [⟨.integer 32, 1⟩, ⟨.integer 32, 2⟩, ⟨.integer 32, 3⟩, ⟨.integer 32, 4⟩]⟩,
         Notification.moduleSpecialized
           [.rankedTensor [-1, 4] (.integer 32), .rankedTensor [4] (.integer 32)]
           [[(kSymbolicShapeAttr,
              .dense ⟨.rankedTensor [2] (.integer 64),
                [⟨.integer 64, sym0⟩, ⟨.integer 64, 4⟩]⟩)],
            []]] := by
  have hfwd : forwardArguments
      { exampleBinary with
        inputs := [.rankedTensor [-1, 4] (.integer 32), .rankedTensor [4] (.integer 32)] }
      0 0 [.rankedTensor [-1, 4] (.integer 32), .rankedTensor [4] (.integer 32)]
      = .ok (⟨[.rankedTensor [-1, 4] (.integer 32), .rankedTensor [4] (.integer 32)], [],
          [⟨0, .rankedTensor [-1, -1] (.integer 32)⟩, ⟨1, .rankedTensor [4] (.integer 32)⟩,
           ⟨3, .rankedTensor [-1, 4] (.integer 32)⟩, ⟨5, .rankedTensor [4] (.integer 32)⟩], [],
          [⟨.cast, [3], [⟨4, .rankedTensor [-1, -1] (.integer 32)⟩]⟩,
           ⟨.other 7, [4, 5], [⟨2, .integer 32⟩]⟩], 6⟩, 1) := rfl
  have hout : SpecializeFunction testHost exampleMemory exampleBinary
      [.memref exampleMatrix, .memref exampleVector] [[sym0, 4], [4]] [.kShape, .kValue] true
      = ⟨none,
         ⟨[.rankedTensor [-1, 4] (.integer 32), .rankedTensor [4] (.integer 32)], [],
          [⟨3, .rankedTensor [-1, 4] (.integer 32)⟩, ⟨5, .rankedTensor [4] (.integer 32)⟩],
          [[(kSymbolicShapeAttr,
            .dense ⟨.rankedTensor [2] (.integer 64),
              [⟨.integer 64, sym0⟩, ⟨.integer 64, 4⟩]⟩)]],
          [⟨.constant ⟨.rankedTensor [4] (.integer 32),
              [⟨.integer 32, 1⟩, ⟨.integer 32, 2⟩, ⟨.integer 32, 3⟩, ⟨.integer 32, 4⟩]⟩, [],
            [⟨6, .rankedTensor [4] (.integer 32)⟩]⟩,
           ⟨.cast, [3], [⟨4, .rankedTensor [-1, -1] (.integer 32)⟩]⟩,
           ⟨.other 7, [4, 6], [⟨2, .integer 32⟩]⟩], 7⟩,
         [Notification.valueSpecialized 1 (.rankedTensor [4] (.integer 32))
           ⟨.rankedTensor [4] (.integer 32),
            [⟨.integer 32, 1⟩, ⟨.integer 32, 2⟩, ⟨.integer 32, 3⟩, ⟨.integer 32, 4⟩]⟩,
          Notification.moduleSpecialized
           [.rankedTensor [-1, 4] (.integer 32), .rankedTensor [4] (.integer 32)]
           [[(kSymbolicShapeAttr,
              .dense ⟨.rankedTensor [2] (.integer 64),
                [⟨.integer 64, sym0⟩, ⟨.integer 64, 4⟩]⟩)],
            []]]⟩ := by
    unfold SpecializeFunction
    simp only [scenario_specializeInputs sym0 hsym]
    rw [hfwd]
    simp only [show exampleBinary.getNumArguments = 2 from rfl]
    rw [scenario_addSymbolicShapes sym0 hsym _ rfl]
    rfl
  rw [hout]
  exact ⟨rfl, rfl, rfl, rfl, rfl, rfl⟩

/-- A concrete instance: the scenario with the symbolic id -2 succeeds and gives
the signature `(tensor<?x4xi32>, tensor<4xi32>)`. -/
theorem SpecializeFunction_scenario_witness :
    (-2 : Int) < 0
    ∧ (SpecializeFunction testHost exampleMemory exampleBinary
        [.memref exampleMatrix, .memref exampleVector] [[-2, 4], [4]] [.kShape, .kValue]
        true).error = none
    ∧ (SpecializeFunction testHost exampleMemory exampleBinary
        [.memref exampleMatrix, .memref exampleVector] [[-2, 4], [4]] [.kShape, .kValue]
        true).func.inputs
      = [.rankedTensor [-1, 4] (.integer 32), .rankedTensor [4] (.integer 32)] :=
  have h := SpecializeFunction_scenario (-2) (by decide)
  ⟨by decide, h.1, h.2.1⟩

/-! ### A second call on the specialized function -/

theorem SpecializeOperandType_again (H : Host) (index : Nat) (type : MType)
    (argument : Argument) (symbolic_shape : SymbolicShape) (specialized : MType)
    (h : SpecializeOperandType H index type argument symbolic_shape = .ok specialized)
    (hfit : ∀ desc, argument = .memref desc →
      symbolic_shape.length = desc.rank ∧
      ∀ (d : Nat) (size : Int), symbolic_shape[d]? = some size → 0 ≤ size →
        desc.sizes[d]? = some size) :
    SpecializeOperandType H index specialized argument symbolic_shape = .ok specialized := by
  cases argument with
  | other id =>
    by_cases hs : symbolic_shape = []
    · simp only [SpecializeOperandType, hs, ne_eq, not_true_eq_false, if_false,
        Except.ok.injEq] at h
      subst h
      simp [SpecializeOperandType, hs]
    · simp [SpecializeOperandType, hs] at h
  | memref desc =>
    obtain ⟨hrank, hsizes⟩ := hfit desc rfl
    rcases SpecializeOperandType_descriptor_inv H index type desc symbolic_shape specialized h
      with ⟨sh, el, _, h2, h3⟩ | ⟨sh, el, _, h2, h3⟩ | ⟨el, _, h2, h3⟩ <;>
    · subst h3
      obtain ⟨element_ty, hconv, hdtype⟩ := VerifyMemrefOperand_ok_inv H index _ desc h2
      have hv := VerifyMemrefOperand_Normalize H index el desc symbolic_shape element_ty hconv
        hdtype hrank hsizes
      simp [SpecializeOperandType, hv]

theorem specializeInputs_again (H : Host) (arguments : List Argument)
    (symbolic_shapes : List SymbolicShape)
    (hfit : ∀ (i : Nat) (desc : MemrefDesc) (shape : SymbolicShape),
      arguments[i]? = some (.memref desc) → symbolic_shapes[i]? = some shape →
      shape.length = desc.rank ∧
      ∀ (d : Nat) (size : Int), shape[d]? = some size → 0 ≤ size →
        desc.sizes[d]? = some size)
    (inputs : List MType) :
    ∀ (k : Nat) (res : List MType),
      specializeInputs H arguments symbolic_shapes k inputs = .ok res →
      specializeInputs H arguments symbolic_shapes k res = .ok res := by
  induction inputs with
  | nil =>
    intro k res h
    simp only [specializeInputs, Except.ok.injEq] at h
    subst h
    simp [specializeInputs]
  | cons type inputs ih =>
    intro k res h
    rw [specializeInputs] at h
    split at h
    · rename_i argument symbolic_shape harg hshape
      cases hsot : SpecializeOperandType H k type argument symbolic_shape with
      | error err => simp [hsot] at h
      | ok specialized =>
        cases hrec : specializeInputs H arguments symbolic_shapes (k + 1) inputs with
        | error err => simp [hsot, hrec] at h
        | ok rest =>
          simp only [hsot, hrec, Except.ok.injEq] at h
          subst h
          have h1 := SpecializeOperandType_again H k type argument symbolic_shape specialized
            hsot (by
              intro desc hd
              subst hd
              exact hfit k desc symbolic_shape harg hshape)
          have h2 := ih (k + 1) rest hrec
          rw [specializeInputs]
          simp [harg, hshape, h1, h2]
    · simp at h

theorem addSymbolicShapes_static (symbolic_shapes : List SymbolicShape)
    (hstatic : ∀ shape ∈ symbolic_shapes, ∀ dim ∈ shape, 0 ≤ dim) :
    ∀ (n i : Nat) (func func2 : FuncOp),
      addSymbolicShapes symbolic_shapes i n func = .ok func2 → func2 = func := by
  intro n
  induction n with
  | zero =>
    intro i func func2 h
    simp only [addSymbolicShapes, Except.ok.injEq] at h
    exact h.symm
  | succ n ih =>
    intro i func func2 h
    rw [addSymbolicShapes] at h
    cases hs : symbolic_shapes[i]? with
    | none => simp [hs] at h
    | some shape =>
      have hall : shape.all (fun dim => decide (dim ≥ 0)) = true := by
        rw [List.all_eq_true]
        intro dim hdim
        have := hstatic shape (List.getElem?_mem hs) dim hdim
        simpa using this
      simp only [hs, hall, if_true] at h
      exact ih (i + 1) func func2 h

theorem sinkArgument_error_congr (H : Host) (mem : Memory) (arguments : List Argument)
    (listener listener2 : Bool) (i : Nat) (func func2 : FuncOp) (ip ip2 : Nat)
    (log log2 : List Notification) (hin : func.inputs = func2.inputs)
    (hlen : func.arguments.length = func2.arguments.length) :
    (sinkArgument H mem arguments listener i func ip log).error
      = (sinkArgument H mem arguments listener2 i func2 ip2 log2).error := by
  unfold sinkArgument
  rw [hin]
  cases h1 : func2.inputs[i]? with
  | none => rfl
  | some input =>
    simp only
    cases h2 : dynCastTensor input with
    | none => rfl
    | some tensor =>
      simp only
      by_cases h3 : H.SupportsValueSpecialization input = true
      · simp only [h3, not_true_eq_false, if_false]
        cases h4 : arguments[i]? with
        | none => rfl
        | some a =>
          cases a with
          | other id => rfl
          | memref desc =>
            simp only
            cases h5 : GetMemrefValues mem tensor desc with
            | none => rfl
            | some value =>
              simp only
              by_cases hi : i < func.arguments.length
              · have hi2 : i < func2.arguments.length := by omega
                simp [List.getElem?_eq_getElem hi, List.getElem?_eq_getElem hi2]
              · have hi2 : ¬ i < func2.arguments.length := by omega
                simp [List.getElem?_eq_none_iff.mpr (Nat.le_of_not_lt hi),
                  List.getElem?_eq_none_iff.mpr (Nat.le_of_not_lt hi2)]
      · simp [h3]

theorem sinkConstants_error_congr (H : Host) (mem : Memory) (arguments : List Argument)
    (listener listener2 : Bool) (cs : List ArgumentConstraint) :
    ∀ (i : Nat) (func func2 : FuncOp) (ip ip2 : Nat) (log log2 : List Notification),
      func.inputs = func2.inputs → func.arguments.length = func2.arguments.length →
      (sinkConstants H mem arguments listener i cs func ip log).error
        = (sinkConstants H mem arguments listener2 i cs func2 ip2 log2).error := by
  induction cs with
  | nil =>
    intro i func func2 ip ip2 log log2 _ _
    simp [sinkConstants]
  | cons c cs ih =>
    intro i func func2 ip ip2 log log2 hin hlen
    rw [sinkConstants, sinkConstants]
    by_cases hc : c = ArgumentConstraint.kValue
    · subst hc
      simp only [ne_eq, not_true_eq_false, if_false]
      have he := sinkArgument_error_congr H mem arguments listener listener2 i func func2 ip ip2
        log log2 hin hlen
      obtain ⟨f1, _, f3, _⟩ := sinkArgument_frame H mem arguments listener i func ip log
      obtain ⟨g1, _, g3, _⟩ := sinkArgument_frame H mem arguments listener2 i func2 ip2 log2
      cases h1 : (sinkArgument H mem arguments listener i func ip log).error with
      | some err =>
        rw [h1] at he
        simp [← he]
      | none =>
        rw [h1] at he
        simp only [← he]
        exact ih (i + 1) _ _ _ _ _ _ (by rw [f1, g1, hin]) (by rw [f3, g3, hlen])
    · simp only [ne_eq, hc, not_false_eq_true, if_true]
      exact ih (i + 1) func func2 ip ip2 log log2 hin hlen

theorem forwardedArguments_same_types (nv : Nat) (olds : List BlockArgument) :
    forwardedCasts (forwardedArguments nv olds (olds.map (fun a => a.type))) = []
    ∧ ∀ e ∈ forwardedArguments nv olds (olds.map (fun a => a.type)),
        e.replacement = e.new_arg.value := by
  have key : ∀ (i : Nat) (e : ForwardedArgument),
      (forwardedArguments nv olds (olds.map (fun a => a.type)))[i]? = some e →
      e.cast = none ∧ e.replacement = e.new_arg.value := by
    intro i e he
    obtain ⟨o, s, ho, hs, _, _, hsame, _⟩ := forwardedArguments_entry _ nv olds i e he
    rw [List.getElem?_map, ho] at hs
    simp only [Option.map_some', Option.some.injEq] at hs
    exact hsame hs.symm
  constructor
  · rw [List.eq_nil_iff_forall_not_mem]
    intro op hop
    obtain ⟨i, e, he, hcast⟩ := (forwardedCasts_mem _ op).mp hop
    rw [(key i e he).1] at hcast
    simp at hcast
  · intro e he
    obtain ⟨i, hi, hget⟩ := List.getElem_of_mem he
    exact (key i e (by rw [List.getElem?_eq_getElem hi, hget])).2

theorem SpecializeFunction_WellFormed (H : Host) (mem : Memory) (func : FuncOp)
    (arguments : List Argument) (symbolic_shapes : List SymbolicShape)
    (constraints : List ArgumentConstraint) (listener : Bool)
    (hwf : func.WellFormed)
    (hok : (SpecializeFunction H mem func arguments symbolic_shapes constraints listener).error
      = none) :
    (SpecializeFunction H mem func arguments symbolic_shapes constraints
      listener).func.WellFormed := by
  obtain ⟨si, plan, sunk, hspec, hplan, _, hin, hargs, _, hnv, _⟩ :=
    SpecializeFunction_rewritten H mem func arguments symbolic_shapes constraints listener hwf hok
  obtain ⟨hlen, _⟩ := specializeInputs_ok H arguments symbolic_shapes func.inputs 0 _ hspec
  have holds : func.arguments.length = si.length := by
    rw [hlen, ← hwf.1, List.length_map]
  obtain ⟨_, _, htypes⟩ := forwardedArguments_maps si func.nextValue func.arguments holds
  refine ⟨?_, ?_, ?_⟩
  · rw [hargs, hin, hplan, List.map_map]
    exact htypes
  · intro a ha
    rw [hargs, List.mem_map] at ha
    obtain ⟨e, he, hea⟩ := ha
    subst hea
    rw [hplan] at he
    obtain ⟨_, b2, b3⟩ := forwardedArguments_bounds si func.nextValue func.arguments e he
    rw [hnv, hplan]
    unfold Value at *
    omega
  · rw [hargs, hplan]
    exact forwardedArguments_new_nodup si func.nextValue func.arguments

/-- C14 (counterexample): two second calls that are not idempotent, both with a
fully static symbolic shape and a first call that succeeds. (1) Input
`tensor<?xi32>`, descriptor of size 4, symbolic shape `[5]`: the second call
fails, since the descriptor does not verify against `tensor<5xi32>`. (2) Input
`tensor<?xi32>` marked `kValue`, descriptor of size 4, symbolic shape `[4]`: the
second call succeeds and puts one more constant in front of the three operations
that the first call left. -/
theorem SpecializeFunction_second_call_differs :
    ((SpecializeFunction testHost exampleMemory exampleUnary [.memref exampleVector] [[5]]
        [.kNone] false).error = none
      ∧ (SpecializeFunction testHost exampleMemory
          (SpecializeFunction testHost exampleMemory exampleUnary [.memref exampleVector] [[5]]
            [.kNone] false).func
          [.memref exampleVector] [[5]] [.kNone] false).error
        = some (Error.dimMismatch 0 0 5 4))
    ∧ ((SpecializeFunction testHost exampleMemory exampleSunk [.memref exampleVector] [[4]]
        [.kValue] false).error = none
      ∧ (SpecializeFunction testHost exampleMemory exampleSunk [.memref exampleVector] [[4]]
          [.kValue] false).func.body.length = 3
      ∧ (SpecializeFunction testHost exampleMemory
          (SpecializeFunction testHost exampleMemory exampleSunk [.memref exampleVector] [[4]]
            [.kValue] false).func
          [.memref exampleVector] [[4]] [.kValue] false).error = none
      ∧ (SpecializeFunction testHost exampleMemory
          (SpecializeFunction testHost exampleMemory exampleSunk [.memref exampleVector] [[4]]
            [.kValue] false).func
          [.memref exampleVector] [[4]] [.kValue] false).func.body
        = ⟨.constant ⟨.rankedTensor [4] (.integer 32),
              [⟨.integer 32, 1⟩, ⟨.integer 32, 2⟩, ⟨.integer 32, 3⟩, ⟨.integer 32, 4⟩]⟩, [],
            [⟨6, .rankedTensor [4] (.integer 32)⟩]⟩
          :: (SpecializeFunction testHost exampleMemory exampleSunk [.memref exampleVector]
              [[4]] [.kValue] false).func.body) := by
  decide

/-- C14 (amended): let the function be well formed, let every symbolic shape have
no negative entry and be the shape of the descriptor it is supplied for (its
rank and its sizes), and let `SpecializeFunction` succeed. Then the call of
`SpecializeFunction` on the resulting function with the same arguments, symbolic
shapes and constraints succeeds and yields the same inputs, results and argument
attributes. It inserts no cast: the body is the body left by the first call,
with one constant per constraint `kValue` in front of it, and with the values it
uses sent through `σ`. `σ` sends entry block argument `i` of the first call to
entry block argument `i` of the second, which has the same type, when `i` is not
marked `kValue`, and to the result of one of the new constants when it is; it
leaves every value that is not an entry block argument as it is. -/
theorem SpecializeFunction_idempotent (H : Host) (mem : Memory) (func : FuncOp)
    (arguments : List Argument) (symbolic_shapes : List SymbolicShape)
    (constraints : List ArgumentConstraint) (listener : Bool)
    (hwf : func.WellFormed)
    (hstatic : ∀ shape ∈ symbolic_shapes, ∀ dim ∈ shape, (0 : Int) ≤ dim)
    (hfit : ∀ (i : Nat) (desc : MemrefDesc) (shape : SymbolicShape),
      arguments[i]? = some (.memref desc) → symbolic_shapes[i]? = some shape →
      shape.length = desc.rank ∧
      ∀ (d : Nat) (size : Int), shape[d]? = some size → desc.sizes[d]? = some size)
    (hok : (SpecializeFunction H mem func arguments symbolic_shapes constraints listener).error
      = none) :
    (SpecializeFunction H mem
        (SpecializeFunction H mem func arguments symbolic_shapes constraints listener).func
        arguments symbolic_shapes constraints listener).error = none
    ∧ (SpecializeFunction H mem
        (SpecializeFunction H mem func arguments symbolic_shapes constraints listener).func
        arguments symbolic_shapes constraints listener).func.inputs
      = (SpecializeFunction H mem func arguments symbolic_shapes constraints
          listener).func.inputs
    ∧ (SpecializeFunction H mem
        (SpecializeFunction H mem func arguments symbolic_shapes constraints listener).func
        arguments symbolic_shapes constraints listener).func.results
      = (SpecializeFunction H mem func arguments symbolic_shapes constraints
          listener).func.results
    ∧ (SpecializeFunction H mem
        (SpecializeFunction H mem func arguments symbolic_shapes constraints listener).func
        arguments symbolic_shapes constraints listener).func.argAttrs
      = (SpecializeFunction H mem func arguments symbolic_shapes constraints
          listener).func.argAttrs
    ∧ ∃ (constants : List Operation) (σ : Value → Value),
      (SpecializeFunction H mem
          (SpecializeFunction H mem func arguments symbolic_shapes constraints listener).func
          arguments symbolic_shapes constraints listener).func.body
        = constants
          ++ (SpecializeFunction H mem func arguments symbolic_shapes constraints
              listener).func.body.map (renameOperands σ)
      ∧ constants.length = (kValueIndices 0 constraints).length
      ∧ (∀ c ∈ constants, ∃ (value : DenseElementsAttr) (result : Value),
          c = ⟨.constant value, [], [⟨result, value.type⟩]⟩)
      ∧ (∀ (i : Nat) (a : BlockArgument),
          (SpecializeFunction H mem func arguments symbolic_shapes constraints
            listener).func.arguments[i]? = some a →
          ∃ b : BlockArgument,
            (SpecializeFunction H mem
              (SpecializeFunction H mem func arguments symbolic_shapes constraints
                listener).func
              arguments symbolic_shapes constraints listener).func.arguments[i]? = some b
            ∧ b.type = a.type
            ∧ (constraints[i]? ≠ some ArgumentConstraint.kValue → σ a.value = b.value)
            ∧ (constraints[i]? = some ArgumentConstraint.kValue →
                ∃ value : DenseElementsAttr,
                  (⟨.constant value, [], [⟨σ a.value, value.type⟩]⟩ : Operation) ∈ constants))
      ∧ (∀ v : Value,
          (∀ a ∈ (SpecializeFunction H mem func arguments symbolic_shapes constraints
              listener).func.arguments, a.value ≠ v) →
          (∀ b ∈ (SpecializeFunction H mem
              (SpecializeFunction H mem func arguments symbolic_shapes constraints
                listener).func
              arguments symbolic_shapes constraints listener).func.arguments, b.value ≠ v) →
          σ v = v) := by
  have hwfg := SpecializeFunction_WellFormed H mem func arguments symbolic_shapes constraints
    listener hwf hok
  obtain ⟨hspec, _⟩ :=
    SpecializeFunction_ok_inputs H mem func arguments symbolic_shapes constraints listener hok
  generalize hg : (SpecializeFunction H mem func arguments symbolic_shapes constraints
    listener).func = g at hwfg hspec ⊢
  have hfit2 : ∀ (i : Nat) (desc : MemrefDesc) (shape : SymbolicShape),
      arguments[i]? = some (.memref desc) → symbolic_shapes[i]? = some shape →
      shape.length = desc.rank ∧
      ∀ (d : Nat) (size : Int), shape[d]? = some size → 0 ≤ size →
        desc.sizes[d]? = some size := by
    intro i desc shape ha hs
    obtain ⟨h1, h2⟩ := hfit i desc shape ha hs
    exact ⟨h1, fun d size hd _ => h2 d size hd⟩
  have hspec2 : specializeInputs H arguments symbolic_shapes 0 g.inputs = .ok g.inputs :=
    specializeInputs_again H arguments symbolic_shapes hfit2 func.inputs 0 g.inputs hspec
  -- the second call succeeds
  obtain ⟨hlen, _⟩ := specializeInputs_ok H arguments symbolic_shapes func.inputs 0 _ hspec
  have hglen : g.arguments.length = func.arguments.length := by
    have h1 : g.arguments.length = g.inputs.length := by
      rw [← hwfg.1, List.length_map]
    have h2 : func.arguments.length = func.inputs.length := by
      rw [← hwf.1, List.length_map]
    omega
  have hok2 : (SpecializeFunction H mem g arguments symbolic_shapes constraints listener).error
      = none := by
    obtain ⟨_, _, attributed1, _, _, hin1, hblk1, herr1, _⟩ :=
      SpecializeFunction_step1_ok H mem func arguments symbolic_shapes constraints listener
        g.inputs hspec
    obtain ⟨_, _, attributed2, _, _, hin2, hblk2, herr2, _⟩ :=
      SpecializeFunction_step1_ok H mem g arguments symbolic_shapes constraints listener
        g.inputs hspec2
    rw [herr2, sinkConstants_error_congr H mem arguments listener listener constraints 0
      attributed2 attributed1 0 0 [] [] (by rw [hin1, hin2]) (by rw [hblk1, hblk2, hglen]),
      ← herr1]
    exact hok
  obtain ⟨_, hres2⟩ :=
    SpecializeFunction_ok_inputs H mem g arguments symbolic_shapes constraints listener hok2
  -- the argument attributes
  have hattrs : (SpecializeFunction H mem g arguments symbolic_shapes constraints
      listener).func.argAttrs = g.argAttrs := by
    obtain ⟨si, forwarded, ip, attributed, _, hfwd, hattr, _, hfunc, _⟩ :=
      SpecializeFunction_ok H mem g arguments symbolic_shapes constraints listener hok2
    obtain ⟨_, _, _, s4⟩ :=
      sinkConstants_frame H mem arguments listener constraints 0 attributed 0 []
    have := addSymbolicShapes_static symbolic_shapes hstatic _ _ _ _ hattr
    obtain ⟨_, _, f3⟩ := forwardArguments_frame si _ _ _ _ _ hfwd
    rw [hfunc, s4, this]
    simp only [eraseArguments, f3]
  -- the body
  obtain ⟨si2, plan, sunk, hspec3, hplan, hsunk, hin2, hargs2, hbody2, _, _, hidx⟩ :=
    SpecializeFunction_rewritten H mem g arguments symbolic_shapes constraints listener hwfg hok2
  have hsi2 : si2 = g.arguments.map (fun a => a.type) := by
    rw [hspec2] at hspec3
    simp only [Except.ok.injEq] at hspec3
    rw [← hspec3, hwfg.1]
  subst hsi2
  obtain ⟨hcasts, hrepl⟩ := forwardedArguments_same_types g.nextValue g.arguments
  rw [← hplan] at hcasts hrepl
  obtain ⟨hplen, holdmap, htypes⟩ := forwardedArguments_maps (g.arguments.map (fun a => a.type))
    g.nextValue g.arguments (by simp)
  rw [← hplan] at hplen holdmap htypes
  have hnodup2 : ((plan.map (fun e => e.new_arg)).map (fun a => a.value)).Nodup := by
    rw [hplan]
    exact forwardedArguments_new_nodup _ _ _
  have hentry : ∀ (i : Nat) (a : BlockArgument), g.arguments[i]? = some a →
      ∃ e : ForwardedArgument, plan[i]? = some e ∧ e.old_arg = a ∧ e.new_arg.type = a.type
        ∧ e.replacement = e.new_arg.value := by
    intro i a ha
    have hi : i < plan.length := by
      rw [hplen, List.length_map]
      exact (List.getElem?_eq_some_iff.mp ha).1
    obtain ⟨e, he⟩ : ∃ e, plan[i]? = some e := ⟨plan[i], List.getElem?_eq_getElem hi⟩
    have he2 := he
    rw [hplan] at he2
    obtain ⟨o, s, ho, hs, h1, h2, _, _⟩ := forwardedArguments_entry _ _ _ i _ he2
    rw [ha] at ho
    simp only [Option.some.injEq] at ho
    subst ho
    rw [List.getElem?_map, ha] at hs
    simp only [Option.map_some', Option.some.injEq] at hs
    exact ⟨e, he, h1, by rw [h2, hs], hrepl _ (List.getElem?_mem he)⟩
  have hsunk_index : ∀ s ∈ sunk, constraints[s.index]? = some ArgumentConstraint.kValue := by
    intro s hs
    have : s.index ∈ kValueIndices 0 constraints := by
      rw [← hidx]
      exact List.mem_map_of_mem _ hs
    obtain ⟨j, hj, hc⟩ := (kValueIndices_mem constraints 0 s.index).mp this
    rw [show s.index = j by omega]
    exact hc
  refine ⟨hok2, hin2.trans hwfg.1, hres2, hattrs, sunk.map SunkArgument.constant,
    fun v => substitute (sunkUses sunk) (substitute (forwardedUses plan) v), ?_, ?_, ?_, ?_, ?_⟩
  · rw [hbody2, hcasts, List.nil_append, List.map_map]
    congr 1
    apply List.map_congr_left
    intro op _
    simp only [Function.comp_apply]
    exact renameOperands_comp _ _ op
  · rw [List.length_map, ← hidx, List.length_map]
  · intro c hc
    rw [List.mem_map] at hc
    obtain ⟨s, _, hsc⟩ := hc
    exact ⟨s.value, s.result, hsc.symm⟩
  · intro i a ha
    obtain ⟨e, he, heold, hetype, herepl⟩ := hentry i a ha
    have hnew : (plan.map (fun e => e.new_arg))[i]? = some e.new_arg := by
      rw [List.getElem?_map, he]
      rfl
    have hphi : substitute (forwardedUses plan) a.value = e.new_arg.value := by
      have he2 := he
      rw [hplan] at he2
      have := forwardedUses_substitute _ g.nextValue g.arguments hwfg.2.2 i e he2
      rw [← hplan, heold, herepl] at this
      exact this
    refine ⟨e.new_arg, by rw [hargs2]; exact hnew, hetype, ?_, ?_⟩
    · intro hc
      simp only [hphi]
      apply substitute_of_not_key
      intro p hp
      simp only [sunkUses, List.mem_map] at hp
      obtain ⟨s, hs, hps⟩ := hp
      subst hps
      simp only
      have hs2 := hs
      rw [hsunk] at hs2
      obtain ⟨_, _, _, hblock, _⟩ := sunkArguments_entry mem _ arguments _ constraints _ _ s hs2
      have hne : s.index ≠ i := by
        intro heq
        apply hc
        rw [← heq]
        exact hsunk_index s hs
      exact nodup_getElem?_ne _ hnodup2 s.index i s.argument.value e.new_arg.value
        (by rw [List.getElem?_map, hblock]; rfl) (by rw [List.getElem?_map, hnew]; rfl) hne
    · intro hc
      have hi : i ∈ sunk.map (fun s => s.index) := by
        rw [hidx, kValueIndices_mem]
        exact ⟨i, by omega, hc⟩
      rw [List.mem_map] at hi
      obtain ⟨s, hs, hsi⟩ := hi
      have hs2 := hs
      rw [hsunk] at hs2
      obtain ⟨_, _, _, hblock, _⟩ := sunkArguments_entry mem _ arguments _ constraints _ _ s hs2
      rw [hsi, hnew] at hblock
      simp only [Option.some.injEq] at hblock
      have hpsi := sunkArguments_substitute mem _ arguments _ hnodup2 constraints _ _ s hs2
      rw [← hsunk, ← hblock] at hpsi
      refine ⟨s.value, ?_⟩
      simp only [hphi, hpsi]
      exact List.mem_map_of_mem SunkArgument.constant hs
  · intro v hv1 hv2
    have h1 : substitute (forwardedUses plan) v = v := by
      apply substitute_of_not_key
      intro p hp
      simp only [forwardedUses, List.mem_map] at hp
      obtain ⟨e, he, hpe⟩ := hp
      subst hpe
      rw [hplan] at he
      exact hv1 _ (forwardedArguments_old_mem _ _ _ e he)
    simp only [h1]
    apply substitute_of_not_key
    intro p hp
    simp only [sunkUses, List.mem_map] at hp
    obtain ⟨s, hs, hps⟩ := hp
    subst hps
    rw [hsunk] at hs
    have := sunkArguments_argument_mem mem _ arguments _ constraints _ _ s hs
    rw [← hargs2] at this
    exact hv2 _ this
/-- A concrete instance: on the example of the sunk input `tensor<?xi32>`, with
the descriptor of size 4 and the symbolic shape `[4]`, the function is well
formed, the first call succeeds, and the second call succeeds with the same
inputs. -/
theorem SpecializeFunction_idempotent_witness :
    exampleSunk.WellFormed
    ∧ (SpecializeFunction testHost exampleMemory exampleSunk [.memref exampleVector] [[4]]
        [.kValue] true).error = none
    ∧ (SpecializeFunction testHost exampleMemory
        (SpecializeFunction testHost exampleMemory exampleSunk [.memref exampleVector] [[4]]
          [.kValue] true).func
        [.memref exampleVector] [[4]] [.kValue] true).error = none
    ∧ (SpecializeFunction testHost exampleMemory
        (SpecializeFunction testHost exampleMemory exampleSunk [.memref exampleVector] [[4]]
          [.kValue] true).func
        [.memref exampleVector] [[4]] [.kValue] true).func.inputs
      = (SpecializeFunction testHost exampleMemory exampleSunk [.memref exampleVector] [[4]]
          [.kValue] true).func.inputs := by
  have h := SpecializeFunction_idempotent testHost exampleMemory exampleSunk
    [.memref exampleVector] [[4]] [.kValue] true (by decide) (by decide)
    (by
      intro i desc shape ha hs
      cases i with
      | zero =>
        simp only [List.getElem?_cons_zero, Option.some.injEq, Argument.memref.injEq] at ha hs
        subst ha hs
        refine ⟨rfl, ?_⟩
        intro d size hd
        cases d with
        | zero =>
          simp only [List.getElem?_cons_zero, Option.some.injEq] at hd
          subst hd
          rfl
        | succ d => simp at hd
      | succ i => simp at ha)
    (by decide)
  exact ⟨by decide, by decide, h.1, h.2.1⟩

/-! ### What the extracted value depends on -/

theorem MemrefDesc.size_zero_eq (d : MemrefDesc) (h : 0 < d.rank) :
    d.size 0 = d.sizes.getD 0 0 := by
  unfold MemrefDesc.size MemrefDesc.sizes
  unfold MemrefDesc.rank at h
  obtain ⟨r, hr⟩ : ∃ r, d.rank_ = r + 1 := ⟨d.rank_ - 1, by omega⟩
  rw [hr]
  cases d.sizes_and_strides_ <;> simp

/-- C22: the result of `GetMemrefValues` depends only on the rank, the dtype and
the sizes of the descriptor and on the first `n` elements at its data pointer.
Let two descriptors agree on `rank()`, `dtype()` and `sizes()`; nothing is
assumed on `offset()` and on `strides()`. (1) If the two memories agree on the
elements below the bound `num_values` of the loop (1 for rank 0, `size(0)` as a
`size_t` for rank 1), the two results are equal, for the same operand type.
(2) In particular, when `size(0)` is not negative, they are equal if the
memories agree on the first `n` elements, `n = 1` for rank 0 and `n = size(0)`
for rank 1. (3) In particular, two descriptors with the same data pointer, read
in the same memory, give the same result, whatever their offsets and strides
are. -/
theorem GetMemrefValues_offset_strides_ignored (mem1 mem2 : Memory)
    (operand_type : ShapedType) (d1 d2 : MemrefDesc)
    (hrank : d1.rank = d2.rank) (hdtype : d1.dtype = d2.dtype) (hsizes : d1.sizes = d2.sizes) :
    ((∀ i : Nat, i < GetMemrefValues.num_values d1 →
        mem1 d1.dtype d1.data i = mem2 d2.dtype d2.data i) →
      GetMemrefValues mem1 operand_type d1 = GetMemrefValues mem2 operand_type d2)
    ∧ ((d1.rank = 1 → 0 ≤ d1.size 0) →
      (∀ i : Nat, (i : Int) < (if d1.rank = 0 then 1 else d1.size 0) →
        mem1 d1.dtype d1.data i = mem2 d2.dtype d2.data i) →
      GetMemrefValues mem1 operand_type d1 = GetMemrefValues mem2 operand_type d2)
    ∧ (d1.data = d2.data →
      GetMemrefValues mem1 operand_type d1 = GetMemrefValues mem1 operand_type d2) := by
  have hnum : (if d1.rank = 0 then 1 else (d2.size 0 % 2 ^ 64).toNat)
      = (if d1.rank = 0 then 1 else (d1.size 0 % 2 ^ 64).toNat) := by
    by_cases h0 : d1.rank = 0
    · simp [h0]
    · rw [MemrefDesc.size_zero_eq d2 (by rw [← hrank]; omega),
        MemrefDesc.size_zero_eq d1 (by omega), hsizes]
  have main : ∀ (m1 m2 : Memory),
      (∀ i : Nat, i < GetMemrefValues.num_values d1 →
        m1 d1.dtype d1.data i = m2 d2.dtype d2.data i) →
      GetMemrefValues m1 operand_type d1 = GetMemrefValues m2 operand_type d2 := by
    intro m1 m2 hdata
    have hval : ∀ i ∈ List.range (if d1.rank = 0 then 1 else (d1.size 0 % 2 ^ 64).toNat),
        m1 d1.dtype d1.data i = m2 d1.dtype d2.data i := by
      intro i hi
      rw [List.mem_range] at hi
      have := hdata i hi
      rw [← hdtype] at this
      exact this
    unfold GetMemrefValues
    simp only [← hrank, ← hdtype, ← hsizes, hnum]
    by_cases hr : d1.rank ≠ 0 ∧ d1.rank ≠ 1
    · rw [if_pos hr, if_pos hr]
    · rw [if_neg hr, if_neg hr]
      cases hdt : d1.dtype <;> simp only [hdt] at hval ⊢
      · congr 2
        exact List.map_congr_left (fun i hi => by rw [hval i hi])
      · congr 2
        exact List.map_congr_left (fun i hi => by rw [hval i hi])
  refine ⟨main mem1 mem2, ?_, ?_⟩
  · intro hsize hdata
    by_cases hr : d1.rank = 0 ∨ d1.rank = 1
    · apply main mem1 mem2
      intro i hi
      apply hdata i
      unfold GetMemrefValues.num_values at hi
      rcases hr with h0 | h1
      · simp only [h0, if_true] at hi ⊢
        omega
      · have hlo := hsize h1
        have h0 : ¬ d1.rank = 0 := by omega
        simp only [h0, if_false] at hi ⊢
        omega
    · have hnone : ∀ (m : Memory) (d : MemrefDesc), d.rank = d1.rank →
          GetMemrefValues m operand_type d = none := by
        intro m d hd
        rw [GetMemrefValues_eq_none_iff]
        left
        omega
      rw [hnone mem1 d1 rfl, hnone mem2 d2 hrank.symm]
  · intro hdata
    apply main mem1 mem1
    intro i _
    rw [hdtype, hdata]

/-- A concrete instance: the rank 1 descriptor of the four `I32` elements at
address 200 gives the same dense attribute with the offset 0 and the stride 1 as
with the offset 8 and the stride 2, and the same in a memory that agrees with
the first one on these four elements only. -/
theorem GetMemrefValues_offset_strides_ignored_witness :
    exampleVector.offset ≠ exampleStridedVector.offset
    ∧ exampleVector.strides ≠ exampleStridedVector.strides
    ∧ GetMemrefValues exampleMemory ⟨some [4], .integer 32⟩ exampleVector
      = GetMemrefValues exampleMemory ⟨some [4], .integer 32⟩ exampleStridedVector
    ∧ exampleMemory .I32 200 4 ≠ exampleOtherMemory .I32 200 4
    ∧ GetMemrefValues exampleMemory ⟨some [4], .integer 32⟩ exampleVector
      = GetMemrefValues exampleOtherMemory ⟨some [4], .integer 32⟩ exampleStridedVector :=
  have h := GetMemrefValues_offset_strides_ignored exampleMemory exampleOtherMemory
    ⟨some [4], .integer 32⟩ exampleVector exampleStridedVector (by decide) (by decide)
    (by decide)
  ⟨by decide, by decide, h.2.2 rfl, by decide,
   h.1 (fun i hi => by
    have h4 : i < 4 := hi
    interval_cases i <;> rfl)⟩

/-! ### The type of the materialized constant -/

theorem GetMemrefValues_type (mem : Memory) (operand_type : ShapedType) (desc : MemrefDesc)
    (value : DenseElementsAttr) (h : GetMemrefValues mem operand_type desc = some value) :
    value.type = .rankedTensor desc.sizes operand_type.elementType := by
  unfold GetMemrefValues at h
  by_cases hr : desc.rank ≠ 0 ∧ desc.rank ≠ 1
  · simp [hr] at h
  · simp only [hr, if_false] at h
    cases hd : desc.dtype <;> simp only [hd, Option.some.injEq] at h <;>
      first
        | (rw [← h])
        | exact absurd h (by simp)

theorem Normalize_static (shape : SymbolicShape) (h : ∀ dim ∈ shape, (0 : Int) ≤ dim) :
    Normalize shape = shape := by
  unfold Normalize
  conv_rhs => rw [← List.map_id shape]
  apply List.map_congr_left
  intro dim hdim
  have := h dim hdim
  have hneg : ¬ dim < 0 := by omega
  simp [hneg]

/-- C21: after a successful `SpecializeFunction` on a well formed function, for
every argument `i` marked `kValue` a constant is in the body whose value was
extracted from the descriptor of argument `i`, and the type of the constant is
the ranked tensor of the sizes of the descriptor with the element type of the
specialized input `i`, whatever the symbolic shape is. The entry block argument
`i` whose uses the constant replaces has the specialized input type. When the
symbolic shape of argument `i` has no negative entry and equals the sizes of the
descriptor, the type of the constant is the specialized input type, hence the
type of the replaced entry block argument. -/
theorem SpecializeFunction_constant_type (H : Host) (mem : Memory) (func : FuncOp)
    (arguments : List Argument) (symbolic_shapes : List SymbolicShape)
    (constraints : List ArgumentConstraint) (listener : Bool)
    (hwf : func.WellFormed)
    (hok : (SpecializeFunction H mem func arguments symbolic_shapes constraints listener).error
      = none)
    (i : Nat) (hi : constraints[i]? = some ArgumentConstraint.kValue) :
    ∃ (input : MType) (tensor : ShapedType) (desc : MemrefDesc) (value : DenseElementsAttr)
      (result : Value) (blockArg : BlockArgument),
      (SpecializeFunction H mem func arguments symbolic_shapes constraints
        listener).func.inputs[i]? = some input
      ∧ dynCastTensor input = some tensor
      ∧ arguments[i]? = some (.memref desc)
      ∧ GetMemrefValues mem tensor desc = some value
      ∧ (⟨.constant value, [], [⟨result, value.type⟩]⟩ : Operation)
          ∈ (SpecializeFunction H mem func arguments symbolic_shapes constraints
              listener).func.body
      ∧ (SpecializeFunction H mem func arguments symbolic_shapes constraints
          listener).func.arguments[i]? = some blockArg
      ∧ blockArg.type = input
      ∧ value.type = .rankedTensor desc.sizes tensor.elementType
      ∧ (∀ shape : SymbolicShape, symbolic_shapes[i]? = some shape →
          (∀ dim ∈ shape, (0 : Int) ≤ dim) → shape = desc.sizes →
          value.type = input ∧ value.type = blockArg.type) := by
  obtain ⟨si, plan, sunk, hspec, hplan, hsunk, hin, hargs, hbody, _, _, hidx⟩ :=
    SpecializeFunction_rewritten H mem func arguments symbolic_shapes constraints listener hwf hok
  obtain ⟨hlen, hall⟩ := specializeInputs_ok H arguments symbolic_shapes func.inputs 0 si hspec
  have hmem : i ∈ sunk.map (fun s => s.index) := by
    rw [hidx, kValueIndices_mem]
    exact ⟨i, by omega, hi⟩
  rw [List.mem_map] at hmem
  obtain ⟨s, hs, hsi⟩ := hmem
  have hs2 := hs
  rw [hsunk] at hs2
  obtain ⟨_, _, _, hblock, input, tensor, desc, h5, h6, h7, h8⟩ :=
    sunkArguments_entry mem _ arguments _ constraints _ _ s hs2
  rw [hsi] at hblock h5 h7
  have htype := GetMemrefValues_type mem tensor desc s.value h8
  -- the type of the entry block argument
  have hblockType : s.argument.type = input := by
    rw [List.getElem?_map] at hblock
    cases he : plan[i]? with
    | none => simp [he] at hblock
    | some e =>
      simp only [he, Option.map_some', Option.some.injEq] at hblock
      have he2 := he
      rw [hplan] at he2
      obtain ⟨_, sp, _, hsp, _, hnt, _, _⟩ := forwardedArguments_entry si _ _ i e he2
      rw [h5] at hsp
      simp only [Option.some.injEq] at hsp
      rw [← hblock, hnt, hsp]
  refine ⟨input, tensor, desc, s.value, s.result, s.argument, by rw [hin]; exact h5, h6, h7, h8,
    ?_, by rw [hargs]; exact hblock, hblockType, htype, ?_⟩
  · rw [hbody]
    apply List.mem_append_left
    exact List.mem_map_of_mem SunkArgument.constant hs
  · intro shape hshape hstatic heq
    have hilt : i < func.inputs.length := by
      rw [← hlen]
      exact (List.getElem?_eq_some_iff.mp h5).1
    obtain ⟨argument, shape2, specialized, ha, hsh, hr, hsot⟩ :=
      hall i func.inputs[i] (List.getElem?_eq_getElem hilt)
    simp only [Nat.zero_add] at ha hsh hsot
    rw [h7] at ha
    rw [hshape] at hsh
    rw [h5] at hr
    simp only [Option.some.injEq] at ha hsh hr
    subst ha hsh hr
    have hinput : input = .rankedTensor desc.sizes tensor.elementType := by
      rcases SpecializeOperandType_descriptor_inv H i _ desc shape input hsot
        with ⟨sh, el, _, _, h3⟩ | ⟨sh, el, _, _, h3⟩ | ⟨el, _, _, h3⟩
      · subst h3
        simp [dynCastTensor] at h6
      · subst h3
        simp only [dynCastTensor, Option.some.injEq] at h6
        rw [← h6, Normalize_static shape hstatic, heq]
      · subst h3
        simp only [dynCastTensor, Option.some.injEq] at h6
        rw [← h6, Normalize_static shape hstatic, heq]
    refine ⟨?_, ?_⟩
    · rw [htype, ← hinput]
    · rw [htype, hblockType, ← hinput]

/-- A concrete instance: on the example of the sunk input `tensor<?xi32>`, with
the descriptor of size 4 and the symbolic shape `[4]`, the constant in the body
has the type `tensor<4xi32>` of the specialized input. -/
theorem SpecializeFunction_constant_type_witness :
    exampleSunk.WellFormed
    ∧ (SpecializeFunction testHost exampleMemory exampleSunk [.memref exampleVector] [[4]]
        [.kValue] false).error = none
    ∧ ∃ (input : MType) (value : DenseElementsAttr) (result : Value),
      (SpecializeFunction testHost exampleMemory exampleSunk [.memref exampleVector] [[4]]
        [.kValue] false).func.inputs[0]? = some input
      ∧ (⟨.constant value, [], [⟨result, value.type⟩]⟩ : Operation)
          ∈ (SpecializeFunction testHost exampleMemory exampleSunk [.memref exampleVector]
              [[4]] [.kValue] false).func.body
      ∧ value.type = input := by
  refine ⟨by decide, by decide, ?_⟩
  obtain ⟨input, tensor, desc, value, result, blockArg, h1, _, h3, _, h5, _, _, _, h9⟩ :=
    SpecializeFunction_constant_type testHost exampleMemory exampleSunk [.memref exampleVector]
      [[4]] [.kValue] false (by decide) (by decide) 0 (by decide)
  simp only [List.getElem?_cons_zero, Option.some.injEq, Argument.memref.injEq] at h3
  subst h3
  exact ⟨input, value, result, h1, h5, (h9 [4] rfl (by decide) (by decide)).1⟩

/-! ### The indices used by `SpecializeFunction` -/

theorem verifyDims_ne_indexOutOfRange (index : Nat) (ops : List Int) :
    ∀ (dim : Nat) (expected : List Int),
      verifyDims index dim ops expected ≠ some Error.indexOutOfRange := by
  induction ops with
  | nil => intro dim expected; simp [verifyDims]
  | cons a ops ih =>
    intro dim expected
    cases expected with
    | nil => simp [verifyDims]
    | cons e expected =>
      rw [verifyDims]
      split
      · simp
      · exact ih _ _

theorem VerifyMemrefOperand_ne_indexOutOfRange (H : Host) (index : Nat) (shaped : ShapedType)
    (memref : MemrefDesc) :
    VerifyMemrefOperand H index shaped memref ≠ some Error.indexOutOfRange := by
  unfold VerifyMemrefOperand
  split
  · simp
  · split
    · unfold VerifyMemrefArgument
      split
      · simp
      · simp only
        split
        · simp
        · exact verifyDims_ne_indexOutOfRange _ _ _ _
    · unfold VerifyMemrefArgument
      split <;> simp

theorem SpecializeOperandType_ne_indexOutOfRange (H : Host) (index : Nat) (type : MType)
    (argument : Argument) (symbolic_shape : SymbolicShape) :
    SpecializeOperandType H index type argument symbolic_shape
      ≠ .error Error.indexOutOfRange := by
  intro h
  cases argument with
  | other id =>
    by_cases hs : symbolic_shape = [] <;> simp [SpecializeOperandType, hs] at h
  | memref desc =>
    cases type with
    | integer w => simp [SpecializeOperandType] at h
    | other c => simp [SpecializeOperandType] at h
    | unrankedMemref el => simp [SpecializeOperandType] at h
    | memref declared el =>
      cases hv : VerifyMemrefOperand H index ⟨some declared, el⟩ desc with
      | none => simp [SpecializeOperandType, hv] at h
      | some err =>
        simp only [SpecializeOperandType, hv, Except.error.injEq] at h
        exact VerifyMemrefOperand_ne_indexOutOfRange H index _ desc (by rw [hv, h])
    | rankedTensor declared el =>
      cases hv : VerifyMemrefOperand H index ⟨some declared, el⟩ desc with
      | none => simp [SpecializeOperandType, hv] at h
      | some err =>
        simp only [SpecializeOperandType, hv, Except.error.injEq] at h
        exact VerifyMemrefOperand_ne_indexOutOfRange H index _ desc (by rw [hv, h])
    | unrankedTensor el =>
      cases hv : VerifyMemrefOperand H index ⟨none, el⟩ desc with
      | none => simp [SpecializeOperandType, hv] at h
      | some err =>
        simp only [SpecializeOperandType, hv, Except.error.injEq] at h
        exact VerifyMemrefOperand_ne_indexOutOfRange H index _ desc (by rw [hv, h])

theorem specializeInputs_in_range (H : Host) (arguments : List Argument)
    (symbolic_shapes : List SymbolicShape) (inputs : List MType) :
    ∀ (k : Nat), k + inputs.length ≤ arguments.length →
      k + inputs.length ≤ symbolic_shapes.length →
      specializeInputs H arguments symbolic_shapes k inputs ≠ .error Error.indexOutOfRange := by
  induction inputs with
  | nil => intro k _ _; simp [specializeInputs]
  | cons type inputs ih =>
    intro k ha hs
    simp only [List.length_cons] at ha hs
    have l1 : k < arguments.length := by omega
    have l2 : k < symbolic_shapes.length := by omega
    have hrec := ih (k + 1) (by omega) (by omega)
    rw [specializeInputs]
    simp only [List.getElem?_eq_getElem l1, List.getElem?_eq_getElem l2]
    cases hsot : SpecializeOperandType H k type arguments[k] symbolic_shapes[k] with
    | error err =>
      simp only [ne_eq, Except.error.injEq]
      intro herr
      subst herr
      exact SpecializeOperandType_ne_indexOutOfRange H k type _ _ hsot
    | ok specialized =>
      simp only
      cases hr : specializeInputs H arguments symbolic_shapes (k + 1) inputs with
      | error err =>
        simp only [ne_eq, Except.error.injEq]
        intro herr
        subst herr
        exact hrec hr
      | ok rest => simp

theorem sinkArgument_in_range (H : Host) (mem : Memory) (arguments : List Argument)
    (listener : Bool) (i : Nat) (func : FuncOp) (ip : Nat) (log : List Notification)
    (h1 : i < func.inputs.length) (h2 : i < arguments.length)
    (h3 : i < func.arguments.length) :
    (sinkArgument H mem arguments listener i func ip log).error
      ≠ some Error.indexOutOfRange := by
  unfold sinkArgument
  simp only [List.getElem?_eq_getElem h1, List.getElem?_eq_getElem h2,
    List.getElem?_eq_getElem h3]
  cases dynCastTensor func.inputs[i] with
  | none => simp
  | some tensor =>
    simp only
    by_cases hs : H.SupportsValueSpecialization func.inputs[i] = true
    · simp only [hs, not_true_eq_false, if_false]
      cases arguments[i] with
      | other id => simp
      | memref desc =>
        simp only
        cases GetMemrefValues mem tensor desc with
        | none => simp
        | some value => simp
    · simp [hs]

theorem sinkConstants_in_range (H : Host) (mem : Memory) (arguments : List Argument)
    (listener : Bool) (cs : List ArgumentConstraint) :
    ∀ (i : Nat) (func : FuncOp) (ip : Nat) (log : List Notification),
      i + cs.length ≤ func.inputs.length → i + cs.length ≤ arguments.length →
      i + cs.length ≤ func.arguments.length →
      (sinkConstants H mem arguments listener i cs func ip log).error
        ≠ some Error.indexOutOfRange := by
  induction cs with
  | nil =>
    intro i func ip log _ _ _
    simp [sinkConstants]
  | cons c cs ih =>
    intro i func ip log h1 h2 h3
    simp only [List.length_cons] at h1 h2 h3
    rw [sinkConstants]
    by_cases hc : c = ArgumentConstraint.kValue
    · subst hc
      simp only [ne_eq, not_true_eq_false, if_false]
      have hstep := sinkArgument_in_range H mem arguments listener i func ip log
        (by omega) (by omega) (by omega)
      obtain ⟨f1, _, f3, _⟩ := sinkArgument_frame H mem arguments listener i func ip log
      cases he : (sinkArgument H mem arguments listener i func ip log).error with
      | some err =>
        simp only [Option.some.injEq]
        intro herr
        subst herr
        exact hstep he
      | none =>
        simp only
        exact ih (i + 1) _ _ _ (by rw [f1]; omega) (by omega) (by rw [f3]; omega)
    · simp only [ne_eq, hc, not_false_eq_true, if_true]
      exact ih (i + 1) func ip log (by omega) (by omega) (by omega)

/-- C23: let the arguments, the symbolic shapes and the constraints have the
length `N` of the inputs of the function, and let the entry block have `N`
arguments. Then no subscript of `SpecializeFunction` is out of range: the call
does not end on a subscript outside a sequence. Loop by loop: the loop that
specializes the types does not; the loop that rewrites the arguments runs to its
end for `N` specialized types, and leaves `N` entry block arguments after the
erasure; the loop that adds the attributes runs to its end; and the sinking
loop, which runs over the constraints, does not on any function with `N` inputs
and `N` entry block arguments. -/
theorem SpecializeFunction_indices_in_range (H : Host) (mem : Memory) (func : FuncOp)
    (arguments : List Argument) (symbolic_shapes : List SymbolicShape)
    (constraints : List ArgumentConstraint) (listener : Bool)
    (harguments : arguments.length = func.getNumArguments)
    (hshapes : symbolic_shapes.length = func.getNumArguments)
    (hconstraints : constraints.length = func.getNumArguments)
    (hblock : func.arguments.length = func.getNumArguments) :
    (SpecializeFunction H mem func arguments symbolic_shapes constraints listener).error
        ≠ some Error.indexOutOfRange
    ∧ specializeInputs H arguments symbolic_shapes 0 func.inputs
        ≠ .error Error.indexOutOfRange
    ∧ (∀ specialized_inputs : List MType,
        specialized_inputs.length = func.getNumArguments →
        ∃ forwarded ip,
          forwardArguments { func with inputs := specialized_inputs } 0 0 specialized_inputs
            = .ok (forwarded, ip)
          ∧ (eraseArguments forwarded func.getNumArguments).arguments.length
            = func.getNumArguments)
    ∧ (∀ f : FuncOp, ∃ attributed,
        addSymbolicShapes symbolic_shapes 0 func.getNumArguments f = .ok attributed)
    ∧ (∀ (f : FuncOp) (ip : Nat) (log : List Notification),
        f.inputs.length = func.getNumArguments →
        f.arguments.length = func.getNumArguments →
        (sinkConstants H mem arguments listener 0 constraints f ip log).error
          ≠ some Error.indexOutOfRange) := by
  unfold FuncOp.getNumArguments at *
  have hstep1 := specializeInputs_in_range H arguments symbolic_shapes func.inputs 0
    (by omega) (by omega)
  have hsink : ∀ (f : FuncOp) (ip : Nat) (log : List Notification),
      f.inputs.length = func.inputs.length → f.arguments.length = func.inputs.length →
      (sinkConstants H mem arguments listener 0 constraints f ip log).error
        ≠ some Error.indexOutOfRange := by
    intro f ip log h1 h2
    exact sinkConstants_in_range H mem arguments listener constraints 0 f ip log
      (by omega) (by omega) (by omega)
  refine ⟨?_, hstep1, ?_, ?_, hsink⟩
  · cases hspec : specializeInputs H arguments symbolic_shapes 0 func.inputs with
    | error err =>
      rw [SpecializeFunction_step1_error H mem func arguments symbolic_shapes constraints
        listener err hspec]
      simp only [ne_eq, Option.some.injEq]
      intro herr
      subst herr
      exact hstep1 hspec
    | ok si =>
      obtain ⟨hlen, _⟩ := specializeInputs_ok H arguments symbolic_shapes func.inputs 0 si hspec
      obtain ⟨_, _, attributed, _, _, hin, hblk, herr, _⟩ :=
        SpecializeFunction_step1_ok H mem func arguments symbolic_shapes constraints listener
          si hspec
      rw [herr]
      exact hsink attributed 0 [] (by rw [hin, hlen]) (by rw [hblk, hblock])
  · intro si hsi
    obtain ⟨forwarded, ip, hfwd, hflen⟩ := forwardArguments_total si
      { func with inputs := si } 0 0 (Nat.zero_le _)
    refine ⟨forwarded, ip, hfwd, ?_⟩
    simp only [eraseArguments, List.length_drop, hflen]
    omega
  · intro f
    exact addSymbolicShapes_total symbolic_shapes func.inputs.length 0 f (by omega)

/-- A concrete instance: the example with the inputs `tensor<?x?xi32>` and
`tensor<4xi32>` is called with two arguments, two symbolic shapes and two
constraints, its entry block has two arguments, and the call does not end on a
subscript outside a sequence. -/
theorem SpecializeFunction_indices_in_range_witness :
    exampleBinary.getNumArguments = 2
    ∧ (SpecializeFunction testHost exampleMemory exampleBinary
        [.memref exampleMatrix, .memref exampleVector] [[-2, 4], [4]] [.kShape, .kValue]
        true).error ≠ some Error.indexOutOfRange :=
  ⟨rfl,
   (SpecializeFunction_indices_in_range testHost exampleMemory exampleBinary
    [.memref exampleMatrix, .memref exampleVector] [[-2, 4], [4]] [.kShape, .kValue] true
    rfl rfl rfl rfl).1⟩

/-- The bound of the sinking loop is the number of constraints: with one input and
the constraints `[kNone, kValue]` the loop reads input 1 of the signature, which
is outside the sequence. -/
theorem SpecializeFunction_constraints_past_inputs :
    (SpecializeFunction testHost exampleMemory exampleUnary [.memref exampleVector] [[-2]]
        [.kNone, .kValue] false).error = some Error.indexOutOfRange := by
  decide

/-! ### Extraction of the values of a descriptor -/

theorem GetMemrefValues.loop_in_range (element : Nat → IntegerAttr) (num_values : Nat)
    (hn : num_values ≤ INT_MAX) :
    ∀ (k i : Nat) (attributes : List IntegerAttr), num_values - i = k → i ≤ num_values →
      GetMemrefValues.loop element num_values i attributes
        = some (attributes ++ (List.range' i (num_values - i)).map element) := by
  intro k
  induction k with
  | zero =>
    intro i attributes hk hi
    have hnot : ¬ i < num_values := by omega
    rw [GetMemrefValues.loop, if_neg hnot]
    have h0 : num_values - i = 0 := by omega
    simp [h0]
  | succ k ih =>
    intro i attributes hk hi
    have hlt : i < num_values := by omega
    have hne : i ≠ INT_MAX := by omega
    rw [GetMemrefValues.loop, if_pos hlt, if_neg hne, ih (i + 1) _ (by omega) (by omega)]
    have hsucc : num_values - i = (num_values - (i + 1)) + 1 := by omega
    rw [hsucc, List.range'_succ]
    simp

theorem GetMemrefValues.loop_overflow (element : Nat → IntegerAttr) (num_values : Nat)
    (hn : INT_MAX < num_values) :
    ∀ (k i : Nat) (attributes : List IntegerAttr), INT_MAX - i = k → i ≤ INT_MAX →
      GetMemrefValues.loop element num_values i attributes = none := by
  intro k
  induction k with
  | zero =>
    intro i attributes hk hi
    have hlt : i < num_values := by omega
    have heq : i = INT_MAX := by omega
    rw [GetMemrefValues.loop, if_pos hlt, if_pos heq]
  | succ k ih =>
    intro i attributes hk hi
    have hlt : i < num_values := by omega
    have hne : i ≠ INT_MAX := by omega
    rw [GetMemrefValues.loop, if_pos hlt, if_neg hne]
    exact ih (i + 1) _ (by omega) (by omega)

theorem GetMemrefValues.loop_eq (element : Nat → IntegerAttr) (num_values : Nat) :
    GetMemrefValues.loop element num_values 0 []
      = if num_values ≤ INT_MAX then some ((List.range num_values).map element) else none := by
  by_cases hn : num_values ≤ INT_MAX
  · rw [if_pos hn, GetMemrefValues.loop_in_range element num_values hn num_values 0 [] rfl
      (Nat.zero_le _)]
    simp [List.range_eq_range']
  · rw [if_neg hn]
    exact GetMemrefValues.loop_overflow element num_values (by omega) INT_MAX 0 [] rfl
      (Nat.zero_le _)

theorem GetMemrefValues_range (mem : Memory) (operand_type : ShapedType) (desc : MemrefDesc)
    (hrank : desc.rank = 0 ∨ desc.rank = 1)
    (hdtype : desc.dtype = DType.I32 ∨ desc.dtype = DType.I64) :
    GetMemrefValues mem operand_type desc
      = some ⟨.rankedTensor desc.sizes operand_type.elementType,
          (List.range (GetMemrefValues.num_values desc)).map
            (fun i => ⟨.integer (if desc.dtype = DType.I32 then 32 else 64),
              mem desc.dtype desc.data i⟩)⟩ := by
  have hnot : ¬ (desc.rank ≠ 0 ∧ desc.rank ≠ 1) := by omega
  unfold GetMemrefValues GetMemrefValues.num_values
  rcases hdtype with hd | hd <;> simp [hnot, hd]

theorem GetMemrefValues_of_loop (mem : Memory) (operand_type : ShapedType) (desc : MemrefDesc)
    (hrank : desc.rank = 0 ∨ desc.rank = 1)
    (hdtype : desc.dtype = DType.I32 ∨ desc.dtype = DType.I64)
    (values : List IntegerAttr)
    (hloop : GetMemrefValues.loop
      (fun i => ⟨.integer (if desc.dtype = DType.I32 then 32 else 64),
        mem desc.dtype desc.data i⟩)
      (GetMemrefValues.num_values desc) 0 [] = some values) :
    GetMemrefValues mem operand_type desc
      = some ⟨.rankedTensor desc.sizes operand_type.elementType, values⟩ := by
  rw [GetMemrefValues.loop_eq] at hloop
  split at hloop
  · simp only [Option.some.injEq] at hloop
    rw [GetMemrefValues_range mem operand_type desc hrank hdtype, hloop]
  · simp at hloop

end JitRt
